import Mathlib

/-!
# Verification of the sea-streamer file-backed message log

Shallow embedding of `sea-streamer-file/src/messages.rs` (MessageSource /
MessageSink) over a byte-level model of the on-disk framing format.

The framing codecs (Header / Beacon / Marker / Message, RunningChecksum),
the raw byte source/sink (`DynFileSource`, `FileSink`) and the positioning
enums (`SeqPos`, `StreamMode`) belong to modules of this repository that are
not among the provided sources; they are modelled from the specification and
carry a doc comment saying so.  Everything in `messages.rs` is translated
faithfully.

A "byte" of the model is one `Nat` atom; records encode each fixed field as
one atom and bodies as a length-prefixed atom list, so record sizes vary with
the body and key data exactly as byte counts do on disk, and the
beacon-interval chunking arithmetic is the real one.

Loops of the source (`request_bytes`, the write loop, the rewind alignment
loop) are defined by structural recursion on an explicit fuel argument and
wrapped with a fuel value that is provably sufficient for every terminating
execution of the source; fuel exhaustion yields the model-artifact error
`FileErr.Fuel`, which corresponds to executions where the Rust code would
diverge or panic on a modulus by a zero `beacon_interval`.
-/

namespace SeaStreamer

/-- A byte string of the model: one `Nat` atom per on-disk field byte-group. -/
abbrev Bytes := List Nat

/-- Modelled from the spec: the per-message checksum is a pure function of the
encoded header+body bytes (a CRC-style value); modelled as the sum of the
encoded atoms modulo 2^16. -/
def checksumOf (bs : Bytes) : Nat := bs.sum % 65536

/-- Message header: stream key, shard id, sequence number, timestamp.
Stream keys and shard ids are atoms of the model. -/
structure MessageHeader where
  streamKey : Nat
  shardId : Nat
  seqNo : Nat
  timestamp : Nat
deriving DecidableEq, Repr

/-- A message as submitted to the sink: header plus body bytes. -/
structure OwnedMessage where
  header : MessageHeader
  payload : Bytes
deriving DecidableEq, Repr

/-- A framed message record: the message plus its stored checksum. -/
structure Message where
  message : OwnedMessage
  checksum : Nat
deriving DecidableEq, Repr

/-- Modelled from the spec: a Marker is one (stream key, shard) watermark
inside a Beacon — a message header carrying the maximum sequence number and
timestamp, plus a snapshot of the stream's running checksum. -/
structure Marker where
  header : MessageHeader
  runningChecksum : Nat
deriving DecidableEq, Repr

/-- Modelled from the spec: a Beacon is an ordered sequence of Markers plus
`remaining_messages_bytes`, the number of raw message bytes immediately
following the beacon before the next beacon boundary. -/
structure Beacon where
  remainingMessagesBytes : Nat
  items : List Marker
deriving DecidableEq, Repr

/-- Modelled from the spec: the file Header stores file name, creation
timestamp and `beacon_interval`; its encoded size is a constant. -/
structure Header where
  fileName : Nat
  createdAt : Nat
  beaconInterval : Nat
deriving DecidableEq, Repr

/-- Modelled from the spec: rolling accumulator over a stream's successive
per-message checksums. -/
structure RunningChecksum where
  value : Nat
deriving DecidableEq, Repr

def RunningChecksum.new : RunningChecksum := ⟨0⟩

def RunningChecksum.update (rc : RunningChecksum) (checksum : Nat) : RunningChecksum :=
  ⟨(rc.value + checksum) % 65536⟩

def RunningChecksum.crc (rc : RunningChecksum) : Nat := rc.value

/-- Modelled from the spec: encoding of a message header, one atom per field. -/
def MessageHeader.encode (h : MessageHeader) : Bytes :=
  [h.streamKey, h.shardId, h.seqNo, h.timestamp]

/-- Modelled from the spec: the checksummed portion of a message record —
stream key, shard id, sequence number, timestamp, body length, body bytes. -/
def OwnedMessage.encodePayload (m : OwnedMessage) : Bytes :=
  m.header.encode ++ m.payload.length :: m.payload

/-- Modelled from the spec: a full message record is the payload followed by
the stored checksum. -/
def Message.encodeFull (m : Message) : Bytes :=
  m.message.encodePayload ++ [m.checksum]

/-- Encoded size of a message record. -/
def Message.size (m : Message) : Nat := 6 + m.message.payload.length

/-- `Message::compute_checksum`: recompute the checksum of the encoded bytes. -/
def Message.computeChecksum (m : Message) : Nat := checksumOf m.message.encodePayload

/-- Stamp an outgoing message with its computed checksum, as
`Message::write_to` does while encoding. -/
def Message.stamped (m : OwnedMessage) : Message :=
  ⟨m, checksumOf m.encodePayload⟩

/-- Modelled from the spec: self-delimiting decoder of a message record. -/
def Message.decode : Bytes → Option (Message × Bytes)
  | k :: s :: q :: t :: bl :: rest =>
    if bl + 1 ≤ rest.length then
      match rest.drop bl with
      | c :: rest2 => some (⟨⟨⟨k, s, q, t⟩, rest.take bl⟩, c⟩, rest2)
      | [] => none
    else none
  | _ => none

/-- Modelled from the spec: encoding of one marker, one atom per field. -/
def Marker.encode (m : Marker) : Bytes :=
  m.header.encode ++ [m.runningChecksum]

/-- Modelled from the spec: decoder of a counted marker list. -/
def Marker.decodeList : Nat → Bytes → Option (List Marker × Bytes)
  | 0, bs => some ([], bs)
  | n + 1, k :: s :: q :: t :: rc :: rest =>
    (Marker.decodeList n rest).map fun p => (⟨⟨k, s, q, t⟩, rc⟩ :: p.1, p.2)
  | _ + 1, _ => none

/-- Modelled from the spec: a beacon encodes as marker count, markers,
`remaining_messages_bytes`. -/
def Beacon.encode (b : Beacon) : Bytes :=
  b.items.length :: ((b.items.map Marker.encode).flatten ++ [b.remainingMessagesBytes])

/-- `Beacon::size`: encoded size of a beacon. -/
def Beacon.size (b : Beacon) : Nat := 2 + 5 * b.items.length

/-- Modelled from the spec: self-delimiting decoder of a beacon record. -/
def Beacon.decode (bs : Bytes) : Option (Beacon × Bytes) :=
  match bs with
  | n :: rest =>
    (Marker.decodeList n rest).bind fun p =>
      match p.2 with
      | rm :: rest2 => some (⟨rm, p.1⟩, rest2)
      | [] => none
  | [] => none

/-- Modelled from the spec: marker capacity of a beacon grows with the
beacon interval so that an assembled beacon always fits strictly inside one
interval (`Beacon::num_markers`). -/
def Beacon.numMarkers (beaconInterval : Nat) : Nat := beaconInterval / 8

/-- Modelled from the spec: the constant `Header::size()`. -/
def Header.size : Nat := 3

/-- Modelled from the spec: encoding of the file header, one atom per field. -/
def Header.encode (h : Header) : Bytes := [h.fileName, h.createdAt, h.beaconInterval]

/-- Modelled from the spec: decoder of the file header. -/
def Header.decode : Bytes → Option (Header × Bytes)
  | f :: c :: b :: rest => some (⟨f, c, b⟩, rest)
  | _ => none

/-! ## Codec lemmas -/

theorem MessageHeader.encode_length_header (h : MessageHeader) : h.encode.length = 4 := rfl

theorem OwnedMessage.encodePayload_length (m : OwnedMessage) :
    m.encodePayload.length = 5 + m.payload.length := by
  simp [OwnedMessage.encodePayload, MessageHeader.encode]
  omega

theorem Message.encodeFull_length (m : Message) : m.encodeFull.length = m.size := by
  simp [Message.encodeFull, Message.size, OwnedMessage.encodePayload_length]
  omega

theorem Message.size_pos (m : Message) : 6 ≤ m.size := by
  simp [Message.size]

theorem Message.decode_encode_message (m : Message) (r : Bytes) :
    Message.decode (m.encodeFull ++ r) = some (m, r) := by
  obtain ⟨⟨⟨k, s, q, t⟩, body⟩, c⟩ := m
  simp only [Message.encodeFull, OwnedMessage.encodePayload, MessageHeader.encode]
  simp only [List.cons_append, List.append_assoc, List.singleton_append]
  simp [Message.decode, List.take_append, List.drop_append]

theorem Message.decode_some_message {bs rest : Bytes} {m : Message}
    (h : Message.decode bs = some (m, rest)) : bs = m.encodeFull ++ rest := by
  match bs, h with
  | k :: s :: q :: t :: bl :: r, h =>
    simp only [Message.decode] at h
    split at h
    · rename_i hle
      split at h
      · rename_i c rest2 hdrop
        injection h with h
        injection h with h1 h2
        subst h2
        have htk : (r.take bl).length = bl := by
          rw [List.length_take]
          omega
        cases h1
        simp only [Message.encodeFull, OwnedMessage.encodePayload, MessageHeader.encode]
        simp only [List.cons_append, List.append_assoc, List.singleton_append,
          List.nil_append]
        have hsplit : r = r.take bl ++ r.drop bl := (List.take_append_drop bl r).symm
        rw [hdrop] at hsplit
        rw [htk]
        exact congrArg (fun l => k :: s :: q :: t :: bl :: l) hsplit
      · exact absurd h (by simp)
    · exact absurd h (by simp)

theorem Marker.encode_length_marker (m : Marker) : m.encode.length = 5 := rfl

theorem Marker.decodeList_encode (ms : List Marker) (r : Bytes) :
    Marker.decodeList ms.length ((ms.map Marker.encode).flatten ++ r) = some (ms, r) := by
  induction ms with
  | nil => simp [Marker.decodeList]
  | cons m rest ih =>
    obtain ⟨⟨k, s, q, t⟩, rc⟩ := m
    simp only [List.map_cons, List.flatten_cons, List.length_cons]
    simp only [Marker.encode, MessageHeader.encode, List.cons_append, List.append_assoc]
    simp [Marker.decodeList, ih]

theorem Marker.decodeList_some :
    ∀ (n : Nat) (bs rest : Bytes) (ms : List Marker),
      Marker.decodeList n bs = some (ms, rest) →
      bs = (ms.map Marker.encode).flatten ++ rest ∧ ms.length = n := by
  intro n
  induction n with
  | zero =>
    intro bs rest ms h
    simp only [Marker.decodeList] at h
    injection h with h
    injection h with h1 h2
    subst h1; subst h2
    simp
  | succ n ih =>
    intro bs rest ms h
    match bs, h with
    | k :: s :: q :: t :: rc :: r, h =>
      simp only [Marker.decodeList, Option.map_eq_some'] at h
      obtain ⟨⟨ms0, rest0⟩, hdec, heq⟩ := h
      injection heq with h1 h2
      obtain ⟨hbs, hlen⟩ := ih r rest0 ms0 hdec
      subst h1
      subst h2
      constructor
      · simp only [List.map_cons, List.flatten_cons]
        rw [List.append_assoc, ← hbs]
        rfl
      · simp [hlen]

theorem Marker.encodeFlatten_length (ms : List Marker) :
    ((ms.map Marker.encode).flatten).length = 5 * ms.length := by
  induction ms with
  | nil => simp
  | cons m rest ih =>
    simp only [List.map_cons, List.flatten_cons, List.length_append, ih,
      Marker.encode_length_marker, List.length_cons]
    omega

theorem Beacon.encode_length (b : Beacon) : b.encode.length = b.size := by
  simp only [Beacon.encode, Beacon.size, List.length_cons, List.length_append,
    Marker.encodeFlatten_length, List.length_nil]
  omega

theorem Beacon.decode_encode (b : Beacon) (r : Bytes) :
    Beacon.decode (b.encode ++ r) = some (b, r) := by
  obtain ⟨rm, items⟩ := b
  simp only [Beacon.encode, List.cons_append, List.append_assoc, List.singleton_append]
  simp [Beacon.decode, Marker.decodeList_encode]

theorem Beacon.decode_some {bs rest : Bytes} {b : Beacon}
    (h : Beacon.decode bs = some (b, rest)) : bs = b.encode ++ rest := by
  match bs, h with
  | n :: r, h =>
    simp only [Beacon.decode, Option.bind_eq_some] at h
    obtain ⟨⟨ms, r2⟩, hdec, h2⟩ := h
    match r2, h2 with
    | rm :: rest2, h2 =>
      injection h2 with h2
      injection h2 with hb hr
      subst hr
      obtain ⟨hbs, hlen⟩ := Marker.decodeList_some n r (rm :: rest2) ms hdec
      cases hb
      simp only [Beacon.encode, List.cons_append, List.append_assoc, List.singleton_append]
      rw [hlen, hbs]
      simp

theorem Beacon.size_ge (b : Beacon) : 2 ≤ b.size := by
  simp [Beacon.size]

theorem Beacon.decode_length {bs rest : Bytes} {b : Beacon}
    (h : Beacon.decode bs = some (b, rest)) :
    bs.length = b.size + rest.length := by
  have := Beacon.decode_some h
  subst this
  simp [Beacon.encode_length]

/-! ## Error types

`FormatErr` lives in the unshown `format` module; its `ChecksumErr` variant
is constructed in `messages.rs` with the received and computed values.
`FileErr` is from `sea-streamer-file/src/error.rs`, extended with the
`FormatErr` variant used by `messages.rs` and two model artifacts. -/

/-- Modelled from the spec: format-level decoding failures, including the
checksum mismatch carrying both the on-disk and the recomputed value. -/
inductive FormatErr where
  | ChecksumErr (received : Nat) (computed : Nat) : FormatErr
  | DecodeErr : FormatErr
deriving DecidableEq, Repr

/-- `FileErr` (error.rs): error payloads are dropped in the model.
`Panicked` is a model artifact standing for a Rust panic (the `assert!` in
`MessageSource::new`).  `Fuel` is a model artifact returned when a loop's
fuel is exhausted; with the sufficient fuel bounds used by the wrappers
below it occurs only where the Rust loop would diverge or panic on a
modulus by a zero `beacon_interval`. -/
inductive FileErr where
  | IoError : FileErr
  | WatchError : FileErr
  | FileRemoved : FileErr
  | FileLimitExceeded : FileErr
  | WatchDead : FileErr
  | FormatErr (err : FormatErr) : FileErr
  | Panicked : FileErr
  | Fuel : FileErr
deriving DecidableEq, Repr

/-! ## Byte source and sink models -/

/-- `SeqPos` (sea-streamer-types), modelled from the spec: coarse
positioning request. -/
inductive SeqPos where
  | Beginning : SeqPos
  | At (nth : Nat) : SeqPos
  | End : SeqPos
deriving DecidableEq, Repr

/-- `StreamMode` (sea-streamer-types), modelled from the spec. -/
inductive StreamMode where
  | Live : StreamMode
  | LiveReplay : StreamMode
  | Replay : StreamMode
deriving DecidableEq, Repr

/-- Modelled from the spec: the pull-based byte reader over a file.  The
file's known size is the byte count; a pull past the known size fails (the
live-tailing wait for new bytes is out of the model's scope). -/
structure DynFileSource where
  bytes : Bytes
  pos : Nat
deriving DecidableEq, Repr

def DynFileSource.fileSize (s : DynFileSource) : Nat := s.bytes.length

/-- Modelled from the spec: pull exactly `n` bytes from the current
position, failing if the file does not hold them. -/
def DynFileSource.requestBytes (s : DynFileSource) (n : Nat) :
    Except FileErr (Bytes × DynFileSource) :=
  if s.pos + n ≤ s.bytes.length then
    .ok ((s.bytes.drop s.pos).take n, ⟨s.bytes, s.pos + n⟩)
  else .error .IoError

/-- Modelled from the spec: seek-by-position primitive; returns the new
byte position. -/
def DynFileSource.seek (s : DynFileSource) (pos : SeqPos) : Nat × DynFileSource :=
  match pos with
  | .Beginning => (0, ⟨s.bytes, 0⟩)
  | .At n => (min n s.bytes.length, ⟨s.bytes, min n s.bytes.length⟩)
  | .End => (s.bytes.length, ⟨s.bytes, s.bytes.length⟩)

/-- Modelled from the spec: `Beacon::read_from` decodes one beacon record
from the source's position, consuming exactly its encoded size. -/
def Beacon.readFrom (s : DynFileSource) : Except FileErr (Beacon × DynFileSource) :=
  match Beacon.decode (s.bytes.drop s.pos) with
  | some (b, _) => .ok (b, ⟨s.bytes, s.pos + b.size⟩)
  | none => .error (.FormatErr .DecodeErr)

/-- Modelled from the spec: `Header::read_from` decodes the file header,
consuming `Header::size()` bytes. -/
def Header.readFrom (s : DynFileSource) : Except FileErr (Header × DynFileSource) :=
  match Header.decode (s.bytes.drop s.pos) with
  | some (h, _) => .ok (h, ⟨s.bytes, s.pos + Header.size⟩)
  | none => .error (.FormatErr .DecodeErr)

/-- Modelled from the spec: the append-only byte sink with its size limit,
enforced synchronously per write. -/
structure FileSink where
  bytes : Bytes
  limit : Nat
deriving DecidableEq, Repr

/-- Modelled from the spec: append a chunk, returning the byte count
written, or fail with the limit error. -/
def FileSink.writeChunk (s : FileSink) (chunk : Bytes) : Except FileErr (Nat × FileSink) :=
  if s.bytes.length + chunk.length ≤ s.limit then
    .ok (chunk.length, ⟨s.bytes ++ chunk, s.limit⟩)
  else .error .FileLimitExceeded

/-- Modelled from the spec: flush with the current message count (a no-op
on the stored bytes). -/
def FileSink.flush (s : FileSink) (_messageCount : Nat) : Except FileErr FileSink :=
  .ok s

/-! ## MessageSource (messages.rs) -/

/-- `MessageSource`: a high level file reader that demuxes messages and
beacons (messages.rs). -/
structure MessageSource where
  source : DynFileSource
  buffer : Bytes
  offset : Nat
  beaconInterval : Nat
  beacon : Nat × List Marker
deriving DecidableEq, Repr

/-- `MessageSource::new_with`: header already read and skipped. -/
def MessageSource.newWith (source : DynFileSource) (offset : Nat)
    (beaconInterval : Nat) : MessageSource :=
  ⟨source, [], offset, beaconInterval, (0, [])⟩

def MessageSource.knownSize (st : MessageSource) : Nat := st.source.fileSize

/-- `MessageSource::has_beacon`: the offsets the reader treats as beacon
starts, with the beacon index. -/
def MessageSource.hasBeacon (st : MessageSource) : Option Nat :=
  if 0 < st.offset ∧ st.offset % st.beaconInterval = 0 then
    some (st.offset / st.beaconInterval)
  else none

/-- `MessageSource::clear_beacon`. -/
def MessageSource.clearBeacon (st : MessageSource) : MessageSource :=
  { st with beacon := (0, []) }

/-- Step (a) of the byte-pull contract: if positioned exactly at a beacon
boundary, decode that Beacon and fold it into the current beacon state. -/
def MessageSource.beaconStep (st : MessageSource) : Except FileErr MessageSource :=
  match st.hasBeacon with
  | some i =>
    match Beacon.readFrom st.source with
    | .error e => .error e
    | .ok p =>
      .ok { st with source := p.2, offset := st.offset + p.1.size, beacon := (i, p.1.items) }
  | none => .ok st

/-- The loop body of `MessageSource::request_bytes`, by fuel recursion.
Each iteration: (a) the beacon step above; (b) pull at most the bytes
remaining before the next boundary; return once the requested size is
assembled. -/
def MessageSource.requestBytesL : Nat → MessageSource → Nat →
    Except FileErr (Bytes × MessageSource)
  | 0, _, _ => .error .Fuel
  | fuel + 1, st, size =>
    match st.beaconStep with
    | .error e => .error e
    | .ok st1 =>
      match st1.source.requestBytes
          (min (size - st1.buffer.length)
            (st1.beaconInterval - st1.offset % st1.beaconInterval)) with
      | .error e => .error e
      | .ok p =>
        let st2 : MessageSource :=
          { st1 with
            source := p.2
            offset := st1.offset + min (size - st1.buffer.length)
              (st1.beaconInterval - st1.offset % st1.beaconInterval)
            buffer := st1.buffer ++ p.1 }
        if st2.buffer.length = size then .ok (st2.buffer, { st2 with buffer := [] })
        else MessageSource.requestBytesL fuel st2 size

/-- `MessageSource::request_bytes`, with fuel sufficient for every
terminating execution of the loop (each iteration that recurses grows the
buffer by at least one byte whenever `beacon_interval` is nonzero). -/
def MessageSource.requestBytes (st : MessageSource) (size : Nat) :
    Except FileErr (Bytes × MessageSource) :=
  MessageSource.requestBytesL (size + 1) st size

/-- `Message::read_from` over the `ByteSource` interface of
`MessageSource` (modelled from the spec: the decoder pulls the five header
atoms, then the body, then the checksum through the byte-pull contract). -/
def Message.readFrom (st : MessageSource) : Except FileErr (Message × MessageSource) :=
  (st.requestBytes 5).bind fun p1 =>
    match p1.1 with
    | [k, s, q, t, bl] =>
      (p1.2.requestBytes bl).bind fun p2 =>
        (p2.2.requestBytes 1).bind fun p3 =>
          match p3.1 with
          | [c] => .ok (⟨⟨⟨k, s, q, t⟩, p2.1⟩, c⟩, p3.2)
          | _ => .error (.FormatErr .DecodeErr)
    | _ => .error (.FormatErr .DecodeErr)

/-- `MessageSource::next`: decode one message, recompute its checksum, and
fail with a checksum mismatch carrying both values if they differ. -/
def MessageSource.next (st : MessageSource) : Except FileErr (Message × MessageSource) :=
  (Message.readFrom st).bind fun p =>
    let computed := p.1.computeChecksum
    if p.1.checksum ≠ computed then
      .error (.FormatErr (.ChecksumErr p.1.checksum computed))
    else .ok (p.1, p.2)

/-- Repeated `next()`. -/
def MessageSource.readN (st : MessageSource) : Nat →
    Except FileErr (List Message × MessageSource)
  | 0 => .ok ([], st)
  | n + 1 =>
    (st.next).bind fun p =>
      (p.2.readN n).map fun q => (p.1 :: q.1, q.2)

/-! ### rewind -/

/-- The `pos` computed at the start of `MessageSource::rewind`:
Beginning and `At(0)` map to the first byte after the Header, `At(nth)` to
`nth * beacon_interval` unless that reaches the known size, in which case
`End`. -/
def MessageSource.rewindSeekTarget (st : MessageSource) (target : SeqPos) : SeqPos :=
  match target with
  | .Beginning => .At Header.size
  | .At 0 => .At Header.size
  | .End => .End
  | .At nth =>
    if nth * st.beaconInterval < st.knownSize then .At (nth * st.beaconInterval)
    else .End

/-- The second-stage offset of `MessageSource::rewind`, computed only when
the first stage seeked to `End`: the last beacon-aligned offset, floored at
the Header boundary.  The `Beginning`/`At(0)` arms are `unreachable!()` in
the source and never taken. -/
def MessageSource.rewindStage2Pos (st : MessageSource) (target : SeqPos) : Nat :=
  let maxPos := Nat.max (st.knownSize - st.knownSize % st.beaconInterval) Header.size
  match target with
  | .Beginning => 0
  | .At 0 => 0
  | .End => maxPos
  | .At nth =>
    if nth * st.beaconInterval < st.knownSize then nth * st.beaconInterval
    else maxPos

/-- The byte offset at which `rewind` leaves the cursor after its seek
phase (both stages), before the beacon-alignment loop. -/
def MessageSource.rewindSeekOffset (st : MessageSource) (target : SeqPos) : Nat :=
  let pos := st.rewindSeekTarget target
  let off := (st.source.seek pos).1
  if pos = .End then
    let st1 : MessageSource := { st with source := (st.source.seek pos).2, offset := off }
    (st1.source.seek (.At (st1.rewindStage2Pos target))).1
  else off

/-- The beacon-alignment loop of `rewind`: while the offset sits exactly on
a beacon boundary, read and adopt that Beacon and discard
`remaining_messages_bytes` bytes of message payload (bounded by the room
left in the interval).  Note: in the source the bound is the `usize`
difference `beacon_interval - beacon_size`; the model uses truncating `Nat`
subtraction, which agrees whenever the beacon fits in one interval. -/
def MessageSource.alignLoop : Nat → MessageSource → Except FileErr MessageSource
  | 0, _ => .error .Fuel
  | fuel + 1, st =>
    match st.hasBeacon with
    | none => .ok st
    | some i =>
      (Beacon.readFrom st.source).bind fun (p : Beacon × DynFileSource) =>
        let beaconSize := p.1.size
        let st1 : MessageSource :=
          { st with source := p.2, offset := st.offset + beaconSize, beacon := (i, p.1.items) }
        (st1.source.requestBytes
            (min p.1.remainingMessagesBytes (st1.beaconInterval - beaconSize))).bind
          fun (q : Bytes × DynFileSource) =>
            MessageSource.alignLoop fuel
              { st1 with source := q.2, offset := st1.offset + q.1.length }

/-- The forward message-decoding loop of `rewind(End)`:
`while let Ok(message) = Message::read_from(&mut buffer) { next += size }`. -/
def MessageSource.consumeMessages : Nat → Nat → Bytes → Option Nat
  | 0, _, _ => none
  | fuel + 1, next, buf =>
    match Message.decode buf with
    | none => some next
    | some (m, rest) => MessageSource.consumeMessages fuel (next + m.size) rest

/-- `MessageSource::rewind` (messages.rs): seek to the coarse target, clear
buffer and beacon state, align forward over adjacent beacons, and for `End`
decode forward message-by-message up to the known size.  Returns the beacon
index reached (`offset / beacon_interval`).  Loop fuel is sufficient for
every terminating execution (the alignment loop consumes at least one
source byte per iteration, the decode loop at least one buffer byte). -/
def MessageSource.rewind (st : MessageSource) (target : SeqPos) :
    Except FileErr (Nat × MessageSource) :=
  let pos := st.rewindSeekTarget target
  let s1 := st.source.seek pos
  let st1 : MessageSource := { st with source := s1.2, offset := s1.1 }
  let st2 : MessageSource :=
    if pos = .End then
      let s2 := st1.source.seek (.At (st1.rewindStage2Pos target))
      { st1 with source := s2.2, offset := s2.1 }
    else st1
  let st3 : MessageSource := ({ st2 with buffer := [] } : MessageSource).clearBeacon
  (MessageSource.alignLoop (st3.source.bytes.length + 1) st3).bind fun st4 =>
    (if target = .End ∧ st4.offset < st4.knownSize then
      (st4.source.requestBytes (st4.knownSize - st4.offset)).bind
        fun (p : Bytes × DynFileSource) =>
          match MessageSource.consumeMessages (p.1.length + 1) st4.offset p.1 with
          | none => .error .Fuel
          | some next =>
            let st5 : MessageSource := { st4 with source := p.2 }
            let s3 := st5.source.seek (.At next)
            .ok { st5 with source := s3.2, offset := s3.1 }
     else .ok st4 : Except FileErr MessageSource).map fun st6 =>
      (st6.offset / st6.beaconInterval, st6)

/-- `MessageSource::new` (messages.rs): read and validate the Header and
fast-forward to the end in `Live` mode.  The Rust `assert!` on
`Header::size() < beacon_interval` is modelled as the `Panicked` artifact. -/
def MessageSource.new (file : Bytes) (mode : StreamMode) :
    Except FileErr MessageSource :=
  (Header.readFrom ⟨file, 0⟩).bind fun (p : Header × DynFileSource) =>
    if Header.size < p.1.beaconInterval then
      let st := MessageSource.newWith p.2 Header.size p.1.beaconInterval
      if mode = .Live then (st.rewind .End).map fun q => q.2
      else .ok st
    else .error .Panicked

/-! ## MessageSink (messages.rs) -/

/-- `BeaconState` (messages.rs): writer-side per-(stream key, shard)
running maxima and running checksum. -/
structure BeaconState where
  seqNo : Nat
  ts : Nat
  runningChecksum : RunningChecksum
deriving DecidableEq, Repr

/-- Strict ordering of (stream key, shard) keys, mirroring the `BTreeMap`
iteration order. -/
def keyLt (a b : Nat × Nat) : Prop :=
  a.1 < b.1 ∨ (a.1 = b.1 ∧ a.2 < b.2)

instance : DecidableRel keyLt := fun a b => by
  unfold keyLt
  infer_instance

/-- `BTreeMap::entry(key).or_insert(dflt)` followed by an update of the
entry, on the sorted association-list model of the map. -/
def btreeUpdate (k : Nat × Nat) (f : BeaconState → BeaconState) (dflt : BeaconState) :
    List ((Nat × Nat) × BeaconState) → List ((Nat × Nat) × BeaconState)
  | [] => [(k, f dflt)]
  | (k1, v) :: rest =>
    if k = k1 then (k1, f v) :: rest
    else if keyLt k k1 then (k, f dflt) :: (k1, v) :: rest
    else (k1, v) :: btreeUpdate k f dflt rest

/-- Lookup in the association-list model of the `BTreeMap`. -/
def btreeFind (k : Nat × Nat) : List ((Nat × Nat) × BeaconState) → Option BeaconState
  | [] => none
  | (k1, v) :: rest => if k = k1 then some v else btreeFind k rest

/-- `MessageSink` (messages.rs): a high level file writer that muxes
messages and beacons. -/
structure MessageSink where
  sink : FileSink
  offset : Nat
  beaconInterval : Nat
  beacon : List ((Nat × Nat) × BeaconState)
  beaconCount : Nat
  messageCount : Nat
deriving DecidableEq, Repr

def MessageSink.file (s : MessageSink) : Bytes := s.sink.bytes

/-- The beacon-state update performed by `MessageSink::write` before any
byte is committed: `entry(key).or_insert(..)`, then `max` of sequence
number and timestamp, then folding the message checksum into the running
checksum. -/
def MessageSink.updateBeaconState (sink : MessageSink) (key : Nat × Nat)
    (seqNo ts checksum : Nat) : MessageSink :=
  { sink with
    beacon := btreeUpdate key
      (fun v => ⟨Nat.max seqNo v.seqNo, Nat.max ts v.ts, v.runningChecksum.update checksum⟩)
      ⟨seqNo, ts, RunningChecksum.new⟩ sink.beacon }

/-- The round-robin marker selection of `MessageSink::write`:
`iter().skip(beacon_count % len).chain(iter()).take(min(len, num_markers))`. -/
def selectMarkers (m : List ((Nat × Nat) × BeaconState)) (count : Nat) (numMarkers : Nat) :
    List ((Nat × Nat) × BeaconState) :=
  ((m.drop (count % m.length)) ++ m).take (min m.length numMarkers)

/-- The Marker assembled from one map entry. -/
def markerOf (e : (Nat × Nat) × BeaconState) : Marker :=
  ⟨⟨e.1.1, e.1.2, e.2.seqNo, e.2.ts⟩, e.2.runningChecksum.crc⟩

/-- The beacon assembly and write performed by `MessageSink::write` when the
offset lands exactly on a beacon boundary. -/
def MessageSink.writeBeaconAt (sink : MessageSink) (remaining : Nat) :
    Except FileErr MessageSink :=
  let num := Beacon.numMarkers sink.beaconInterval
  let items := (selectMarkers sink.beacon sink.beaconCount num).map markerOf
  let beacon : Beacon := ⟨remaining, items⟩
  (sink.sink.writeChunk beacon.encode).map fun (p : Nat × FileSink) =>
    { sink with
      sink := p.2
      offset := sink.offset + p.1
      beaconCount := sink.beaconCount + items.length }

/-- The chunking loop of `MessageSink::write`, by fuel recursion: write the
scratch buffer in chunks sized to exactly fill up to the next beacon
boundary; whenever the cumulative offset lands exactly on a boundary,
assemble and write a Beacon before continuing. -/
def MessageSink.writeLoop : Nat → MessageSink → Bytes → Except FileErr MessageSink
  | 0, _, _ => .error .Fuel
  | fuel + 1, sink, buffer =>
    if buffer.isEmpty then .ok sink
    else
      let room := sink.beaconInterval - sink.offset % sink.beaconInterval
      let c := min room buffer.length
      (sink.sink.writeChunk (buffer.take c)).bind fun (p : Nat × FileSink) =>
        let sink1 : MessageSink := { sink with sink := p.2, offset := sink.offset + p.1 }
        (if 0 < sink1.offset ∧ sink1.offset % sink1.beaconInterval = 0 then
          sink1.writeBeaconAt (buffer.length - c)
         else .ok sink1).bind fun sink2 =>
          MessageSink.writeLoop fuel sink2 (buffer.drop c)

/-- `MessageSink::write` (messages.rs): encode the message and its computed
checksum into a scratch buffer, update the in-memory BeaconState for its
key, then commit the buffer in boundary-sized chunks with beacons
interleaved; finally bump the message count and flush.  Loop fuel is
sufficient for every terminating execution (each iteration consumes at
least one buffer byte whenever `beacon_interval` is nonzero). -/
def MessageSink.write (sink : MessageSink) (message : OwnedMessage) :
    Except FileErr (Nat × MessageSink) :=
  let key := (message.header.streamKey, message.header.shardId)
  let checksum := checksumOf message.encodePayload
  let buffer := message.encodePayload ++ [checksum]
  let sink1 := sink.updateBeaconState key message.header.seqNo message.header.timestamp checksum
  (MessageSink.writeLoop (buffer.length + 1) sink1 buffer).bind fun sink2 =>
    let sink3 : MessageSink := { sink2 with messageCount := sink2.messageCount + 1 }
    (sink3.sink.flush sink3.messageCount).map fun fs => (checksum, { sink3 with sink := fs })

/-- `MessageSink::new` (messages.rs): open the sink, write the Header,
flush with message count zero.  The `beacon_interval` argument is stored
without validation. -/
def MessageSink.new (fileName createdAt : Nat) (beaconInterval : Nat) (limit : Nat) :
    Except FileErr MessageSink :=
  let sink : FileSink := ⟨[], limit⟩
  let header : Header := ⟨fileName, createdAt, beaconInterval⟩
  (sink.writeChunk header.encode).bind fun (p : Nat × FileSink) =>
    (p.2.flush 0).map fun fs =>
      { sink := fs
        offset := p.1
        beaconInterval := beaconInterval
        beacon := []
        beaconCount := 0
        messageCount := 0 }

/-- Repeated `write`. -/
def MessageSink.writeAll (sink : MessageSink) : List OwnedMessage →
    Except FileErr MessageSink
  | [] => .ok sink
  | m :: ms => (sink.write m).bind fun p => p.2.writeAll ms

/-! ## The demultiplexed view of a byte range

`scanAt bi o bytes` walks the byte range `bytes` that starts at absolute
file offset `o`, using the reader's boundary arithmetic: at every positive
multiple of `bi` a beacon record is decoded and skipped, all other bytes
are message-stream bytes.  It returns the concatenated message bytes and
the list of offsets at which beacon records begin. -/

def scanL : Nat → Nat → Nat → Bytes → Option (Bytes × List Nat)
  | 0, _, _, _ => none
  | fuel + 1, bi, o, bytes =>
    if bytes.isEmpty then some ([], [])
    else if 0 < o ∧ o % bi = 0 then
      (Beacon.decode bytes).bind fun p =>
        (scanL fuel bi (o + p.1.size) p.2).map fun r => (r.1, o :: r.2)
    else
      let c := min (bi - o % bi) bytes.length
      (scanL fuel bi (o + c) (bytes.drop c)).map fun r => (bytes.take c ++ r.1, r.2)

def scanAt (bi o : Nat) (bytes : Bytes) : Option (Bytes × List Nat) :=
  scanL (bytes.length + 1) bi o bytes

theorem length_pos_of_not_isEmpty {bytes : Bytes} (h : ¬bytes.isEmpty = true) :
    1 ≤ bytes.length := by
  cases bytes with
  | nil => simp at h
  | cons a l => simp

theorem scanL_fuel (bi : Nat) (hbi : 1 ≤ bi) :
    ∀ fuel1 fuel2 o (bytes : Bytes), bytes.length < fuel1 → bytes.length < fuel2 →
      scanL fuel1 bi o bytes = scanL fuel2 bi o bytes := by
  intro fuel1
  induction fuel1 with
  | zero => intro fuel2 o bytes h1; omega
  | succ fuel1 ih =>
    intro fuel2 o bytes h1 h2
    match fuel2, h2 with
    | fuel2 + 1, h2 =>
      rw [scanL, scanL]
      by_cases hemp : bytes.isEmpty = true
      · rw [if_pos hemp, if_pos hemp]
      · rw [if_neg hemp, if_neg hemp]
        have hlen := length_pos_of_not_isEmpty hemp
        by_cases hbd : 0 < o ∧ o % bi = 0
        · rw [if_pos hbd, if_pos hbd]
          cases hdec : Beacon.decode bytes with
          | none => rfl
          | some p =>
            obtain ⟨b, rest⟩ := p
            have hl := Beacon.decode_length hdec
            have hb2 := Beacon.size_ge b
            show ((scanL fuel1 bi (o + b.size) rest).map fun r => (r.1, o :: r.2)) =
              (scanL fuel2 bi (o + b.size) rest).map fun r => (r.1, o :: r.2)
            rw [ih fuel2 (o + b.size) rest (by omega) (by omega)]
        · rw [if_neg hbd, if_neg hbd]
          have hmod : o % bi < bi := Nat.mod_lt _ (by omega)
          have hc : 1 ≤ min (bi - o % bi) bytes.length := by omega
          dsimp only
          rw [ih fuel2 _ _ (by simp only [List.length_drop]; omega)
            (by simp only [List.length_drop]; omega)]

theorem scanAt_fuel (bi : Nat) (hbi : 1 ≤ bi) (fuel o : Nat) (bytes : Bytes)
    (h : bytes.length < fuel) : scanL fuel bi o bytes = scanAt bi o bytes :=
  scanL_fuel bi hbi fuel (bytes.length + 1) o bytes h (by omega)

theorem scanAt_nil (bi o : Nat) : scanAt bi o [] = some ([], []) := rfl

/-- Beacon-branch unfolding of `scanAt`: at a positive beacon boundary the
walk decodes the beacon there and continues past it. -/
theorem scanAt_beacon {bi o : Nat} {bytes rest : Bytes} {b : Beacon} (hbi : 1 ≤ bi)
    (hbd : 0 < o ∧ o % bi = 0) (hne : ¬bytes.isEmpty = true)
    (hdec : Beacon.decode bytes = some (b, rest)) :
    scanAt bi o bytes = (scanAt bi (o + b.size) rest).map fun r => (r.1, o :: r.2) := by
  have hl := Beacon.decode_length hdec
  have hb2 := Beacon.size_ge b
  have hlen := length_pos_of_not_isEmpty hne
  conv_lhs => rw [scanAt]
  rw [scanL, if_neg hne, if_pos hbd, hdec]
  show ((scanL bytes.length bi (o + b.size) rest).map fun r => (r.1, o :: r.2)) = _
  rw [scanAt_fuel bi hbi _ _ rest (by omega)]

/-- Chunk-branch unfolding of `scanAt`: away from a boundary the walk takes
all bytes up to the next boundary as message bytes. -/
theorem scanAt_chunk {bi o : Nat} {bytes : Bytes} (hbi : 1 ≤ bi)
    (hbd : ¬(0 < o ∧ o % bi = 0)) (hne : ¬bytes.isEmpty = true) :
    scanAt bi o bytes =
      (scanAt bi (o + min (bi - o % bi) bytes.length)
          (bytes.drop (min (bi - o % bi) bytes.length))).map
        fun r => (bytes.take (min (bi - o % bi) bytes.length) ++ r.1, r.2) := by
  have hlen := length_pos_of_not_isEmpty hne
  have hmod : o % bi < bi := Nat.mod_lt _ (by omega)
  have hc : 1 ≤ min (bi - o % bi) bytes.length := by omega
  conv_lhs => rw [scanAt]
  rw [scanL, if_neg hne, if_neg hbd]
  dsimp only
  rw [scanAt_fuel bi hbi _ _ _ (by simp only [List.length_drop]; omega)]

/-- The message-byte output of a scan is no longer than its input. -/
theorem scanAt_length_le (bi : Nat) (hbi : 1 ≤ bi) :
    ∀ (n : Nat) (o : Nat) (bytes : Bytes) (M : Bytes) (L : List Nat),
      bytes.length ≤ n →
      scanAt bi o bytes = some (M, L) → M.length ≤ bytes.length := by
  intro n
  induction n with
  | zero =>
    intro o bytes M L hn h
    match bytes, hn with
    | [], _ =>
      rw [scanAt_nil] at h
      injection h with h
      injection h with h1 h2
      subst h1
      simp
  | succ n ih =>
    intro o bytes M L hn h
    by_cases hemp : bytes.isEmpty = true
    · match bytes, hemp with
      | [], _ =>
        rw [scanAt_nil] at h
        injection h with h
        injection h with h1 h2
        subst h1
        simp
    · have hlen := length_pos_of_not_isEmpty hemp
      by_cases hbd : 0 < o ∧ o % bi = 0
      · cases hdec : Beacon.decode bytes with
        | none =>
          rw [scanAt, scanL, if_neg hemp, if_pos hbd, hdec] at h
          exact absurd h (by simp)
        | some p =>
          obtain ⟨b, rest⟩ := p
          rw [scanAt_beacon hbi hbd hemp hdec] at h
          have hl := Beacon.decode_length hdec
          have hb2 := Beacon.size_ge b
          simp only [Option.map_eq_some'] at h
          obtain ⟨⟨M0, L0⟩, hscan, heq⟩ := h
          injection heq with h1 h2
          have h1a : M0 = M := h1
          subst h1a
          have := ih (o + b.size) rest M0 L0 (by omega) hscan
          omega
      · rw [scanAt_chunk hbi hbd hemp] at h
        have hmod : o % bi < bi := Nat.mod_lt _ (by omega)
        have hc : 1 ≤ min (bi - o % bi) bytes.length := by omega
        simp only [Option.map_eq_some'] at h
        obtain ⟨⟨M0, L0⟩, hscan, heq⟩ := h
        injection heq with h1 h2
        subst h2
        have := ih _ _ M0 L0 (by simp only [List.length_drop]; omega) hscan
        subst h1
        simp only [List.length_append, List.length_take]
        simp only [List.length_drop] at this
        omega

/-- Destructured boundary step: a successful scan at a positive beacon
boundary yields a decodable beacon there. -/
theorem scanAt_boundary_dest {bi o : Nat} {bytes M : Bytes} {L : List Nat}
    (hbi : 1 ≤ bi) (hbd : 0 < o ∧ o % bi = 0) (hne : ¬bytes.isEmpty = true)
    (h : scanAt bi o bytes = some (M, L)) :
    ∃ b rest L2, Beacon.decode bytes = some (b, rest) ∧
      scanAt bi (o + b.size) rest = some (M, L2) ∧ L = o :: L2 := by
  cases hdec : Beacon.decode bytes with
  | none =>
    rw [scanAt, scanL, if_neg hne, if_pos hbd, hdec] at h
    exact absurd h (by simp)
  | some p =>
    obtain ⟨b, rest⟩ := p
    rw [scanAt_beacon hbi hbd hne hdec] at h
    simp only [Option.map_eq_some'] at h
    obtain ⟨⟨M0, L0⟩, hscan, heq⟩ := h
    injection heq with h1 h2
    have h1a : M0 = M := h1
    have h2a : o :: L0 = L := h2
    subst h1a
    exact ⟨b, rest, L0, rfl, hscan, h2a.symm⟩

/-- If `o % bi + k < bi` then adding `k` does not wrap the interval. -/
theorem add_mod_of_lt {o k bi : Nat} (h : o % bi + k < bi) :
    (o + k) % bi = o % bi + k := by
  conv_lhs => rw [← Nat.div_add_mod o bi]
  rw [Nat.add_assoc, Nat.mul_add_mod]
  exact Nat.mod_eq_of_lt h

/-- A range that fits inside the current interval scans to itself with no
beacons. -/
theorem scanAt_within {bi o : Nat} {bytes : Bytes} (hbi : 1 ≤ bi)
    (hbd : ¬(0 < o ∧ o % bi = 0)) (hlen : bytes.length ≤ bi - o % bi) :
    scanAt bi o bytes = some (bytes, []) := by
  by_cases hne : bytes.isEmpty = true
  · match bytes, hne with
    | [], _ => exact scanAt_nil bi o
  · have h1 := length_pos_of_not_isEmpty hne
    rw [scanAt_chunk hbi hbd hne]
    have hm : min (bi - o % bi) bytes.length = bytes.length := by omega
    rw [hm]
    simp [scanAt_nil]

/-- Appending byte ranges concatenates their scans. -/
theorem scanAt_append (bi : Nat) (hbi : 1 ≤ bi) :
    ∀ (n : Nat) (X Y M N : Bytes) (L K : List Nat) (o : Nat),
      X.length ≤ n →
      scanAt bi o X = some (M, L) →
      scanAt bi (o + X.length) Y = some (N, K) →
      scanAt bi o (X ++ Y) = some (M ++ N, L ++ K) := by
  intro n
  induction n with
  | zero =>
    intro X Y M N L K o hn hX hY
    match X, hn with
    | [], _ =>
      rw [scanAt_nil] at hX
      injection hX with hX
      injection hX with h1 h2
      subst h1; subst h2
      simpa using hY
  | succ n ih =>
    intro X Y M N L K o hn hX hY
    by_cases hempX : X.isEmpty = true
    · match X, hempX with
      | [], _ =>
        rw [scanAt_nil] at hX
        injection hX with hX
        injection hX with h1 h2
        subst h1; subst h2
        simpa using hY
    · have hlenX := length_pos_of_not_isEmpty hempX
      have hempXY : ¬(X ++ Y).isEmpty = true := by
        cases X with
        | nil => simp at hempX
        | cons a l => simp
      by_cases hbd : 0 < o ∧ o % bi = 0
      · -- beacon at the start of X
        obtain ⟨b, rest, L2, hdec, hscan, hL⟩ := scanAt_boundary_dest hbi hbd hempX hX
        have hXeq := Beacon.decode_some hdec
        have hl := Beacon.decode_length hdec
        have hb2 := Beacon.size_ge b
        have hdec2 : Beacon.decode (X ++ Y) = some (b, rest ++ Y) := by
          rw [hXeq, List.append_assoc]
          exact Beacon.decode_encode b (rest ++ Y)
        have hrest : scanAt bi (o + b.size + rest.length) Y = some (N, K) := by
          have : o + b.size + rest.length = o + X.length := by omega
          rw [this]; exact hY
        have := ih rest Y M N L2 K (o + b.size) (by omega) hscan hrest
        rw [scanAt_beacon hbi hbd hempXY hdec2, this]
        subst hL
        rfl
      · -- chunk at the start of X
        have hmod : o % bi < bi := Nat.mod_lt _ (by omega)
        rw [scanAt_chunk hbi hbd hempX] at hX
        simp only [Option.map_eq_some'] at hX
        obtain ⟨⟨M0, L0⟩, hscan, heq⟩ := hX
        injection heq with h1 h2
        have h1a : X.take (min (bi - o % bi) X.length) ++ M0 = M := h1
        have h2a : L0 = L := h2
        subst h2a
        by_cases hsz : bi - o % bi ≤ X.length
        · -- the chunk fills exactly up to the boundary inside X
          have hm : min (bi - o % bi) X.length = bi - o % bi := by omega
          rw [hm] at hscan h1a
          have hYoff : scanAt bi (o + (bi - o % bi) + (X.drop (bi - o % bi)).length) Y
              = some (N, K) := by
            have heq2 : o + (bi - o % bi) + (X.drop (bi - o % bi)).length = o + X.length := by
              simp only [List.length_drop]; omega
            rw [heq2]; exact hY
          have hrec := ih (X.drop (bi - o % bi)) Y M0 N L0 K (o + (bi - o % bi))
            (by simp only [List.length_drop]; omega) hscan hYoff
          rw [scanAt_chunk hbi hbd hempXY]
          have hmXY : min (bi - o % bi) (X ++ Y).length = bi - o % bi := by
            simp only [List.length_append]; omega
          rw [hmXY]
          have htake : (X ++ Y).take (bi - o % bi) = X.take (bi - o % bi) :=
            List.take_append_of_le_length (by omega)
          have hdrop : (X ++ Y).drop (bi - o % bi) = X.drop (bi - o % bi) ++ Y :=
            List.drop_append_of_le_length (by omega)
          rw [htake, hdrop, hrec]
          simp only [Option.map_some']
          rw [← h1a]
          simp [List.append_assoc]
        · -- all of X fits inside the current interval
          have hm : min (bi - o % bi) X.length = X.length := by omega
          rw [hm] at hscan h1a
          rw [List.drop_length, scanAt_nil] at hscan
          rw [List.take_length] at h1a
          injection hscan with hscan
          injection hscan with hs1 hs2
          subst hs2
          have hMX : X = M := by rw [← h1a, ← hs1]; simp
          subst hMX
          -- walk of X ++ Y: one chunk covering X and the head chunk of Y
          by_cases hempY : Y.isEmpty = true
          · match Y, hempY with
            | [], _ =>
              rw [scanAt_nil] at hY
              injection hY with hY
              injection hY with hN hK
              subst hN; subst hK
              simpa using scanAt_within hbi hbd (by omega)
          · have hlenY := length_pos_of_not_isEmpty hempY
            have hmodeq : (o + X.length) % bi = o % bi + X.length :=
              add_mod_of_lt (by omega)
            have hbd2 : ¬(0 < o + X.length ∧ (o + X.length) % bi = 0) := by
              intro hcon
              rw [hmodeq] at hcon
              omega
            rw [scanAt_chunk hbi hbd2 hempY, hmodeq] at hY
            simp only [Option.map_eq_some'] at hY
            obtain ⟨⟨N0, K0⟩, hscanY, heqY⟩ := hY
            injection heqY with hy1 hy2
            have hy1a : Y.take (min (bi - (o % bi + X.length)) Y.length) ++ N0 = N := hy1
            have hy2a : K0 = K := hy2
            subst hy2a
            rw [scanAt_chunk hbi hbd hempXY]
            have hcstar : min (bi - o % bi) (X ++ Y).length
                = X.length + min (bi - (o % bi + X.length)) Y.length := by
              simp only [List.length_append]
              omega
            rw [hcstar]
            have htake2 : (X ++ Y).take (X.length + min (bi - (o % bi + X.length)) Y.length)
                = X ++ Y.take (min (bi - (o % bi + X.length)) Y.length) := by
              rw [List.take_append]
            have hdrop2 : (X ++ Y).drop (X.length + min (bi - (o % bi + X.length)) Y.length)
                = Y.drop (min (bi - (o % bi + X.length)) Y.length) := by
              rw [List.drop_append]
            rw [htake2, hdrop2]
            have hoff : o + (X.length + min (bi - (o % bi + X.length)) Y.length)
                = o + X.length + min (bi - (o % bi + X.length)) Y.length := by omega
            rw [hoff, hscanY]
            simp only [Option.map_some']
            rw [← hy1a]
            simp [List.append_assoc]

/-- Splitting a scan after `c` message bytes pulled inside one interval:
the first `c` scanned bytes are the first `c` raw bytes, and the remaining
range scans to the remaining message bytes. -/
theorem scanAt_take {bi o c : Nat} {S M : Bytes} {L : List Nat} (hbi : 1 ≤ bi)
    (hbd : ¬(0 < o ∧ o % bi = 0)) (h : scanAt bi o S = some (M, L))
    (hc1 : c ≤ bi - o % bi) (hc2 : c ≤ M.length) :
    M.take c = S.take c ∧ scanAt bi (o + c) (S.drop c) = some (M.drop c, L) := by
  rcases Nat.eq_zero_or_pos c with hc0 | hcpos
  · subst hc0
    exact ⟨by simp, by simpa using h⟩
  · have hMS : M.length ≤ S.length := scanAt_length_le bi hbi S.length o S M L le_rfl h
    have hSne : ¬S.isEmpty = true := by
      cases S with
      | nil =>
        simp only [List.length_nil, Nat.le_zero] at hMS
        omega
      | cons a l => simp
    have hSlen := length_pos_of_not_isEmpty hSne
    have hmod : o % bi < bi := Nat.mod_lt _ (by omega)
    rw [scanAt_chunk hbi hbd hSne] at h
    simp only [Option.map_eq_some'] at h
    obtain ⟨⟨M0, L0⟩, hscan, heq⟩ := h
    injection heq with h1 h2
    have h1a : S.take (min (bi - o % bi) S.length) ++ M0 = M := h1
    have h2a : L0 = L := h2
    subst h2a
    have hcc : c ≤ min (bi - o % bi) S.length := by
      have : M.length = min (bi - o % bi) S.length + M0.length := by
        rw [← h1a]
        simp only [List.length_append, List.length_take]
        omega
      omega
    by_cases hceq : c = min (bi - o % bi) S.length
    · subst hceq
      constructor
      · rw [← h1a, List.take_append_of_le_length (by simp [List.length_take])]
        simp
      · have hMd : M.drop (min (bi - o % bi) S.length) = M0 := by
          rw [← h1a, List.drop_append_of_le_length (by simp [List.length_take])]
          simp
        rw [hMd]
        exact hscan
    · have hclt : c < min (bi - o % bi) S.length := by omega
      have htkc : M.take c = S.take c := by
        rw [← h1a, List.take_append_of_le_length (by simp [List.length_take]; omega),
          List.take_take]
        congr 1
        omega
      refine ⟨htkc, ?_⟩
      have hobd : ¬(0 < o + c ∧ (o + c) % bi = 0) := by
        intro hcon
        have := @add_mod_of_lt o c bi (by omega)
        omega
      have hdne : ¬(S.drop c).isEmpty = true := by
        have : c < S.length := by omega
        cases hd : S.drop c with
        | nil =>
          have := congrArg List.length hd
          simp only [List.length_drop, List.length_nil] at this
          omega
        | cons a l => simp
      rw [scanAt_chunk hbi hobd hdne]
      have hmodc : (o + c) % bi = o % bi + c := add_mod_of_lt (by omega)
      have hcmin : min (bi - (o + c) % bi) (S.drop c).length
          = min (bi - o % bi) S.length - c := by
        rw [hmodc]
        simp only [List.length_drop]
        omega
      rw [hcmin]
      have hdd : (S.drop c).drop (min (bi - o % bi) S.length - c)
          = S.drop (min (bi - o % bi) S.length) := by
        rw [List.drop_drop]
        congr 1
        omega
      have hoo : o + c + (min (bi - o % bi) S.length - c) = o + min (bi - o % bi) S.length := by
        omega
      rw [hdd, hoo, hscan]
      simp only [Option.map_some']
      have hdt : (S.drop c).take (min (bi - o % bi) S.length - c)
          = (S.take (min (bi - o % bi) S.length)).drop c := by
        rw [List.drop_take]
      have hMdc : M.drop c = (S.take (min (bi - o % bi) S.length)).drop c ++ M0 := by
        rw [← h1a, List.drop_append_of_le_length (by simp [List.length_take]; omega)]
      rw [hMdc, hdt]

/-! ## Reader correctness -/

theorem DynFileSource.requestBytes_ok {s s' : DynFileSource} {n : Nat} {bts : Bytes}
    (h : s.requestBytes n = .ok (bts, s')) :
    bts = (s.bytes.drop s.pos).take n ∧ s'.bytes = s.bytes ∧ s'.pos = s.pos + n ∧
      s.pos + n ≤ s.bytes.length ∧ bts.length = n := by
  rw [DynFileSource.requestBytes] at h
  split at h
  · rename_i hle
    injection h with h
    injection h with h1 h2
    subst h2
    refine ⟨h1.symm, rfl, rfl, hle, ?_⟩
    rw [← h1]
    simp only [List.length_take, List.length_drop]
    omega
  · exact absurd h (by simp)

theorem Beacon.readFrom_ok {s s' : DynFileSource} {b : Beacon}
    (h : Beacon.readFrom s = .ok (b, s')) :
    ∃ rest, Beacon.decode (s.bytes.drop s.pos) = some (b, rest) ∧
      s'.bytes = s.bytes ∧ s'.pos = s.pos + b.size := by
  rw [Beacon.readFrom] at h
  cases hdec : Beacon.decode (s.bytes.drop s.pos) with
  | none =>
    rw [hdec] at h
    exact absurd h (by simp)
  | some p =>
    obtain ⟨b0, rest0⟩ := p
    rw [hdec] at h
    have h2 : Except.ok (ε := FileErr)
        (b0, ({ bytes := s.bytes, pos := s.pos + b0.size } : DynFileSource))
        = Except.ok (b, s') := h
    injection h2 with h2
    injection h2 with h2a h2b
    subst h2b
    cases h2a
    exact ⟨rest0, rfl, rfl, rfl⟩

/-- Structure of a successful beacon step. -/
theorem MessageSource.beaconStep_ok {st st1 : MessageSource} (h : st.beaconStep = .ok st1) :
    st1.buffer = st.buffer ∧ st1.beaconInterval = st.beaconInterval ∧
      st1.source.bytes = st.source.bytes ∧
      ((st1 = st ∧ st.hasBeacon = none) ∨
        (∃ i b rest, st.hasBeacon = some i ∧
          Beacon.decode (st.source.bytes.drop st.source.pos) = some (b, rest) ∧
          st1.offset = st.offset + b.size ∧ st1.source.pos = st.source.pos + b.size ∧
          st1.beacon = (i, b.items))) := by
  rw [MessageSource.beaconStep] at h
  cases hhb : st.hasBeacon with
  | none =>
    rw [hhb] at h
    have h2 : Except.ok (ε := FileErr) st = Except.ok st1 := h
    injection h2 with h2
    subst h2
    exact ⟨rfl, rfl, rfl, Or.inl ⟨rfl, rfl⟩⟩
  | some i =>
    rw [hhb] at h
    cases hrf : Beacon.readFrom st.source with
    | error e =>
      rw [hrf] at h
      exact absurd h (by simp)
    | ok p =>
      obtain ⟨b, src'⟩ := p
      rw [hrf] at h
      obtain ⟨rest, hdec, hsb, hsp⟩ := Beacon.readFrom_ok hrf
      have h2 : Except.ok (ε := FileErr)
          ({ st with
              source := src'
              offset := st.offset + b.size
              beacon := (i, b.items) } : MessageSource) = Except.ok st1 := h
      injection h2 with h2
      subst h2
      exact ⟨rfl, rfl, hsb, Or.inr ⟨i, b, rest, rfl, hdec, rfl, hsp, rfl⟩⟩

theorem requestBytesL_fuel :
    ∀ f1 f2 (st : MessageSource) (size : Nat),
      1 ≤ st.beaconInterval →
      st.buffer.length ≤ size →
      size - st.buffer.length < f1 →
      size - st.buffer.length < f2 →
      MessageSource.requestBytesL f1 st size = MessageSource.requestBytesL f2 st size := by
  intro f1
  induction f1 with
  | zero => intro f2 st size _ _ h1; omega
  | succ f1 ih =>
    intro f2 st size hbi hbuf h1 h2
    match f2, h2 with
    | f2 + 1, h2 =>
      rw [MessageSource.requestBytesL, MessageSource.requestBytesL]
      cases hbs : st.beaconStep with
      | error e => rfl
      | ok st1 =>
        obtain ⟨hb1, hb2, hb3, _⟩ := MessageSource.beaconStep_ok hbs
        dsimp only
        cases hrq : st1.source.requestBytes
            (min (size - st1.buffer.length)
              (st1.beaconInterval - st1.offset % st1.beaconInterval)) with
        | error e => rfl
        | ok p =>
          obtain ⟨bts, src2⟩ := p
          obtain ⟨hbts, hsb2, hsp2, hsle2, hlen2⟩ := DynFileSource.requestBytes_ok hrq
          dsimp only
          by_cases hfull : st1.buffer.length + bts.length = size
          · rw [if_pos (by simpa using hfull), if_pos (by simpa using hfull)]
          · rw [if_neg (by simpa using hfull), if_neg (by simpa using hfull)]
            have hmod : st1.offset % st1.beaconInterval < st1.beaconInterval := by
              rw [hb2]
              exact Nat.mod_lt _ (by omega)
            have hbulen : st1.buffer.length = st.buffer.length := by rw [hb1]
            have hlt : st1.buffer.length < size := by
              rw [hlen2] at hfull
              omega
            have hcpos : 1 ≤ min (size - st1.buffer.length)
                (st1.beaconInterval - st1.offset % st1.beaconInterval) := by
              omega
            apply ih
            · simpa [hb2] using hbi
            · simp only [List.length_append, hlen2]
              omega
            · simp only [List.length_append, hlen2]
              omega
            · simp only [List.length_append, hlen2]
              omega

theorem MessageSource.hasBeacon_none_iff (st : MessageSource) :
    st.hasBeacon = none ↔ ¬(0 < st.offset ∧ st.offset % st.beaconInterval = 0) := by
  rw [MessageSource.hasBeacon]
  split
  · rename_i h
    simp [h]
  · rename_i h
    simp [h]

theorem MessageSource.hasBeacon_some_iff (st : MessageSource) (i : Nat) :
    st.hasBeacon = some i ↔
      ((0 < st.offset ∧ st.offset % st.beaconInterval = 0) ∧
        i = st.offset / st.beaconInterval) := by
  rw [MessageSource.hasBeacon]
  split
  · rename_i h
    simp only [Option.some_inj]
    constructor
    · intro hi
      exact ⟨h, hi.symm⟩
    · intro hi
      exact hi.2.symm
  · rename_i h
    simp [h]

theorem MessageSource.beaconStep_of_none {st : MessageSource} (h : st.hasBeacon = none) :
    st.beaconStep = .ok st := by
  rw [MessageSource.beaconStep, h]

/-- When the reader sits exactly on a beacon boundary, one `request_bytes`
call first decodes that beacon, folds it into the current beacon state, and
then proceeds exactly as from the post-beacon state. -/
theorem requestBytesL_beacon_step {st st1 : MessageSource} {fuel size : Nat}
    (hbs : st.beaconStep = .ok st1) (hbs1 : st1.beaconStep = .ok st1) :
    MessageSource.requestBytesL (fuel + 1) st size =
      MessageSource.requestBytesL (fuel + 1) st1 size := by
  rw [MessageSource.requestBytesL, MessageSource.requestBytesL, hbs, hbs1]

/-- The inductive statement of the byte-pull contract: from a synchronized
state whose remaining file suffix scans to the message stream `M`,
`request_bytes` returns exactly the requested prefix of `M` (never beacon
bytes), leaves the internal buffer empty, and the remaining suffix scans to
the rest of `M`. -/
def ReqSpec (fuel : Nat) : Prop :=
  ∀ (st : MessageSource) (size : Nat) (M : Bytes) (L : List Nat),
    1 ≤ st.beaconInterval →
    st.offset = st.source.pos →
    st.source.pos ≤ st.source.bytes.length →
    st.buffer.length ≤ size →
    size - st.buffer.length < fuel →
    scanAt st.beaconInterval st.offset (st.source.bytes.drop st.source.pos) = some (M, L) →
    size ≤ st.buffer.length + M.length →
    ((0 < st.offset ∧ st.offset % st.beaconInterval = 0) →
      ¬(st.source.bytes.drop st.source.pos).isEmpty = true) →
    (∀ q b rest, 0 < q →
      Beacon.decode (st.source.bytes.drop (q * st.beaconInterval)) = some (b, rest) →
      b.size < st.beaconInterval) →
    ∃ st2 L2,
      MessageSource.requestBytesL fuel st size =
        .ok (st.buffer ++ M.take (size - st.buffer.length), st2) ∧
      st2.source.bytes = st.source.bytes ∧
      st2.beaconInterval = st.beaconInterval ∧
      st2.offset = st2.source.pos ∧
      st2.source.pos ≤ st2.source.bytes.length ∧
      st2.buffer = [] ∧
      scanAt st.beaconInterval st2.offset (st2.source.bytes.drop st2.source.pos) =
        some (M.drop (size - st.buffer.length), L2)

theorem scanAt_ne_nil {bi o : Nat} {S M : Bytes} {L : List Nat} (hbi : 1 ≤ bi)
    (h : scanAt bi o S = some (M, L)) (hM : 1 ≤ M.length) : ¬S.isEmpty = true := by
  have := scanAt_length_le bi hbi S.length o S M L le_rfl h
  cases S with
  | nil => simp only [List.length_nil] at this; omega
  | cons a l => simp


theorem reqSpec_pull (fuel : Nat) (ih : ReqSpec fuel) :
    ∀ (st : MessageSource) (size : Nat) (M : Bytes) (L : List Nat),
      1 ≤ st.beaconInterval →
      st.offset = st.source.pos →
      st.source.pos ≤ st.source.bytes.length →
      st.buffer.length ≤ size →
      size - st.buffer.length < fuel + 1 →
      scanAt st.beaconInterval st.offset (st.source.bytes.drop st.source.pos) = some (M, L) →
      size ≤ st.buffer.length + M.length →
      st.hasBeacon = none →
      (∀ q b rest, 0 < q →
        Beacon.decode (st.source.bytes.drop (q * st.beaconInterval)) = some (b, rest) →
        b.size < st.beaconInterval) →
      ∃ st2 L2,
        MessageSource.requestBytesL (fuel + 1) st size =
          .ok (st.buffer ++ M.take (size - st.buffer.length), st2) ∧
        st2.source.bytes = st.source.bytes ∧
        st2.beaconInterval = st.beaconInterval ∧
        st2.offset = st2.source.pos ∧
        st2.source.pos ≤ st2.source.bytes.length ∧
        st2.buffer = [] ∧
        scanAt st.beaconInterval st2.offset (st2.source.bytes.drop st2.source.pos) =
          some (M.drop (size - st.buffer.length), L2) := by
  intro st size M L hbi hsync hple hble hm hscan hsz hhb hgb
  have hnbd : ¬(0 < st.offset ∧ st.offset % st.beaconInterval = 0) :=
    (MessageSource.hasBeacon_none_iff st).mp hhb
  have hMlen : M.length ≤ (st.source.bytes.drop st.source.pos).length :=
    scanAt_length_le _ hbi _ _ _ _ _ le_rfl hscan
  have hdroplen : (st.source.bytes.drop st.source.pos).length
      = st.source.bytes.length - st.source.pos := List.length_drop _ _
  have hMlen2 : M.length ≤ st.source.bytes.length - st.source.pos := by
    rw [hdroplen] at hMlen
    exact hMlen
  have hmod : st.offset % st.beaconInterval < st.beaconInterval := Nat.mod_lt _ (by omega)
  rw [MessageSource.requestBytesL, MessageSource.beaconStep_of_none hhb]
  dsimp only
  have hpos : st.source.pos + min (size - st.buffer.length)
      (st.beaconInterval - st.offset % st.beaconInterval) ≤ st.source.bytes.length := by
    rcases Nat.le_total (size - st.buffer.length)
        (st.beaconInterval - st.offset % st.beaconInterval) with hmin | hmin
    · rw [Nat.min_eq_left hmin]
      omega
    · rw [Nat.min_eq_right hmin]
      omega
  have hreq : st.source.requestBytes
      (min (size - st.buffer.length) (st.beaconInterval - st.offset % st.beaconInterval)) =
      .ok ((st.source.bytes.drop st.source.pos).take
          (min (size - st.buffer.length) (st.beaconInterval - st.offset % st.beaconInterval)),
        ⟨st.source.bytes, st.source.pos + min (size - st.buffer.length)
          (st.beaconInterval - st.offset % st.beaconInterval)⟩) := by
    rw [DynFileSource.requestBytes, if_pos hpos]
  rw [hreq]
  dsimp only
  have hchunkM : min (size - st.buffer.length)
      (st.beaconInterval - st.offset % st.beaconInterval) ≤ M.length := by
    have := Nat.min_le_left (size - st.buffer.length)
      (st.beaconInterval - st.offset % st.beaconInterval)
    omega
  obtain ⟨htk, hs2⟩ := scanAt_take hbi hnbd hscan (Nat.min_le_right _ _) hchunkM
  have htklen : ((st.source.bytes.drop st.source.pos).take
      (min (size - st.buffer.length) (st.beaconInterval - st.offset % st.beaconInterval))).length
      = min (size - st.buffer.length) (st.beaconInterval - st.offset % st.beaconInterval) := by
    simp only [List.length_take]
    omega
  have hdrop2 : (st.source.bytes.drop st.source.pos).drop
      (min (size - st.buffer.length) (st.beaconInterval - st.offset % st.beaconInterval))
      = st.source.bytes.drop (st.source.pos + min (size - st.buffer.length)
          (st.beaconInterval - st.offset % st.beaconInterval)) := by
    rw [List.drop_drop]
  by_cases hfull : st.buffer.length + min (size - st.buffer.length)
      (st.beaconInterval - st.offset % st.beaconInterval) = size
  · rw [if_pos (by simp only [List.length_append, htklen]; exact hfull)]
    have hceq : min (size - st.buffer.length)
        (st.beaconInterval - st.offset % st.beaconInterval) = size - st.buffer.length := by
      omega
    have hv : (st.source.bytes.drop st.source.pos).take
        (min (size - st.buffer.length) (st.beaconInterval - st.offset % st.beaconInterval))
        = M.take (size - st.buffer.length) := by
      rw [← htk, hceq]
    refine ⟨{ st with
        source := ⟨st.source.bytes, st.source.pos + min (size - st.buffer.length)
          (st.beaconInterval - st.offset % st.beaconInterval)⟩
        offset := st.offset + min (size - st.buffer.length)
          (st.beaconInterval - st.offset % st.beaconInterval)
        buffer := [] }, L, ?_, rfl, rfl, ?_, ?_, rfl, ?_⟩
    · rw [hv]
    · show st.offset + _ = st.source.pos + _
      rw [hsync]
    · exact hpos
    · have hd : M.drop (min (size - st.buffer.length)
          (st.beaconInterval - st.offset % st.beaconInterval))
          = M.drop (size - st.buffer.length) := by rw [hceq]
      rw [hdrop2, hd] at hs2
      exact hs2
  · rw [if_neg (by simp only [List.length_append, htklen]; exact hfull)]
    have hchunkroom : min (size - st.buffer.length)
        (st.beaconInterval - st.offset % st.beaconInterval)
        = st.beaconInterval - st.offset % st.beaconInterval := by
      rcases Nat.le_total (size - st.buffer.length)
          (st.beaconInterval - st.offset % st.beaconInterval) with hle2 | hge
      · exfalso
        apply hfull
        rw [Nat.min_eq_left hle2]
        omega
      · exact Nat.min_eq_right hge
    have hcpos : 1 ≤ min (size - st.buffer.length)
        (st.beaconInterval - st.offset % st.beaconInterval) := by
      rw [hchunkroom]
      omega
    have hclt : min (size - st.buffer.length)
        (st.beaconInterval - st.offset % st.beaconInterval) < size - st.buffer.length := by
      rcases Nat.lt_or_ge (min (size - st.buffer.length)
          (st.beaconInterval - st.offset % st.beaconInterval)) (size - st.buffer.length)
        with h | h
      · exact h
      · exfalso
        apply hfull
        have := Nat.min_le_left (size - st.buffer.length)
          (st.beaconInterval - st.offset % st.beaconInterval)
        omega
    rw [hdrop2] at hs2
    obtain ⟨st3, L3, hrun, hb3, hbi3, hsync3, hple3, hbuf3, hscan3⟩ :=
      ih { st with
            source := ⟨st.source.bytes, st.source.pos + min (size - st.buffer.length)
              (st.beaconInterval - st.offset % st.beaconInterval)⟩
            offset := st.offset + min (size - st.buffer.length)
              (st.beaconInterval - st.offset % st.beaconInterval)
            buffer := st.buffer ++ (st.source.bytes.drop st.source.pos).take
              (min (size - st.buffer.length)
                (st.beaconInterval - st.offset % st.beaconInterval)) }
        size
        (M.drop (min (size - st.buffer.length)
          (st.beaconInterval - st.offset % st.beaconInterval)))
        L
        (by simpa using hbi)
        (by show st.offset + _ = st.source.pos + _; rw [hsync])
        hpos
        (by simp only [List.length_append, htklen]; omega)
        (by simp only [List.length_append, htklen]; omega)
        (by exact hs2)
        (by
          simp only [List.length_append, htklen, List.length_drop]
          omega)
        (by
          intro hbd
          apply scanAt_ne_nil hbi (by exact hs2)
          simp only [List.length_drop]
          omega)
        (by simpa using hgb)
    refine ⟨st3, L3, ?_, by simpa using hb3, by simpa using hbi3, hsync3,
      by simpa using hple3, hbuf3, ?_⟩
    · rw [hrun]
      have hval : st.buffer ++ (st.source.bytes.drop st.source.pos).take
            (min (size - st.buffer.length) (st.beaconInterval - st.offset % st.beaconInterval))
          ++ (M.drop (min (size - st.buffer.length)
              (st.beaconInterval - st.offset % st.beaconInterval))).take
            (size - (st.buffer ++ (st.source.bytes.drop st.source.pos).take
              (min (size - st.buffer.length)
                (st.beaconInterval - st.offset % st.beaconInterval))).length)
          = st.buffer ++ M.take (size - st.buffer.length) := by
        rw [List.append_assoc, ← htk, ← List.take_add]
        congr 2
        simp only [List.length_append, List.length_take, List.length_drop]
        omega
      exact congrArg (fun v => Except.ok (v, st3)) hval
    · have hdd : (M.drop (min (size - st.buffer.length)
            (st.beaconInterval - st.offset % st.beaconInterval))).drop
          (size - (st.buffer ++ (st.source.bytes.drop st.source.pos).take
            (min (size - st.buffer.length)
              (st.beaconInterval - st.offset % st.beaconInterval))).length)
          = M.drop (size - st.buffer.length) := by
        rw [List.drop_drop]
        congr 1
        simp only [List.length_append, List.length_take, List.length_drop]
        omega
      rw [← hdd]
      exact hscan3

/-- The byte-pull contract holds at every fuel level. -/
theorem requestBytesL_spec : ∀ fuel, ReqSpec fuel := by
  intro fuel
  induction fuel with
  | zero =>
    intro st size M L hbi hsync hple hble hm
    omega
  | succ fuel ih =>
    intro st size M L hbi hsync hple hble hm hscan hsz hnb hgb
    by_cases hhb : 0 < st.offset ∧ st.offset % st.beaconInterval = 0
    · -- at a beacon boundary: fold the beacon first
      have hne := hnb hhb
      obtain ⟨b, rest, L2, hdec, hscan2, hL⟩ := scanAt_boundary_dest hbi hhb hne hscan
      have hdlen := Beacon.decode_length hdec
      have hb2 := Beacon.size_ge b
      have hdvd : st.beaconInterval ∣ st.offset := Nat.dvd_of_mod_eq_zero hhb.2
      have hq : st.offset / st.beaconInterval * st.beaconInterval = st.offset :=
        Nat.div_mul_cancel hdvd
      have hqpos : 0 < st.offset / st.beaconInterval := by
        rcases Nat.eq_zero_or_pos (st.offset / st.beaconInterval) with h0 | h
        · rw [h0] at hq
          omega
        · exact h
      have hdec2 : Beacon.decode (st.source.bytes.drop
          (st.offset / st.beaconInterval * st.beaconInterval)) = some (b, rest) := by
        rw [hq, hsync]
        exact hdec
      have hbsize : b.size < st.beaconInterval := hgb _ b rest hqpos hdec2
      have hrf : Beacon.readFrom st.source =
          .ok (b, ⟨st.source.bytes, st.source.pos + b.size⟩) := by
        rw [Beacon.readFrom, hdec]
      have hsome : st.hasBeacon = some (st.offset / st.beaconInterval) := by
        rw [MessageSource.hasBeacon, if_pos hhb]
      have hbs : st.beaconStep = .ok { st with
          source := ⟨st.source.bytes, st.source.pos + b.size⟩
          offset := st.offset + b.size
          beacon := (st.offset / st.beaconInterval, b.items) } := by
        rw [MessageSource.beaconStep, hsome, hrf]
      have hmod1 : (st.offset + b.size) % st.beaconInterval = b.size := by
        have hlt : st.offset % st.beaconInterval + b.size < st.beaconInterval := by
          omega
        rw [add_mod_of_lt hlt, hhb.2]
        omega
      have hnb1 : ({ st with
          source := ⟨st.source.bytes, st.source.pos + b.size⟩
          offset := st.offset + b.size
          beacon := (st.offset / st.beaconInterval, b.items) } : MessageSource).hasBeacon
          = none := by
        rw [MessageSource.hasBeacon_none_iff]
        intro hcon
        have := hcon.2
        simp only at this
        rw [hmod1] at this
        omega
      rw [requestBytesL_beacon_step hbs (MessageSource.beaconStep_of_none hnb1)]
      have hrest_drop : st.source.bytes.drop (st.source.pos + b.size) = rest := by
        have hdecsome := Beacon.decode_some hdec
        rw [← List.drop_drop, hdecsome, ← Beacon.encode_length, List.drop_left]
      obtain ⟨st2, L3, hrun, hbyt, hbint, hsync2, hple2, hbuf2, hscan3⟩ :=
        reqSpec_pull fuel ih { st with
            source := ⟨st.source.bytes, st.source.pos + b.size⟩
            offset := st.offset + b.size
            beacon := (st.offset / st.beaconInterval, b.items) }
          size M L2
          (by simpa using hbi)
          (by show st.offset + b.size = st.source.pos + b.size; rw [hsync])
          (by
            show st.source.pos + b.size ≤ st.source.bytes.length
            have : (st.source.bytes.drop st.source.pos).length
                = st.source.bytes.length - st.source.pos := List.length_drop _ _
            omega)
          hble hm
          (by
            show scanAt st.beaconInterval (st.offset + b.size)
              (st.source.bytes.drop (st.source.pos + b.size)) = some (M, L2)
            rw [hrest_drop]
            exact hscan2)
          hsz
          hnb1
          (by simpa using hgb)
      exact ⟨st2, L3, hrun, hbyt, hbint, hsync2, hple2, hbuf2, hscan3⟩
    · exact reqSpec_pull fuel ih st size M L hbi hsync hple hble hm hscan hsz
        ((MessageSource.hasBeacon_none_iff st).mpr hhb) hgb

/-- Reader-state synchronisation invariant: the tracked offset equals the
source position, which is inside the file, and the pull buffer is empty. -/
def MessageSource.Sync (st : MessageSource) : Prop :=
  st.offset = st.source.pos ∧ st.source.pos ≤ st.source.bytes.length ∧ st.buffer = []

instance (st : MessageSource) : Decidable st.Sync := by
  unfold MessageSource.Sync
  infer_instance

/-- Every beacon record decodable at a positive beacon boundary of the file
fits strictly inside one interval. -/
def GoodBeacons (bi : Nat) (bytes : Bytes) : Prop :=
  ∀ q b rest, 0 < q → Beacon.decode (bytes.drop (q * bi)) = some (b, rest) → b.size < bi

/-- The byte-pull contract for `MessageSource.requestBytes`: from a
synchronised state whose remaining suffix scans to the message stream `M`,
the call returns exactly the first `size` message-stream bytes — never any
beacon bytes — and the new state's suffix scans to the rest of `M`. -/
theorem requestBytes_spec (st : MessageSource) (size : Nat) (M : Bytes) (L : List Nat)
    (hbi : 1 ≤ st.beaconInterval)
    (hsy : st.Sync)
    (hscan : scanAt st.beaconInterval st.offset (st.source.bytes.drop st.source.pos)
      = some (M, L))
    (hsz : size ≤ M.length)
    (hM1 : 1 ≤ M.length)
    (hgb : GoodBeacons st.beaconInterval st.source.bytes) :
    ∃ st2 L2,
      st.requestBytes size = .ok (M.take size, st2) ∧
      st2.source.bytes = st.source.bytes ∧
      st2.beaconInterval = st.beaconInterval ∧
      st2.Sync ∧
      scanAt st.beaconInterval st2.offset (st2.source.bytes.drop st2.source.pos)
        = some (M.drop size, L2) := by
  obtain ⟨hsync, hple, hbuf⟩ := hsy
  obtain ⟨st2, L2, hrun, hbyt, hbint, hsync2, hple2, hbuf2, hscan2⟩ :=
    requestBytesL_spec (size + 1) st size M L hbi hsync hple
      (by rw [hbuf]; simp)
      (by rw [hbuf]; simp)
      hscan
      (by rw [hbuf]; simpa using hsz)
      (by
        intro hbd
        exact scanAt_ne_nil hbi hscan hM1)
      hgb
  refine ⟨st2, L2, ?_, hbyt, hbint, ⟨hsync2, hple2, hbuf2⟩, ?_⟩
  · rw [MessageSource.requestBytes, hrun, hbuf]
    simp
  · have : size - st.buffer.length = size := by rw [hbuf]; simp
    rw [this] at hscan2
    exact hscan2

/-- Reading one framed message through the byte-pull contract returns
exactly the encoded message and leaves the reader at the start of the rest
of the stream. -/
theorem readFrom_spec (st : MessageSource) (m : Message) (R : Bytes) (L : List Nat)
    (hbi : 1 ≤ st.beaconInterval)
    (hsy : st.Sync)
    (hscan : scanAt st.beaconInterval st.offset (st.source.bytes.drop st.source.pos)
      = some (Message.encodeFull m ++ R, L))
    (hgb : GoodBeacons st.beaconInterval st.source.bytes) :
    ∃ st2 L2,
      Message.readFrom st = .ok (m, st2) ∧
      st2.source.bytes = st.source.bytes ∧
      st2.beaconInterval = st.beaconInterval ∧
      st2.Sync ∧
      scanAt st.beaconInterval st2.offset (st2.source.bytes.drop st2.source.pos)
        = some (R, L2) := by
  obtain ⟨⟨⟨k, s, q, t⟩, body⟩, c⟩ := m
  have hM : Message.encodeFull ⟨⟨⟨k, s, q, t⟩, body⟩, c⟩ ++ R
      = k :: s :: q :: t :: body.length :: (body ++ c :: R) := by
    simp [Message.encodeFull, OwnedMessage.encodePayload, MessageHeader.encode]
  rw [hM] at hscan
  -- pull the five header atoms
  obtain ⟨stA, LA, hrunA, hbytA, hbintA, hsyA, hscanA⟩ :=
    requestBytes_spec st 5 _ L hbi hsy hscan (by simp) (by simp) hgb
  have hrunA2 : st.requestBytes 5 = .ok ([k, s, q, t, body.length], stA) := hrunA
  have hscanA2 : scanAt st.beaconInterval stA.offset
      (stA.source.bytes.drop stA.source.pos) = some (body ++ c :: R, LA) := hscanA
  -- pull the body
  obtain ⟨stB, LB, hrunB, hbytB, hbintB, hsyB, hscanB⟩ :=
    requestBytes_spec stA body.length (body ++ c :: R) LA
      (by rw [hbintA]; exact hbi)
      hsyA
      (by rw [hbintA]; exact hscanA2)
      (by simp)
      (by simp only [List.length_append, List.length_cons]; omega)
      (by rw [hbintA, hbytA]; exact hgb)
  rw [hbintA] at hbintB hscanB
  rw [hbytA] at hbytB
  have htkB : (body ++ c :: R).take body.length = body := by
    rw [List.take_left]
  have hdpB : (body ++ c :: R).drop body.length = c :: R := by
    rw [List.drop_left]
  rw [htkB] at hrunB
  rw [hdpB] at hscanB
  -- pull the checksum atom
  obtain ⟨stC, LC, hrunC, hbytC, hbintC, hsyC, hscanC⟩ :=
    requestBytes_spec stB 1 (c :: R) LB
      (by rw [hbintB]; exact hbi)
      hsyB
      (by rw [hbintB]; exact hscanB)
      (by simp)
      (by simp)
      (by rw [hbintB, hbytB]; exact hgb)
  rw [hbintB] at hbintC hscanC
  rw [hbytB] at hbytC
  have hrunC2 : stB.requestBytes 1 = .ok ([c], stC) := hrunC
  have hscanC2 : scanAt st.beaconInterval stC.offset
      (stC.source.bytes.drop stC.source.pos) = some (R, LC) := hscanC
  refine ⟨stC, LC, ?_, hbytC, hbintC, hsyC, hscanC2⟩
  rw [Message.readFrom, hrunA2]
  dsimp only [Except.bind]
  rw [hrunB]
  dsimp only [Except.bind]
  rw [hrunC2]

/-- A message stamped by the writer always passes the reader's checksum
recomputation. -/
theorem Message.stamped_valid (m : OwnedMessage) :
    (Message.stamped m).computeChecksum = (Message.stamped m).checksum := rfl

/-- `next()` on a stream positioned at a writer-framed message returns that
message. -/
theorem next_spec (st : MessageSource) (m : OwnedMessage) (R : Bytes) (L : List Nat)
    (hbi : 1 ≤ st.beaconInterval)
    (hsy : st.Sync)
    (hscan : scanAt st.beaconInterval st.offset (st.source.bytes.drop st.source.pos)
      = some (Message.encodeFull (Message.stamped m) ++ R, L))
    (hgb : GoodBeacons st.beaconInterval st.source.bytes) :
    ∃ st2 L2,
      st.next = .ok (Message.stamped m, st2) ∧
      st2.source.bytes = st.source.bytes ∧
      st2.beaconInterval = st.beaconInterval ∧
      st2.Sync ∧
      scanAt st.beaconInterval st2.offset (st2.source.bytes.drop st2.source.pos)
        = some (R, L2) := by
  obtain ⟨st2, L2, hrun, hbyt, hbint, hsy2, hscan2⟩ :=
    readFrom_spec st (Message.stamped m) R L hbi hsy hscan hgb
  refine ⟨st2, L2, ?_, hbyt, hbint, hsy2, hscan2⟩
  rw [MessageSource.next, hrun]
  dsimp only [Except.bind]
  rw [if_neg (by rw [Message.stamped_valid]; simp)]

/-- Repeated `next()` over a writer-framed message stream returns exactly
the stamped messages, in order. -/
theorem readN_spec :
    ∀ (ms : List OwnedMessage) (st : MessageSource) (R : Bytes) (L : List Nat),
      1 ≤ st.beaconInterval →
      st.Sync →
      scanAt st.beaconInterval st.offset (st.source.bytes.drop st.source.pos)
        = some ((ms.map fun m => Message.encodeFull (Message.stamped m)).flatten ++ R, L) →
      GoodBeacons st.beaconInterval st.source.bytes →
      ∃ st2 L2,
        st.readN ms.length = .ok (ms.map Message.stamped, st2) ∧
        st2.source.bytes = st.source.bytes ∧
        st2.beaconInterval = st.beaconInterval ∧
        st2.Sync ∧
        scanAt st.beaconInterval st2.offset (st2.source.bytes.drop st2.source.pos)
          = some (R, L2) := by
  intro ms
  induction ms with
  | nil =>
    intro st R L hbi hsy hscan hgb
    refine ⟨st, L, ?_, rfl, rfl, hsy, ?_⟩
    · rfl
    · simpa using hscan
  | cons m ms ih =>
    intro st R L hbi hsy hscan hgb
    have hscan2 : scanAt st.beaconInterval st.offset
        (st.source.bytes.drop st.source.pos)
        = some (Message.encodeFull (Message.stamped m)
            ++ ((ms.map fun x => Message.encodeFull (Message.stamped x)).flatten ++ R), L) := by
      simpa [List.append_assoc] using hscan
    obtain ⟨stA, LA, hrunA, hbytA, hbintA, hsyA, hscanA⟩ :=
      next_spec st m _ L hbi hsy hscan2 hgb
    obtain ⟨stB, LB, hrunB, hbytB, hbintB, hsyB, hscanB⟩ :=
      ih stA R LA
        (by rw [hbintA]; exact hbi)
        hsyA
        (by rw [hbintA]; exact hscanA)
        (by rw [hbintA, hbytA]; exact hgb)
    rw [hbintA] at hbintB hscanB
    rw [hbytA] at hbytB
    refine ⟨stB, LB, ?_, hbytB, hbintB, hsyB, hscanB⟩
    show st.readN (ms.length + 1) = _
    rw [MessageSource.readN, hrunA]
    dsimp only [Except.bind]
    rw [hrunB]
    rfl

/-! ## Writer correctness -/

theorem FileSink.writeChunk_ok {s s' : FileSink} {chunk : Bytes} {n : Nat}
    (h : s.writeChunk chunk = .ok (n, s')) :
    n = chunk.length ∧ s'.bytes = s.bytes ++ chunk ∧ s'.limit = s.limit ∧
      s.bytes.length + chunk.length ≤ s.limit := by
  rw [FileSink.writeChunk] at h
  split at h
  · rename_i hle
    injection h with h
    injection h with h1 h2
    subst h2
    exact ⟨h1.symm, rfl, rfl, hle⟩
  · exact absurd h (by simp)

/-- An assembled beacon always fits strictly inside one interval. -/
theorem beaconFits (k bi : Nat) (hbi : 3 ≤ bi) : 2 + 5 * min k (bi / 8) < bi := by
  have h8 : 8 * (bi / 8) ≤ bi := by
    have := Nat.div_mul_le_self bi 8
    omega
  have hmin : min k (bi / 8) ≤ bi / 8 := min_le_right _ _
  rcases Nat.eq_zero_or_pos (bi / 8) with h0 | hp
  · rw [h0] at hmin
    have hm0 : min k 0 = 0 := Nat.le_zero.mp hmin
    rw [h0, hm0]
    omega
  · omega

theorem selectMarkers_length (l : List ((Nat × Nat) × BeaconState)) (c n : Nat) :
    (selectMarkers l c n).length = min l.length n := by
  rw [selectMarkers]
  simp only [List.length_take, List.length_append, List.length_drop]
  rcases Nat.eq_zero_or_pos l.length with h0 | hp
  · simp [h0]
  · have hk : c % l.length < l.length := Nat.mod_lt _ hp
    have hmle : min l.length n ≤ l.length - c % l.length + l.length := by
      have := min_le_left l.length n
      omega
    rw [min_eq_left hmle]

theorem MessageSink.writeBeaconAt_ok {sink s' : MessageSink} {r : Nat}
    (h : sink.writeBeaconAt r = .ok s') :
    s'.file = sink.file ++ (Beacon.mk r ((selectMarkers sink.beacon sink.beaconCount
        (Beacon.numMarkers sink.beaconInterval)).map markerOf)).encode ∧
    s'.offset = sink.offset + (Beacon.mk r ((selectMarkers sink.beacon sink.beaconCount
        (Beacon.numMarkers sink.beaconInterval)).map markerOf)).size ∧
    s'.beacon = sink.beacon ∧
    s'.beaconInterval = sink.beaconInterval ∧
    s'.messageCount = sink.messageCount ∧
    s'.sink.limit = sink.sink.limit ∧
    s'.beaconCount = sink.beaconCount + min sink.beacon.length
      (Beacon.numMarkers sink.beaconInterval) := by
  rw [MessageSink.writeBeaconAt] at h
  cases hwc : sink.sink.writeChunk (Beacon.mk r ((selectMarkers sink.beacon sink.beaconCount
      (Beacon.numMarkers sink.beaconInterval)).map markerOf)).encode with
  | error e =>
    rw [hwc] at h
    exact absurd h (by simp [Except.map])
  | ok p =>
    obtain ⟨n, fs⟩ := p
    rw [hwc] at h
    obtain ⟨hn, hfb, hfl, hlim⟩ := FileSink.writeChunk_ok hwc
    have h2 : Except.ok (ε := FileErr) ({ sink with
        sink := fs
        offset := sink.offset + n
        beaconCount := sink.beaconCount + ((selectMarkers sink.beacon sink.beaconCount
          (Beacon.numMarkers sink.beaconInterval)).map markerOf).length } : MessageSink)
        = Except.ok s' := h
    injection h2 with h2
    subst h2
    refine ⟨?_, ?_, rfl, rfl, rfl, ?_, ?_⟩
    · show fs.bytes = _
      rw [hfb]
      rfl
    · show sink.offset + n = _
      rw [hn, Beacon.encode_length]
    · show fs.limit = _
      rw [hfl]
    · show sink.beaconCount + _ = _
      rw [List.length_map, selectMarkers_length]

/-- The first beacon boundary strictly after `o` is at `o + (bi - o % bi)`. -/
theorem next_multiple_lb {bi o x : Nat} (hbi : 1 ≤ bi) (hx : x % bi = 0) (h1 : o < x) :
    o + (bi - o % bi) ≤ x := by
  have hq := Nat.div_add_mod o bi
  have hxq := Nat.div_add_mod x bi
  have hr : o % bi < bi := Nat.mod_lt _ (by omega)
  have hlt : o / bi < x / bi := by
    by_contra hcon
    push_neg at hcon
    have := Nat.mul_le_mul_left bi hcon
    omega
  have hmul : bi * (o / bi + 1) ≤ bi * (x / bi) := Nat.mul_le_mul_left bi hlt
  have hexp : bi * (o / bi + 1) = bi * (o / bi) + bi := by ring
  omega

theorem next_multiple_unique {bi o x : Nat} (hbi : 1 ≤ bi)
    (hx : x % bi = 0) (h1 : o < x) (h2 : x ≤ o + (bi - o % bi)) :
    x = o + (bi - o % bi) :=
  Nat.le_antisymm h2 (next_multiple_lb hbi hx h1)

/-- A positive multiple of `bi` has a positive quotient. -/
theorem pos_multiple_div_pos {bi x : Nat} ( _hbi : 1 ≤ bi) (hx : x % bi = 0) (hp : 0 < x) :
    0 < x / bi := by
  rcases Nat.eq_zero_or_pos (x / bi) with h0 | h
  · exfalso
    have hq := Nat.div_add_mod x bi
    rw [h0, Nat.mul_zero, Nat.zero_add] at hq
    omega
  · exact h

/-- A multiple of `bi` is its quotient times `bi`. -/
theorem multiple_div_mul {bi x : Nat} (hx : x % bi = 0) : x / bi * bi = x :=
  Nat.div_mul_cancel (Nat.dvd_of_mod_eq_zero hx)

/-- A decodable beacon record fitting inside one interval begins at file
offset `x`. -/
def BeaconAtFact (bi : Nat) (F : Bytes) (x : Nat) : Prop :=
  ∃ b : Beacon, Beacon.decode (F.drop x) = some (b, F.drop (x + b.size)) ∧ b.size < bi

/-- The structure of the file at its last beacon: the beacon at the last
beacon-aligned offset, its `remaining_messages_bytes`, and the offset after
those remaining bytes. -/
def LastSeg (bi : Nat) (F : Bytes) (x0 : Nat) : Prop :=
  ∃ b : Beacon,
    Beacon.decode (F.drop (x0 / bi * bi)) = some (b, F.drop (x0 / bi * bi + b.size)) ∧
    b.size + b.remainingMessagesBytes < bi ∧
    x0 / bi * bi + b.size + b.remainingMessagesBytes = x0

/-- `BeaconAtFact` is stable under appending bytes to the file. -/
theorem BeaconAtFact.append {bi : Nat} {F Δ : Bytes} {x : Nat}
    (h : BeaconAtFact bi F x) (hx : x ≤ F.length) :
    BeaconAtFact bi (F ++ Δ) x := by
  obtain ⟨b, hdec, hsize⟩ := h
  have hds := Beacon.decode_some hdec
  have hdl := Beacon.decode_length hdec
  have hxb : x + b.size ≤ F.length := by
    simp only [List.length_drop] at hdl
    omega
  refine ⟨b, ?_, hsize⟩
  have h1 : (F ++ Δ).drop x = F.drop x ++ Δ := List.drop_append_of_le_length hx
  have h2 : (F ++ Δ).drop (x + b.size) = F.drop (x + b.size) ++ Δ :=
    List.drop_append_of_le_length hxb
  rw [h1, h2, hds, List.append_assoc]
  exact Beacon.decode_encode b _

theorem div_eq_of_within {bi o c : Nat} (hbi : 1 ≤ bi) (h : o % bi + c < bi) :
    (o + c) / bi = o / bi := by
  have hq := Nat.div_add_mod o bi
  have heq : o + c = bi * (o / bi) + (o % bi + c) := by omega
  rw [heq, Nat.mul_add_div (by omega), Nat.div_eq_of_lt h]
  omega

theorem mod_eq_zero_at_room {bi o : Nat} (hbi : 1 ≤ bi) ( _ho : o % bi ≠ 0) :
    (o + (bi - o % bi)) % bi = 0 := by
  have hq := Nat.div_add_mod o bi
  have hr : o % bi < bi := Nat.mod_lt _ (by omega)
  have heq : o + (bi - o % bi) = bi * (o / bi) + bi := by omega
  rw [heq, ← Nat.mul_succ, Nat.mul_mod_right]

/-- `LastSeg` is stable under appending bytes to the file. -/
theorem LastSeg.append_seg {bi : Nat} {F Δ : Bytes} {x0 : Nat}
    (h : LastSeg bi F x0) (hx : x0 ≤ F.length) :
    LastSeg bi (F ++ Δ) x0 := by
  obtain ⟨b, hdec, hfit, hsum⟩ := h
  have hds := Beacon.decode_some hdec
  have hdl := Beacon.decode_length hdec
  have hx1 : x0 / bi * bi ≤ F.length := by
    have : x0 / bi * bi ≤ x0 := by
      rcases Nat.eq_zero_or_pos bi with h0 | hp
      · subst h0; simp
      · exact Nat.div_mul_le_self x0 bi
    omega
  have hxb : x0 / bi * bi + b.size ≤ F.length := by
    simp only [List.length_drop] at hdl
    omega
  refine ⟨b, ?_, hfit, hsum⟩
  have h1 : (F ++ Δ).drop (x0 / bi * bi) = F.drop (x0 / bi * bi) ++ Δ :=
    List.drop_append_of_le_length hx1
  have h2 : (F ++ Δ).drop (x0 / bi * bi + b.size) = F.drop (x0 / bi * bi + b.size) ++ Δ :=
    List.drop_append_of_le_length hxb
  rw [h1, h2, hds, List.append_assoc]
  exact Beacon.decode_encode b _

/-- Master lemma for the chunking loop of `MessageSink::write`: starting
from a synchronised, boundary-misaligned sink, a successful run preserves
the interval, the beacon map and the message count, keeps offset and file
length synchronised and strictly inside an interval, and the appended bytes
demultiplex (under the reader's boundary arithmetic) into exactly the
buffer as message bytes plus decodable, interval-bounded beacon records at
exactly the beacon boundaries crossed; afterwards either no boundary was
crossed, or the file ends in a last segment headed by the most recent
beacon. -/
theorem MessageSink.writeLoop_spec :
    ∀ (fuel : Nat) (sink : MessageSink) (B : Bytes) (s2 : MessageSink),
      3 ≤ sink.beaconInterval →
      sink.offset = sink.file.length →
      0 < sink.offset →
      sink.offset % sink.beaconInterval ≠ 0 →
      B.length < fuel →
      MessageSink.writeLoop fuel sink B = .ok s2 →
      s2.beaconInterval = sink.beaconInterval ∧
      s2.beacon = sink.beacon ∧
      s2.messageCount = sink.messageCount ∧
      s2.offset = s2.file.length ∧
      sink.offset ≤ s2.offset ∧
      s2.offset % sink.beaconInterval ≠ 0 ∧
      (B = [] → s2 = sink) ∧
      ∃ Δ L,
        s2.file = sink.file ++ Δ ∧
        scanAt sink.beaconInterval sink.offset Δ = some (B, L) ∧
        (∀ x ∈ L, BeaconAtFact sink.beaconInterval s2.file x) ∧
        (∀ x, x ∈ L ↔ (x % sink.beaconInterval = 0 ∧ sink.offset < x ∧ x ≤ s2.offset)) ∧
        (B ≠ [] →
          (s2.offset / sink.beaconInterval = sink.offset / sink.beaconInterval ∧ Δ = B) ∨
          (0 < s2.offset / sink.beaconInterval ∧
            LastSeg sink.beaconInterval s2.file s2.offset)) := by
  intro fuel
  induction fuel with
  | zero =>
    intro sink B s2 _ _ _ _ hfl _
    omega
  | succ fuel ih =>
    intro sink B s2 hbi hsync hpos hmod hfl hrun
    rw [MessageSink.writeLoop] at hrun
    by_cases hemp : B.isEmpty = true
    · rw [if_pos hemp] at hrun
      injection hrun with h2
      subst h2
      match B, hemp with
      | [], _ =>
        refine ⟨rfl, rfl, rfl, hsync, le_rfl, hmod, fun _ => rfl, [], [],
          by simp, scanAt_nil _ _, ?_, ?_, ?_⟩
        · intro x hx
          simp at hx
        · intro x
          simp only [List.not_mem_nil, false_iff]
          rintro ⟨h1, h2, h3⟩
          omega
        · intro hne
          exact absurd rfl hne
    · rw [if_neg hemp] at hrun
      dsimp only at hrun
      have hlenB := length_pos_of_not_isEmpty hemp
      have hbi1 : (1 : Nat) ≤ sink.beaconInterval := by omega
      have hr : sink.offset % sink.beaconInterval < sink.beaconInterval :=
        Nat.mod_lt _ (by omega)
      have hBne : B ≠ [] := by
        intro h
        rw [h] at hemp
        simp at hemp
      set c := min (sink.beaconInterval - sink.offset % sink.beaconInterval) B.length with hc
      have hc1 : 1 ≤ c := by
        rw [hc]
        exact le_min_iff.mpr ⟨by omega, hlenB⟩
      have hcle : c ≤ B.length := by
        rw [hc]
        exact min_le_right _ _
      have hcroom : c ≤ sink.beaconInterval - sink.offset % sink.beaconInterval := by
        rw [hc]
        exact min_le_left _ _
      have hXlen : (B.take c).length = c := by
        rw [List.length_take]
        exact min_eq_left hcle
      cases hwc : sink.sink.writeChunk (B.take c) with
      | error e =>
        rw [hwc] at hrun
        exact absurd hrun (by simp [Except.bind])
      | ok p =>
        obtain ⟨n, fs⟩ := p
        rw [hwc] at hrun
        obtain ⟨hn, hfb, hflim, hlim⟩ := FileSink.writeChunk_ok hwc
        have hnc : n = c := hn.trans hXlen
        subst hnc
        have hrun2 : (if 0 < sink.offset + c ∧
              (sink.offset + c) % sink.beaconInterval = 0 then
            MessageSink.writeBeaconAt
              { sink with sink := fs, offset := sink.offset + c } (B.length - c)
          else Except.ok { sink with sink := fs, offset := sink.offset + c }).bind
            (fun sink2 => MessageSink.writeLoop fuel sink2 (B.drop c)) = .ok s2 := hrun
        set S1 : MessageSink :=
          { sink with sink := fs, offset := sink.offset + c } with hS1
        have hS1off : S1.offset = sink.offset + c := rfl
        have hS1bi : S1.beaconInterval = sink.beaconInterval := rfl
        have hS1bc : S1.beacon = sink.beacon := rfl
        have hS1mc : S1.messageCount = sink.messageCount := rfl
        have hS1file : S1.file = sink.file ++ B.take c := hfb
        by_cases hbdc : (sink.offset + c) % sink.beaconInterval = 0
        · -- the chunk ends exactly on a beacon boundary: a beacon is written
          rw [if_pos (⟨by omega, hbdc⟩ :
            0 < sink.offset + c ∧ (sink.offset + c) % sink.beaconInterval = 0)] at hrun2
          cases hwb : S1.writeBeaconAt (B.length - c) with
          | error e =>
            rw [hwb] at hrun2
            exact absurd hrun2 (by simp [Except.bind])
          | ok S1b =>
            rw [hwb] at hrun2
            have hrun3 : MessageSink.writeLoop fuel S1b (B.drop c) = .ok s2 := hrun2
            obtain ⟨wfile, woff, wbc, wbi, wmc, wlim, wcnt⟩ :=
              MessageSink.writeBeaconAt_ok hwb
            set bcn : Beacon := Beacon.mk (B.length - c)
              ((selectMarkers S1.beacon S1.beaconCount
                (Beacon.numMarkers S1.beaconInterval)).map markerOf) with hbcn
            have hszEq : bcn.size =
                2 + 5 * min sink.beacon.length (Beacon.numMarkers sink.beaconInterval) := by
              rw [hbcn]
              show 2 + 5 * ((selectMarkers S1.beacon S1.beaconCount
                (Beacon.numMarkers S1.beaconInterval)).map markerOf).length = _
              rw [List.length_map, selectMarkers_length, hS1bc, hS1bi]
            have hsz : bcn.size < sink.beaconInterval := by
              rw [hszEq]
              show 2 + 5 * min sink.beacon.length (sink.beaconInterval / 8) < _
              exact beaconFits _ _ hbi
            have hsz2 : 2 ≤ bcn.size := Beacon.size_ge bcn
            rw [hS1file] at wfile
            rw [hS1off] at woff
            rw [hS1bc] at wbc
            rw [hS1bi] at wbi
            rw [hS1mc] at wmc
            have hmod3 : (sink.offset + c + bcn.size) % sink.beaconInterval = bcn.size := by
              rw [Nat.add_mod, hbdc, Nat.mod_eq_of_lt hsz, Nat.zero_add,
                Nat.mod_eq_of_lt hsz]
            obtain ⟨jbi, jbc, jmc, jsync, jle, jmod, jemp, Δ2, L2, jfile, jscan,
                jfacts, jiff, jD⟩ :=
              ih S1b (B.drop c) s2
                (by rw [wbi]; exact hbi)
                (by
                  rw [woff, wfile]
                  simp only [List.length_append]
                  rw [hXlen, Beacon.encode_length]
                  omega)
                (by rw [woff]; omega)
                (by rw [woff, wbi, hmod3]; omega)
                (by rw [List.length_drop]; omega)
                hrun3
            rw [wbi] at jbi jmod jfacts
            rw [wbc] at jbc
            rw [wmc] at jmc
            rw [wbi, woff] at jscan jiff jD
            rw [woff] at jle
            rw [wfile] at jfile
            have hceq : c = sink.beaconInterval - sink.offset % sink.beaconInterval := by
              have hlb := @next_multiple_lb sink.beaconInterval sink.offset
                (sink.offset + c) (by omega) hbdc (by omega)
              omega
            have hPlen : (sink.file ++ B.take c).length = sink.offset + c := by
              simp only [List.length_append]
              rw [hXlen]
              omega
            have hP2len : ((sink.file ++ B.take c) ++ bcn.encode).length
                = sink.offset + c + bcn.size := by
              simp only [List.length_append]
              rw [hXlen, Beacon.encode_length]
              omega
            have hdrop1 : s2.file.drop (sink.offset + c) = bcn.encode ++ Δ2 := by
              rw [jfile, List.append_assoc, ← hPlen]
              exact List.drop_left _ _
            have hdrop2 : s2.file.drop (sink.offset + c + bcn.size) = Δ2 := by
              rw [jfile, ← hP2len]
              exact List.drop_left _ _
            have hfact1 : BeaconAtFact sink.beaconInterval s2.file (sink.offset + c) := by
              refine ⟨bcn, ?_, hsz⟩
              rw [hdrop1, hdrop2]
              exact Beacon.decode_encode bcn Δ2
            have hX : scanAt sink.beaconInterval sink.offset (B.take c)
                = some (B.take c, []) := by
              refine scanAt_within (by omega) (fun hcon => hmod hcon.2) ?_
              rw [hXlen]
              exact hcroom
            have hne2 : ¬(bcn.encode ++ Δ2).isEmpty = true := by
              cases henc : bcn.encode with
              | nil =>
                have hel := Beacon.encode_length bcn
                rw [henc] at hel
                simp at hel
                omega
              | cons a l => simp [henc]
            have hY : scanAt sink.beaconInterval (sink.offset + c) (bcn.encode ++ Δ2)
                = some (B.drop c, (sink.offset + c) :: L2) := by
              rw [scanAt_beacon (by omega) ⟨by omega, hbdc⟩ hne2
                (Beacon.decode_encode bcn Δ2), jscan]
              rfl
            have hXY := scanAt_append sink.beaconInterval (by omega) (B.take c).length
              (B.take c) (bcn.encode ++ Δ2) (B.take c) (B.drop c) []
              ((sink.offset + c) :: L2) sink.offset le_rfl hX
              (by rw [hXlen]; exact hY)
            rw [List.take_append_drop, List.nil_append] at hXY
            have hostep : ∀ x, x % sink.beaconInterval = 0 → sink.offset + c < x →
                sink.offset + c + sink.beaconInterval ≤ x := by
              intro x hxm hxlt
              have hlb := @next_multiple_lb sink.beaconInterval
                (sink.offset + c) x (by omega) hxm hxlt
              rw [hbdc] at hlb
              omega
            have hq2 : (sink.offset + c) / sink.beaconInterval * sink.beaconInterval
                = sink.offset + c := multiple_div_mul hbdc
            have hqpos : 0 < (sink.offset + c) / sink.beaconInterval :=
              pos_multiple_div_pos (by omega) hbdc (by omega)
            refine ⟨jbi, jbc, jmc, jsync, by omega, jmod, fun h => absurd h hBne,
              B.take c ++ (bcn.encode ++ Δ2), (sink.offset + c) :: L2,
              ?_, hXY, ?_, ?_, ?_⟩
            · rw [jfile]
              simp only [List.append_assoc]
            · intro x hx
              rcases List.mem_cons.mp hx with hx1 | hx2
              · rw [hx1]
                exact hfact1
              · exact jfacts x hx2
            · intro x
              constructor
              · intro hx
                rcases List.mem_cons.mp hx with hx1 | hx2
                · subst hx1
                  exact ⟨hbdc, by omega, by omega⟩
                · obtain ⟨h1, h2, h3⟩ := (jiff x).mp hx2
                  exact ⟨h1, by omega, h3⟩
              · rintro ⟨h1, h2, h3⟩
                by_cases hxeq : x = sink.offset + c
                · exact List.mem_cons.mpr (Or.inl hxeq)
                · refine List.mem_cons.mpr (Or.inr ((jiff x).mpr ⟨h1, ?_, h3⟩))
                  have hge : sink.offset + c ≤ x := by
                    have hlb := @next_multiple_lb sink.beaconInterval
                      sink.offset x (by omega) h1 h2
                    omega
                  have hgt : sink.offset + c < x :=
                    lt_of_le_of_ne hge (fun hcon => hxeq hcon.symm)
                  have hst := hostep x h1 hgt
                  omega
            · intro _
              right
              by_cases hrest : B.drop c = []
              · -- the buffer ended exactly at the boundary: the beacon closes the file
                have hs2 := jemp hrest
                have hrem0 : B.length - c = 0 := by
                  have h0 : (B.drop c).length = 0 := by
                    rw [hrest]
                    rfl
                  rw [List.length_drop] at h0
                  exact h0
                have hoff2 : s2.offset = sink.offset + c + bcn.size := by
                  rw [hs2]
                  exact woff
                have hdiv2 : s2.offset / sink.beaconInterval
                    = (sink.offset + c) / sink.beaconInterval := by
                  rw [hoff2]
                  exact div_eq_of_within (by omega) (by rw [hbdc]; omega)
                refine ⟨by rw [hdiv2]; exact hqpos, bcn, ?_, ?_, ?_⟩
                · rw [hdiv2, hq2, hdrop1, hdrop2]
                  exact Beacon.decode_encode bcn Δ2
                · show bcn.size + (B.length - c) < sink.beaconInterval
                  rw [hrem0]
                  omega
                · show s2.offset / sink.beaconInterval * sink.beaconInterval
                      + bcn.size + (B.length - c) = s2.offset
                  rw [hdiv2, hq2, hrem0, hoff2]
                  omega
              · rcases jD hrest with ⟨hdiv, hΔ2⟩ | hright
                · -- no further boundary: the beacon just written heads the last segment
                  have hdiv2 : s2.offset / sink.beaconInterval
                      = (sink.offset + c) / sink.beaconInterval := by
                    rw [hdiv]
                    exact div_eq_of_within (by omega) (by rw [hbdc]; omega)
                  have hΔlen : Δ2.length = B.length - c := by
                    rw [hΔ2, List.length_drop]
                  have hflen : s2.offset = sink.offset + c + bcn.size + Δ2.length := by
                    rw [jsync, jfile]
                    simp only [List.length_append]
                    rw [hXlen, Beacon.encode_length]
                    omega
                  have hmulEq : sink.beaconInterval * (s2.offset / sink.beaconInterval)
                      = sink.offset + c := by
                    rw [hdiv2, Nat.mul_comm]
                    exact hq2
                  have hdm := Nat.div_add_mod s2.offset sink.beaconInterval
                  rw [hmulEq] at hdm
                  have hmlt : s2.offset % sink.beaconInterval < sink.beaconInterval :=
                    Nat.mod_lt _ (by omega)
                  refine ⟨by rw [hdiv2]; exact hqpos, bcn, ?_, ?_, ?_⟩
                  · rw [hdiv2, hq2, hdrop1, hdrop2]
                    exact Beacon.decode_encode bcn Δ2
                  · show bcn.size + (B.length - c) < sink.beaconInterval
                    omega
                  · show s2.offset / sink.beaconInterval * sink.beaconInterval
                        + bcn.size + (B.length - c) = s2.offset
                    rw [hdiv2, hq2]
                    omega
                · exact hright
        · -- no boundary reached by this chunk
          rw [if_neg (fun hcon => hbdc hcon.2)] at hrun2
          have hrun3 : MessageSink.writeLoop fuel S1 (B.drop c) = .ok s2 := hrun2
          have hclt : c < sink.beaconInterval - sink.offset % sink.beaconInterval := by
            rcases Nat.lt_or_ge c (sink.beaconInterval - sink.offset % sink.beaconInterval)
              with h | h
            · exact h
            · exfalso
              apply hbdc
              have hceq2 : c = sink.beaconInterval - sink.offset % sink.beaconInterval := by
                omega
              rw [hceq2]
              exact mod_eq_zero_at_room (by omega) hmod
          obtain ⟨kbi, kbc, kmc, ksync, kle, kmod, kemp, Δ2, L2, kfile, kscan,
              kfacts, kiff, kD⟩ :=
            ih S1 (B.drop c) s2
              (by rw [hS1bi]; exact hbi)
              (by
                rw [hS1off, hS1file]
                simp only [List.length_append]
                rw [hXlen]
                omega)
              (by rw [hS1off]; omega)
              (by rw [hS1off, hS1bi]; exact hbdc)
              (by rw [List.length_drop]; omega)
              hrun3
          rw [hS1bi] at kbi kmod kfacts
          rw [hS1bc] at kbc
          rw [hS1mc] at kmc
          rw [hS1bi, hS1off] at kscan kiff kD
          rw [hS1off] at kle
          rw [hS1file] at kfile
          refine ⟨kbi, kbc, kmc, ksync, by omega, kmod, fun h => absurd h hBne,
            B.take c ++ Δ2, L2, ?_, ?_, ?_, ?_, ?_⟩
          · rw [kfile, List.append_assoc]
          · have hX : scanAt sink.beaconInterval sink.offset (B.take c)
                = some (B.take c, []) := by
              refine scanAt_within (by omega) (fun hcon => hmod hcon.2) ?_
              rw [hXlen]
              exact hcroom
            have hXY := scanAt_append sink.beaconInterval (by omega) (B.take c).length
              (B.take c) Δ2 (B.take c) (B.drop c) [] L2 sink.offset le_rfl hX
              (by rw [hXlen]; exact kscan)
            rw [List.take_append_drop, List.nil_append] at hXY
            exact hXY
          · intro x hx
            exact kfacts x hx
          · intro x
            constructor
            · intro hx
              obtain ⟨h1, h2, h3⟩ := (kiff x).mp hx
              exact ⟨h1, by omega, h3⟩
            · rintro ⟨h1, h2, h3⟩
              refine (kiff x).mpr ⟨h1, ?_, h3⟩
              have hlb := @next_multiple_lb sink.beaconInterval
                sink.offset x (by omega) h1 h2
              omega
          · intro _
            by_cases hrest : B.drop c = []
            · left
              have hs2 := kemp hrest
              have hclen : c = B.length := by
                have h0 : (B.drop c).length = 0 := by
                  rw [hrest]
                  rfl
                rw [List.length_drop] at h0
                omega
              have hΔnil : Δ2 = [] := by
                have hlen2 := congrArg List.length kfile
                rw [hs2, hS1file] at hlen2
                simp only [List.length_append] at hlen2
                have hz : Δ2.length = 0 := by omega
                exact List.length_eq_zero.mp hz
              constructor
              · rw [hs2, hS1off]
                exact div_eq_of_within (by omega) (by omega)
              · rw [hΔnil, List.append_nil, hclen, List.take_length]
            · rcases kD hrest with ⟨hdiv, hΔ⟩ | hright
              · left
                constructor
                · rw [hdiv]
                  exact div_eq_of_within (by omega) (by omega)
                · rw [hΔ, List.take_append_drop]
              · right
                exact hright

/-- A decodable beacon whose rest is the file suffix stays decodable when
bytes are appended to the file. -/
theorem Beacon.decodeAt_append {F Δ : Bytes} {x : Nat} {b : Beacon}
    (hdec : Beacon.decode (F.drop x) = some (b, F.drop (x + b.size)))
    (hx : x ≤ F.length) :
    Beacon.decode ((F ++ Δ).drop x) = some (b, (F ++ Δ).drop (x + b.size)) := by
  have hds := Beacon.decode_some hdec
  have hdl := Beacon.decode_length hdec
  have hxb : x + b.size ≤ F.length := by
    simp only [List.length_drop] at hdl
    omega
  rw [List.drop_append_of_le_length hx, List.drop_append_of_le_length hxb, hds,
    List.append_assoc]
  exact Beacon.decode_encode b _

/-- The tail structure that makes `rewind(End)` land exactly at the write
offset `x0`: all bytes from `y` on are whole message records, where `y` is
the point at which the beacon-alignment loop of `rewind` stops — the first
byte after the header when no beacon boundary has been crossed yet, or the
landing point `x* + beacon.size + beacon.remaining_messages_bytes` of the
beacon at the last boundary `x* = x0 / bi * bi`. -/
def AlignedTail (bi : Nat) (F : Bytes) (x0 : Nat) : Prop :=
  ∃ (y : Nat) (E : List OwnedMessage),
    F.drop y = (E.map fun m => Message.encodeFull (Message.stamped m)).flatten ∧
    y ≤ x0 ∧
    ((x0 < bi ∧ y = 3) ∨
      (0 < x0 / bi ∧ ∃ b : Beacon,
        Beacon.decode (F.drop (x0 / bi * bi)) = some (b, F.drop (x0 / bi * bi + b.size)) ∧
        b.size + b.remainingMessagesBytes < bi ∧
        x0 / bi * bi + b.size + b.remainingMessagesBytes = y))

/-- The invariant of every `MessageSink` whose file holds exactly the
message sequence `ms`: interval stored, offset synchronised with the file
length and strictly inside an interval, header bytes in place, the bytes
after the header demultiplexing into exactly the framed messages plus
decodable interval-bounded beacons at exactly the positive boundaries up to
the offset, and an aligned tail for `rewind(End)`. -/
def MessageSink.Good (bi : Nat) (ms : List OwnedMessage) (sink : MessageSink) : Prop :=
  sink.beaconInterval = bi ∧
  sink.offset = sink.file.length ∧
  3 ≤ sink.offset ∧
  sink.offset % bi ≠ 0 ∧
  (∃ fn ca, sink.file.take 3 = [fn, ca, bi]) ∧
  (∃ L,
    scanAt bi 3 (sink.file.drop 3)
      = some ((ms.map fun m => Message.encodeFull (Message.stamped m)).flatten, L) ∧
    (∀ x ∈ L, BeaconAtFact bi sink.file x) ∧
    (∀ x, x ∈ L ↔ x % bi = 0 ∧ 3 < x ∧ x ≤ sink.offset)) ∧
  AlignedTail bi sink.file sink.offset

/-- `MessageSink.new` succeeds exactly when the header fits the limit, and
produces the three header atoms. -/
theorem MessageSink.new_ok {fn ca bi limit : Nat} {sink : MessageSink}
    (h : MessageSink.new fn ca bi limit = .ok sink) :
    sink = ⟨⟨[fn, ca, bi], limit⟩, 3, bi, [], 0, 0⟩ ∧ 3 ≤ limit := by
  rw [MessageSink.new] at h
  rw [FileSink.writeChunk] at h
  by_cases hlim : (List.length ([] : Bytes)) + (Header.encode ⟨fn, ca, bi⟩).length ≤ limit
  · rw [if_pos hlim] at h
    have h2 : Except.ok (ε := FileErr)
        (⟨⟨[fn, ca, bi], limit⟩, 3, bi, [], 0, 0⟩ : MessageSink) = .ok sink := h
    injection h2 with h2
    refine ⟨h2.symm, ?_⟩
    simp only [List.length_nil, Header.encode, List.length_cons] at hlim
    omega
  · rw [if_neg hlim] at h
    exact absurd h (by simp [Except.bind])

/-- A fresh sink satisfies the invariant with the empty message list. -/
theorem MessageSink.new_good {fn ca bi limit : Nat} {sink : MessageSink}
    (hbi : 4 ≤ bi) (h : MessageSink.new fn ca bi limit = .ok sink) :
    MessageSink.Good bi [] sink := by
  obtain ⟨hs, hlim⟩ := MessageSink.new_ok h
  subst hs
  have hm3 : (3 : Nat) % bi = 3 := Nat.mod_eq_of_lt (by omega)
  refine ⟨rfl, rfl, le_rfl, by rw [hm3]; omega, ⟨fn, ca, rfl⟩, ⟨[], ?_, ?_, ?_⟩, ?_⟩
  · exact scanAt_nil _ _
  · intro x hx
    simp at hx
  · intro x
    simp only [List.not_mem_nil, false_iff]
    rintro ⟨h1, h2, h3⟩
    omega
  · exact ⟨3, [], rfl, le_rfl, Or.inl ⟨by show (3 : Nat) < bi; omega, rfl⟩⟩

/-- The scratch buffer assembled by `MessageSink::write` is exactly the
framed record of the stamped message. -/
theorem write_buffer_eq (m : OwnedMessage) :
    m.encodePayload ++ [checksumOf m.encodePayload]
      = Message.encodeFull (Message.stamped m) := rfl

/-- One `write` extends the invariant by the written message. -/
theorem MessageSink.write_good {bi : Nat} {ms : List OwnedMessage}
    {sink sink2 : MessageSink} {m : OwnedMessage} {chk : Nat}
    (hbi : 4 ≤ bi) (hg : MessageSink.Good bi ms sink)
    (h : sink.write m = .ok (chk, sink2)) :
    MessageSink.Good bi (ms ++ [m]) sink2 := by
  obtain ⟨hbint, hsync, hho, hmod, ⟨fn, ca, hhdr⟩, ⟨L, hscan, hfacts, hiff⟩,
    ⟨y, E, hrec, hyle, hside⟩⟩ := hg
  rw [MessageSink.write] at h
  dsimp only at h
  cases hwl : MessageSink.writeLoop ((m.encodePayload ++ [checksumOf m.encodePayload]).length + 1)
      (sink.updateBeaconState (m.header.streamKey, m.header.shardId)
        m.header.seqNo m.header.timestamp (checksumOf m.encodePayload))
      (m.encodePayload ++ [checksumOf m.encodePayload]) with
  | error e =>
    rw [hwl] at h
    exact absurd h (by simp [Except.bind])
  | ok s2 =>
    rw [hwl] at h
    have h2 : Except.ok (ε := FileErr) (checksumOf m.encodePayload,
        ({ s2 with messageCount := s2.messageCount + 1 } : MessageSink)) = .ok (chk, sink2) := h
    injection h2 with h2
    injection h2 with hchk hsink2
    obtain ⟨wbi0, wbc0, wmc0, wsync, wle0, wmod0, _wemp, Δ, LΔ, wfile0, wscan0,
      wfacts0, wiff0, wD0⟩ :=
      MessageSink.writeLoop_spec _ _ _ _
        (by show 3 ≤ sink.beaconInterval; omega)
        (by show sink.offset = sink.file.length; exact hsync)
        (by show 0 < sink.offset; omega)
        (by show sink.offset % sink.beaconInterval ≠ 0; rw [hbint]; exact hmod)
        (Nat.lt_succ_self _)
        hwl
    have wbi : s2.beaconInterval = bi := by
      have h3 : s2.beaconInterval = sink.beaconInterval := wbi0
      rw [h3, hbint]
    have wle : sink.offset ≤ s2.offset := wle0
    have wmod : s2.offset % bi ≠ 0 := by
      have h3 : s2.offset % sink.beaconInterval ≠ 0 := wmod0
      rw [hbint] at h3
      exact h3
    have wfile : s2.file = sink.file ++ Δ := wfile0
    have wscan : scanAt bi sink.offset Δ
        = some (Message.encodeFull (Message.stamped m), LΔ) := by
      have h3 : scanAt sink.beaconInterval sink.offset Δ
          = some (m.encodePayload ++ [checksumOf m.encodePayload], LΔ) := wscan0
      rw [hbint, write_buffer_eq] at h3
      exact h3
    have wfacts : ∀ x ∈ LΔ, BeaconAtFact bi s2.file x := by
      have h3 : ∀ x ∈ LΔ, BeaconAtFact sink.beaconInterval s2.file x := wfacts0
      rw [hbint] at h3
      exact h3
    have wiff : ∀ x, x ∈ LΔ ↔ x % bi = 0 ∧ sink.offset < x ∧ x ≤ s2.offset := by
      have h3 : ∀ x, x ∈ LΔ ↔ x % sink.beaconInterval = 0 ∧ sink.offset < x ∧
          x ≤ s2.offset := wiff0
      rw [hbint] at h3
      exact h3
    have wD : (s2.offset / bi = sink.offset / bi ∧
          Δ = Message.encodeFull (Message.stamped m)) ∨
        (0 < s2.offset / bi ∧ LastSeg bi s2.file s2.offset) := by
      have h3 : (s2.offset / sink.beaconInterval = sink.offset / sink.beaconInterval ∧
            Δ = m.encodePayload ++ [checksumOf m.encodePayload]) ∨
          (0 < s2.offset / sink.beaconInterval ∧
            LastSeg sink.beaconInterval s2.file s2.offset) := wD0 (by simp)
      rw [hbint, write_buffer_eq] at h3
      exact h3
    have hflen : sink.offset ≤ sink.file.length := by omega
    subst hsink2
    refine ⟨?_, ?_, ?_, ?_, ⟨fn, ca, ?_⟩, ?_, ?_⟩
    · show s2.beaconInterval = bi
      exact wbi
    · show s2.offset = s2.file.length
      exact wsync
    · show 3 ≤ s2.offset
      omega
    · show s2.offset % bi ≠ 0
      exact wmod
    · show s2.file.take 3 = [fn, ca, bi]
      rw [wfile, List.take_append_of_le_length (by omega)]
      exact hhdr
    · -- the scan of the new file body
      refine ⟨L ++ LΔ, ?_, ?_, ?_⟩
      · show scanAt bi 3 (s2.file.drop 3) = _
        have hdropF : s2.file.drop 3 = sink.file.drop 3 ++ Δ := by
          rw [wfile, List.drop_append_of_le_length (by omega)]
        have hlen3 : 3 + (sink.file.drop 3).length = sink.offset := by
          rw [List.length_drop]
          omega
        have hXY := scanAt_append bi (by omega) (sink.file.drop 3).length
          (sink.file.drop 3) Δ _ _ L LΔ 3 le_rfl hscan (by rw [hlen3]; exact wscan)
        rw [hdropF, hXY]
        have hflat : (ms.map fun x => Message.encodeFull (Message.stamped x)).flatten
            ++ Message.encodeFull (Message.stamped m)
            = ((ms ++ [m]).map fun x => Message.encodeFull (Message.stamped x)).flatten := by
          simp
        rw [hflat]
      · show ∀ x ∈ L ++ LΔ, BeaconAtFact bi s2.file x
        intro x hx
        rcases List.mem_append.mp hx with hx1 | hx2
        · have hxle : x ≤ sink.file.length := by
            have := (hiff x).mp hx1
            omega
          rw [wfile]
          exact BeaconAtFact.append (hfacts x hx1) hxle
        · exact wfacts x hx2
      · show ∀ x, x ∈ L ++ LΔ ↔ x % bi = 0 ∧ 3 < x ∧ x ≤ s2.offset
        intro x
        rw [List.mem_append]
        constructor
        · intro hx
          rcases hx with hx1 | hx2
          · have h3 := (hiff x).mp hx1
            exact ⟨h3.1, h3.2.1, by omega⟩
          · have h3 := (wiff x).mp hx2
            exact ⟨h3.1, by omega, h3.2.2⟩
        · rintro ⟨h1, h2, h3⟩
          by_cases hle : x ≤ sink.offset
          · exact Or.inl ((hiff x).mpr ⟨h1, h2, hle⟩)
          · exact Or.inr ((wiff x).mpr ⟨h1, by omega, h3⟩)
    · -- the aligned tail
      show AlignedTail bi s2.file s2.offset
      rcases wD with ⟨hdiv, hΔB⟩ | ⟨hqpos, b, hdecb, hfitb, hsumb⟩
      · -- no boundary crossed: extend the record tail
        refine ⟨y, E ++ [m], ?_, by omega, ?_⟩
        · rw [wfile, List.drop_append_of_le_length (by omega), hrec, hΔB]
          simp
        · rcases hside with ⟨hlt, hy3⟩ | ⟨hqp, b, hdec, hfit, hsum⟩
          · left
            have h0 : s2.offset / bi = 0 := by
              rw [hdiv, Nat.div_eq_of_lt hlt]
            have hq := Nat.div_add_mod s2.offset bi
            rw [h0, Nat.mul_zero, Nat.zero_add] at hq
            have hm2 : s2.offset % bi < bi := Nat.mod_lt _ (by omega)
            exact ⟨by omega, hy3⟩
          · right
            have hxle : sink.offset / bi * bi ≤ sink.file.length := by
              have := Nat.div_mul_le_self sink.offset bi
              omega
            refine ⟨by rw [hdiv]; exact hqp, b, ?_, hfit, ?_⟩
            · rw [hdiv, wfile]
              exact Beacon.decodeAt_append hdec hxle
            · rw [hdiv]
              exact hsum
      · -- a boundary was crossed: the new last segment closes the records
        refine ⟨s2.offset, [], ?_, le_rfl, Or.inr ⟨hqpos, b, hdecb, hfitb, hsumb⟩⟩
        simp only [List.map_nil, List.flatten_nil]
        rw [wsync]
        exact List.drop_length _

/-- `writeAll` preserves the invariant, appending the written messages. -/
theorem MessageSink.writeAll_good {bi : Nat} :
    ∀ (msgs acc : List OwnedMessage) (sink sink2 : MessageSink),
      4 ≤ bi → MessageSink.Good bi acc sink →
      sink.writeAll msgs = .ok sink2 →
      MessageSink.Good bi (acc ++ msgs) sink2 := by
  intro msgs
  induction msgs with
  | nil =>
    intro acc sink sink2 _ hg h
    rw [MessageSink.writeAll] at h
    injection h with h
    subst h
    simpa using hg
  | cons m rest ih =>
    intro acc sink sink2 hbi hg h
    rw [MessageSink.writeAll] at h
    cases hw : sink.write m with
    | error e =>
      rw [hw] at h
      exact absurd h (by simp [Except.bind])
    | ok p =>
      obtain ⟨chk, s1⟩ := p
      rw [hw] at h
      have h2 : s1.writeAll rest = .ok sink2 := h
      have hg1 := MessageSink.write_good hbi hg hw
      have h3 := ih (acc ++ [m]) s1 sink2 hbi hg1 h2
      simpa [List.append_assoc] using h3

/-- The invariant implies the reader-side beacon bound: every decodable
beacon at a positive boundary fits inside one interval. -/
theorem MessageSink.Good.goodBeacons {bi : Nat} {ms : List OwnedMessage}
    {sink : MessageSink} (hbi : 4 ≤ bi) (hg : MessageSink.Good bi ms sink) :
    GoodBeacons bi sink.file := by
  obtain ⟨hbint, hsync, hho, hmod, _, ⟨L, hscan, hfacts, hiff⟩, _⟩ := hg
  intro q b rest hq hdec
  by_cases hle : q * bi ≤ sink.offset
  · have hbile : bi ≤ q * bi := Nat.le_mul_of_pos_left bi hq
    have hmem : q * bi ∈ L := (hiff _).mpr ⟨Nat.mul_mod_left q bi, by omega, hle⟩
    obtain ⟨b2, hdec2, hsz2⟩ := hfacts _ hmem
    rw [hdec] at hdec2
    injection hdec2 with hd
    injection hd with hb _
    rw [hb]
    exact hsz2
  · exfalso
    have hdropnil : sink.file.drop (q * bi) = [] := by
      apply List.drop_eq_nil_of_le
      omega
    rw [hdropnil] at hdec
    have hnone : Beacon.decode ([] : Bytes) = none := rfl
    rw [hnone] at hdec
    exact absurd hdec (by simp)

/-! ## Reader-side reductions: opening and rewinding -/

/-- Opening a written file in `Replay` mode reads the header and positions
the reader at its end. -/
theorem MessageSource.new_replay {F : Bytes} {fn ca bi : Nat}
    (hhdr : F.take 3 = [fn, ca, bi]) (hbi : 4 ≤ bi) :
    MessageSource.new F .Replay = .ok ⟨⟨F, 3⟩, [], 3, bi, (0, [])⟩ := by
  have hF : F = fn :: ca :: bi :: F.drop 3 := by
    conv_lhs => rw [← List.take_append_drop 3 F, hhdr]
    rfl
  have hdec : Header.decode (F.drop 0) = some (⟨fn, ca, bi⟩, F.drop 3) := by
    rw [List.drop_zero]
    conv_lhs => rw [hF]
    rfl
  rw [MessageSource.new, Header.readFrom]
  dsimp only
  rw [hdec]
  dsimp only [Except.bind]
  rw [if_pos (show Header.size < (⟨fn, ca, bi⟩ : Header).beaconInterval by
    show (3 : Nat) < bi
    omega)]
  rw [if_neg (show ¬(StreamMode.Replay = StreamMode.Live) by simp)]
  rfl

theorem MessageSource.alignLoop_noBeacon {st : MessageSource} {fuel : Nat}
    (h : st.hasBeacon = none) (hf : 0 < fuel) :
    MessageSource.alignLoop fuel st = .ok st := by
  cases fuel with
  | zero => omega
  | succ f => rw [MessageSource.alignLoop, h]

theorem MessageSource.alignLoop_beaconInterval :
    ∀ (fuel : Nat) (st st2 : MessageSource),
      MessageSource.alignLoop fuel st = .ok st2 →
      st2.beaconInterval = st.beaconInterval := by
  intro fuel
  induction fuel with
  | zero =>
    intro st st2 h
    exact absurd h (by simp [MessageSource.alignLoop])
  | succ f ih =>
    intro st st2 h
    rw [MessageSource.alignLoop] at h
    cases hhb : st.hasBeacon with
    | none =>
      rw [hhb] at h
      have h2 : Except.ok (ε := FileErr) st = .ok st2 := h
      injection h2 with h2
      subst h2
      rfl
    | some i =>
      rw [hhb] at h
      cases hbr : Beacon.readFrom st.source with
      | error e =>
        rw [hbr] at h
        exact absurd h (by simp [Except.bind])
      | ok p =>
        obtain ⟨b, src1⟩ := p
        rw [hbr] at h
        dsimp only [Except.bind] at h
        cases hrq : src1.requestBytes
            (min b.remainingMessagesBytes (st.beaconInterval - b.size)) with
        | error e =>
          rw [hrq] at h
          exact absurd h (by simp [Except.bind])
        | ok q =>
          obtain ⟨bts, src2⟩ := q
          rw [hrq] at h
          have h2 : MessageSource.alignLoop f
              { st with
                source := src2
                offset := st.offset + b.size + bts.length
                beacon := (i, b.items) } = .ok st2 := h
          have h3 := ih _ _ h2
          exact h3

/-- `Message::read_from` applied repeatedly to a buffer of exactly whole
records consumes all of it, advancing `next` by every record size. -/
theorem consumeMessages_flatten :
    ∀ (E : List Message) (fuel next : Nat),
      ((E.map Message.encodeFull).flatten).length < fuel →
      MessageSource.consumeMessages fuel next ((E.map Message.encodeFull).flatten)
        = some (next + ((E.map Message.encodeFull).flatten).length) := by
  intro E
  induction E with
  | nil =>
    intro fuel next hf
    cases fuel with
    | zero => omega
    | succ f =>
      show MessageSource.consumeMessages (f + 1) next [] = some (next + 0)
      rw [MessageSource.consumeMessages]
      rfl
  | cons msg E ih =>
    intro fuel next hf
    cases fuel with
    | zero => omega
    | succ f =>
      have hsplit : ((List.map Message.encodeFull (msg :: E)).flatten)
          = Message.encodeFull msg ++ (List.map Message.encodeFull E).flatten := by
        simp
      rw [hsplit] at hf ⊢
      have hstep : MessageSource.consumeMessages (f + 1) next
          (Message.encodeFull msg ++ (List.map Message.encodeFull E).flatten)
          = MessageSource.consumeMessages f (next + msg.size)
            ((List.map Message.encodeFull E).flatten) := by
        rw [MessageSource.consumeMessages, Message.decode_encode_message]
      rw [hstep, ih f (next + msg.size) (by
        have h6 := Message.encodeFull_length msg
        have h7 := Message.size_pos msg
        simp only [List.length_append] at hf
        omega)]
      simp only [List.length_append, Message.encodeFull_length]
      congr 1
      omega

/-- `rewind(Beginning)` always lands exactly on the first byte after the
Header, with beacon index 0, regardless of prior cursor position. -/
theorem MessageSource.rewind_beginning (st : MessageSource)
    (hbi : 4 ≤ st.beaconInterval) (hlen : 3 ≤ st.source.bytes.length) :
    st.rewind .Beginning
      = .ok (0, ⟨⟨st.source.bytes, 3⟩, [], 3, st.beaconInterval, (0, [])⟩) := by
  have hm : min Header.size st.source.bytes.length = 3 := by
    show min 3 _ = 3
    exact min_eq_left hlen
  have hnb : (⟨⟨st.source.bytes, 3⟩, [], 3, st.beaconInterval, (0, [])⟩
      : MessageSource).hasBeacon = none := by
    rw [MessageSource.hasBeacon_none_iff]
    rintro ⟨h1, h2⟩
    have h2b : (3 : Nat) % st.beaconInterval = 0 := h2
    have h3 : (3 : Nat) % st.beaconInterval = 3 := Nat.mod_eq_of_lt (by omega)
    omega
  rw [MessageSource.rewind]
  dsimp only [MessageSource.rewindSeekTarget, DynFileSource.seek, MessageSource.clearBeacon]
  rw [if_neg (show ¬(SeqPos.At Header.size = SeqPos.End) by simp)]
  rw [hm]
  rw [MessageSource.alignLoop_noBeacon hnb (by omega)]
  dsimp only [Except.bind]
  rw [if_neg (show ¬(SeqPos.Beginning = SeqPos.End ∧
    (⟨⟨st.source.bytes, 3⟩, [], 3, st.beaconInterval, (0, [])⟩
      : MessageSource).offset < (⟨⟨st.source.bytes, 3⟩, [], 3, st.beaconInterval, (0, [])⟩
      : MessageSource).knownSize) by simp)]
  dsimp only [Except.map]
  rw [show (3 : Nat) / st.beaconInterval = 0 from Nat.div_eq_of_lt (by omega)]

theorem Header.size_eq : Header.size = 3 := rfl

/-- `rewind(End)` on a file satisfying the sink invariant lands the cursor
exactly at the sink's write offset — the start of the next not-yet-written
record — consuming the beacon at the last aligned boundary and decoding
forward through the trailing whole records. -/
theorem MessageSource.rewind_end_good {bi : Nat} {ms : List OwnedMessage}
    {sink : MessageSink}
    (hbi : 4 ≤ bi) (hg : MessageSink.Good bi ms sink) :
    ∃ st2 : MessageSource,
      (⟨⟨sink.file, 3⟩, [], 3, bi, (0, [])⟩ : MessageSource).rewind .End
        = .ok (sink.offset / bi, st2) ∧
      st2.offset = sink.offset ∧
      st2.source.bytes = sink.file ∧
      st2.source.pos = sink.offset ∧
      st2.buffer = [] ∧
      st2.beaconInterval = bi := by
  obtain ⟨hbint, hsync, hho, hmod, _, _, ⟨y, E, hrec, hyle, hside⟩⟩ := hg
  have hlen3 : 3 ≤ sink.file.length := by omega
  have hx1le : Nat.max (sink.file.length - sink.file.length % bi) Header.size
      ≤ sink.file.length := by
    rw [Header.size_eq]
    exact Nat.max_le.mpr ⟨by omega, hlen3⟩
  have hminx : min (Nat.max (sink.file.length - sink.file.length % bi) Header.size)
      sink.file.length
      = Nat.max (sink.file.length - sink.file.length % bi) Header.size :=
    min_eq_left hx1le
  -- the alignment loop lands at the record boundary `o`
  obtain ⟨o, bcnv, E2, halign, hrec2, hole⟩ :
      ∃ (o : Nat) (bcnv : Nat × List Marker) (E2 : List Message),
        MessageSource.alignLoop (sink.file.length + 1)
          ⟨⟨sink.file, Nat.max (sink.file.length - sink.file.length % bi) Header.size⟩,
            [], Nat.max (sink.file.length - sink.file.length % bi) Header.size,
            bi, (0, [])⟩
          = .ok ⟨⟨sink.file, o⟩, [], o, bi, bcnv⟩ ∧
        sink.file.drop o = (E2.map Message.encodeFull).flatten ∧
        o ≤ sink.file.length := by
    have hrecM : sink.file.drop y
        = ((E.map Message.stamped).map Message.encodeFull).flatten := by
      rw [hrec, List.map_map]
      rfl
    rcases hside with ⟨hlt, hy3⟩ | ⟨hqp, b, hdecb, hfitb, hsumb⟩
    · -- no boundary yet: the loop starts and stops right after the header
      have hmodlen : sink.file.length % bi = sink.file.length :=
        Nat.mod_eq_of_lt (by omega)
      have hx1 : Nat.max (sink.file.length - sink.file.length % bi) Header.size = 3 := by
        rw [Header.size_eq, hmodlen, Nat.sub_self]
        rfl
      refine ⟨3, (0, []), E.map Message.stamped, ?_, ?_, by omega⟩
      · rw [hx1]
        refine MessageSource.alignLoop_noBeacon ?_ (by omega)
        rw [MessageSource.hasBeacon_none_iff]
        rintro ⟨h1, h2⟩
        have h2b : (3 : Nat) % bi = 0 := h2
        have h3 : (3 : Nat) % bi = 3 := Nat.mod_eq_of_lt (by omega)
        omega
      · rw [← hy3]
        exact hrecM
    · -- consume the beacon at the last boundary, then its remaining bytes
      have hq := Nat.div_add_mod sink.offset bi
      have hxmul : sink.offset / bi * bi = bi * (sink.offset / bi) := Nat.mul_comm _ _
      have hxle : sink.offset / bi * bi ≤ sink.offset := Nat.div_mul_le_self _ _
      have hbix : bi ≤ sink.offset / bi * bi := by
        calc bi = 1 * bi := (Nat.one_mul bi).symm
        _ ≤ sink.offset / bi * bi := Nat.mul_le_mul_right bi hqp
      have hxmod : sink.offset / bi * bi % bi = 0 := Nat.mul_mod_left _ _
      have hxq : sink.offset / bi * bi / bi = sink.offset / bi :=
        Nat.mul_div_cancel _ (by omega)
      have hszb := Beacon.size_ge b
      have hx1 : Nat.max (sink.file.length - sink.file.length % bi) Header.size
          = sink.offset / bi * bi := by
        rw [Header.size_eq, ← hsync]
        have hsub : sink.offset - sink.offset % bi = sink.offset / bi * bi := by omega
        rw [hsub]
        exact Nat.max_eq_left (by omega)
      refine ⟨y, (sink.offset / bi, b.items), E.map Message.stamped, ?_, ?_, by omega⟩
      · rw [hx1]
        rw [MessageSource.alignLoop]
        have hhb1 : (⟨⟨sink.file, sink.offset / bi * bi⟩, [],
            sink.offset / bi * bi, bi, (0, [])⟩ : MessageSource).hasBeacon
            = some (sink.offset / bi) := by
          rw [MessageSource.hasBeacon_some_iff]
          refine ⟨⟨?_, ?_⟩, ?_⟩
          · show 0 < sink.offset / bi * bi
            omega
          · show sink.offset / bi * bi % bi = 0
            exact hxmod
          · show sink.offset / bi = sink.offset / bi * bi / bi
            exact hxq.symm
        rw [hhb1]
        rw [Beacon.readFrom]
        dsimp only
        rw [hdecb]
        dsimp only [Except.bind]
        have hreq : (⟨sink.file, sink.offset / bi * bi + b.size⟩
            : DynFileSource).requestBytes
            (min b.remainingMessagesBytes (bi - b.size))
            = .ok ((sink.file.drop (sink.offset / bi * bi + b.size)).take
                b.remainingMessagesBytes,
              ⟨sink.file, sink.offset / bi * bi + b.size + b.remainingMessagesBytes⟩) := by
          have hmin : min b.remainingMessagesBytes (bi - b.size)
              = b.remainingMessagesBytes := by omega
          rw [hmin, DynFileSource.requestBytes]
          rw [if_pos (by show sink.offset / bi * bi + b.size + b.remainingMessagesBytes
              ≤ sink.file.length; omega)]
        rw [hreq]
        dsimp only [Except.bind]
        have htklen : ((sink.file.drop (sink.offset / bi * bi + b.size)).take
            b.remainingMessagesBytes).length = b.remainingMessagesBytes := by
          rw [List.length_take, List.length_drop]
          omega
        rw [htklen, hsumb]
        refine MessageSource.alignLoop_noBeacon ?_ (by omega)
        rw [MessageSource.hasBeacon_none_iff]
        rintro ⟨_, h2⟩
        have h2b : y % bi = 0 := h2
        have h3 : (sink.offset / bi * bi + (b.size + b.remainingMessagesBytes)) % bi
            = sink.offset / bi * bi % bi + (b.size + b.remainingMessagesBytes) :=
          add_mod_of_lt (by rw [hxmod]; omega)
        rw [hxmod, ← Nat.add_assoc, hsumb] at h3
        omega
      · exact hrecM
  -- reduce the rewind body through the two seeks and the alignment loop
  refine ⟨⟨⟨sink.file, sink.file.length⟩, [], sink.file.length, bi, bcnv⟩, ?_,
    hsync.symm, rfl, hsync.symm, rfl, rfl⟩
  rw [MessageSource.rewind]
  dsimp only [MessageSource.rewindSeekTarget, DynFileSource.seek,
    MessageSource.rewindStage2Pos, MessageSource.knownSize, DynFileSource.fileSize,
    MessageSource.clearBeacon]
  rw [if_pos rfl]
  rw [hminx]
  rw [halign]
  dsimp only [Except.bind, MessageSource.knownSize, DynFileSource.fileSize]
  by_cases holt : o < sink.file.length
  · rw [if_pos (⟨rfl, holt⟩ : SeqPos.End = SeqPos.End ∧ o < sink.file.length)]
    have hreq2 : (⟨sink.file, o⟩ : DynFileSource).requestBytes (sink.file.length - o)
        = .ok (sink.file.drop o, ⟨sink.file, sink.file.length⟩) := by
      rw [DynFileSource.requestBytes]
      rw [if_pos (by show o + (sink.file.length - o) ≤ sink.file.length; omega)]
      have h1 : (sink.file.drop o).take (sink.file.length - o) = sink.file.drop o := by
        apply List.take_of_length_le
        rw [List.length_drop]
      have h2 : o + (sink.file.length - o) = sink.file.length := by omega
      rw [h1, h2]
    rw [hreq2]
    dsimp only [Except.bind]
    rw [hrec2]
    rw [consumeMessages_flatten E2 _ o (Nat.lt_succ_self _)]
    dsimp only
    have h3 : o + ((E2.map Message.encodeFull).flatten).length = sink.file.length := by
      rw [← hrec2, List.length_drop]
      omega
    rw [h3]
    rw [Nat.min_self]
    dsimp only [Except.map]
    rw [← hsync]
  · rw [if_neg (show ¬(SeqPos.End = SeqPos.End ∧ o < sink.file.length) from
      fun hc => absurd hc.2 holt)]
    have ho2 : o = sink.file.length := by omega
    subst ho2
    dsimp only [Except.map]
    rw [← hsync]

/-! ## Support for the claims -/

theorem except_bind_ok {α β : Type} {x : Except FileErr α} {f : α → Except FileErr β}
    {b : β} (h : x.bind f = .ok b) : ∃ a, x = .ok a ∧ f a = .ok b := by
  cases x with
  | error e => exact absurd h (by simp [Except.bind])
  | ok a => exact ⟨a, rfl, h⟩

theorem except_map_ok {α β : Type} {x : Except FileErr α} {f : α → β}
    {b : β} (h : x.map f = .ok b) : ∃ a, x = .ok a ∧ f a = b := by
  cases x with
  | error e => exact absurd h (by simp [Except.map])
  | ok a =>
    refine ⟨a, rfl, ?_⟩
    have h2 : Except.ok (ε := FileErr) (f a) = .ok b := h
    injection h2 with h2

/-- Whatever happens inside, a successful `rewind` returns the beacon index
`offset / beacon_interval` of the state it lands in. -/
theorem MessageSource.rewind_index (st : MessageSource) (target : SeqPos)
    {i : Nat} {st6 : MessageSource}
    (h : st.rewind target = .ok (i, st6)) :
    i = st6.offset / st.beaconInterval := by
  rw [MessageSource.rewind] at h
  obtain ⟨st4, halign, h2⟩ := except_bind_ok h
  obtain ⟨st6b, hinner, h3⟩ := except_map_ok h2
  injection h3 with h3a h3b
  subst h3b
  have hbi4 : st4.beaconInterval = st.beaconInterval := by
    have h5 := MessageSource.alignLoop_beaconInterval _ _ _ halign
    rw [h5]
    by_cases hpos : st.rewindSeekTarget target = SeqPos.End
    · rw [if_pos hpos]
      rfl
    · rw [if_neg hpos]
      rfl
  rw [← h3a]
  have hbi6 : st6b.beaconInterval = st4.beaconInterval := by
    by_cases hc : target = SeqPos.End ∧ st4.offset < st4.knownSize
    · rw [if_pos hc] at hinner
      obtain ⟨p, hrq, h4⟩ := except_bind_ok hinner
      obtain ⟨bts, src⟩ := p
      dsimp only at h4
      cases hcm : MessageSource.consumeMessages (bts.length + 1) st4.offset bts with
      | none =>
        rw [hcm] at h4
        exact absurd h4 (by simp)
      | some next =>
        rw [hcm] at h4
        have h5 : Except.ok (ε := FileErr)
            ({ st4 with
                source := (DynFileSource.seek src (.At next)).2
                offset := (DynFileSource.seek src (.At next)).1 } : MessageSource)
            = .ok st6b := h4
        injection h5 with h5
        rw [← h5]
    · rw [if_neg hc] at hinner
      have h5 : Except.ok (ε := FileErr) st4 = .ok st6b := hinner
      injection h5 with h5
      rw [← h5]
  rw [hbi6, hbi4]

/-- The offset mapping the specification claims for the seek phase of
`rewind` (written from the spec's words, for comparison with the code's
`rewindSeekOffset`). -/
def specRewindOffset (st : MessageSource) (target : SeqPos) : Nat :=
  match target with
  | .Beginning => Header.size
  | .At 0 => Header.size
  | .At (n + 1) =>
    if (n + 1) * st.beaconInterval < st.knownSize then (n + 1) * st.beaconInterval
    else Nat.max (st.knownSize - st.knownSize % st.beaconInterval) Header.size
  | .End => Nat.max (st.knownSize - st.knownSize % st.beaconInterval) Header.size

theorem rewindSeekOffset_eq_spec (st : MessageSource)
    (hlen : Header.size ≤ st.source.bytes.length) (target : SeqPos) :
    st.rewindSeekOffset target = specRewindOffset st target := by
  have hlen3 : 3 ≤ st.source.bytes.length := hlen
  have hmax_le : Nat.max (st.source.bytes.length
        - st.source.bytes.length % st.beaconInterval) Header.size
      ≤ st.source.bytes.length := by
    rw [Header.size_eq]
    exact Nat.max_le.mpr ⟨by omega, hlen3⟩
  cases target with
  | Beginning =>
    rw [MessageSource.rewindSeekOffset, specRewindOffset]
    dsimp only [MessageSource.rewindSeekTarget, DynFileSource.seek]
    rw [if_neg (show ¬(SeqPos.At Header.size = SeqPos.End) by simp)]
    show min Header.size st.source.bytes.length = Header.size
    rw [Header.size_eq]
    exact min_eq_left hlen3
  | End =>
    rw [MessageSource.rewindSeekOffset, specRewindOffset]
    dsimp only [MessageSource.rewindSeekTarget, DynFileSource.seek,
      MessageSource.rewindStage2Pos, MessageSource.knownSize, DynFileSource.fileSize]
    rw [if_pos rfl]
    exact min_eq_left hmax_le
  | At nth =>
    cases nth with
    | zero =>
      rw [MessageSource.rewindSeekOffset, specRewindOffset]
      dsimp only [MessageSource.rewindSeekTarget, DynFileSource.seek]
      rw [if_neg (show ¬(SeqPos.At Header.size = SeqPos.End) by simp)]
      show min Header.size st.source.bytes.length = Header.size
      rw [Header.size_eq]
      exact min_eq_left hlen3
    | succ n =>
      rw [MessageSource.rewindSeekOffset, specRewindOffset]
      simp only [MessageSource.rewindSeekTarget, MessageSource.knownSize,
        DynFileSource.fileSize]
      by_cases hclamp : (n + 1) * st.beaconInterval < st.source.bytes.length
      · rw [if_pos hclamp, if_pos hclamp]
        dsimp only [DynFileSource.seek]
        rw [if_neg (show ¬(SeqPos.At ((n + 1) * st.beaconInterval) = SeqPos.End) by simp)]
        exact min_eq_left (by omega)
      · rw [if_neg hclamp, if_neg hclamp]
        dsimp only [DynFileSource.seek]
        rw [if_pos rfl]
        simp only [MessageSource.rewindStage2Pos, MessageSource.knownSize,
          DynFileSource.fileSize]
        rw [if_neg hclamp]
        exact min_eq_left hmax_le

/-- Positional characterization of the round-robin selection: the `j`-th
marker entry is the map entry at cyclic position `count + j` from the
rotation start. -/
theorem selectMarkers_get (l : List ((Nat × Nat) × BeaconState)) (c numM j : Nat)
    (hj : j < min l.length numM) :
    (selectMarkers l c numM)[j]? = l[(c % l.length + j) % l.length]? := by
  have hlp : 0 < l.length := by
    rcases Nat.eq_zero_or_pos l.length with h0 | h
    · rw [h0] at hj
      simp at hj
    · exact h
  have hk : c % l.length < l.length := Nat.mod_lt _ hlp
  have hjlen : j < l.length := by
    have := min_le_left l.length numM
    omega
  rw [selectMarkers, List.getElem?_take, if_pos hj, List.getElem?_append]
  by_cases hcase : j < l.length - c % l.length
  · have hlt2 : j < (l.drop (c % l.length)).length := by
      rw [List.length_drop]
      omega
    rw [if_pos hlt2, List.getElem?_drop]
    congr 1
    rw [Nat.mod_eq_of_lt (show c % l.length + j < l.length by omega)]
  · have hlt2 : ¬j < (l.drop (c % l.length)).length := by
      rw [List.length_drop]
      omega
    rw [if_neg hlt2, List.length_drop]
    congr 1
    have h2 : c % l.length + j - l.length < l.length := by omega
    rw [Nat.mod_eq_sub_mod (show l.length ≤ c % l.length + j by omega),
      Nat.mod_eq_of_lt h2]
    omega

/-- Round-robin fairness: within any `K` consecutive beacons whose selection
counts advance by the marker count each time, every map entry is selected at
least once, provided `K` covers the map size divided by the per-beacon
marker capacity. -/
theorem selectMarkers_fair (l : List ((Nat × Nat) × BeaconState)) (c numM K i : Nat)
    (hi : i < l.length) (hK : l.length ≤ K * min l.length numM) :
    ∃ t, t < K ∧ l.get ⟨i, hi⟩ ∈ selectMarkers l (c + t * min l.length numM) numM := by
  have hlp : 0 < l.length := by omega
  have hs : 0 < min l.length numM := by
    rcases Nat.eq_zero_or_pos (min l.length numM) with h0 | h
    · rw [h0, Nat.mul_zero] at hK
      omega
    · exact h
  have hk : c % l.length < l.length := Nat.mod_lt _ hlp
  set s := min l.length numM with hsdef
  set d := (i + l.length - c % l.length) % l.length with hddef
  have hd : d < l.length := Nat.mod_lt _ hlp
  have ht : d / s < K := by
    rw [Nat.div_lt_iff_lt_mul hs]
    omega
  have hj : d % s < s := Nat.mod_lt _ hs
  refine ⟨d / s, ht, ?_⟩
  -- the selected index at position d % s of beacon d / s is exactly i
  have hidx : ((c + d / s * s) % l.length + d % s) % l.length = i := by
    have hds := Nat.div_add_mod d s
    have hcomm : d / s * s = s * (d / s) := Nat.mul_comm _ _
    rw [Nat.mod_add_mod]
    have hstep : c + d / s * s + d % s = c + d := by omega
    rw [hstep]
    have hcq := Nat.div_add_mod c l.length
    have hlin : l.length * (c / l.length + 1) = l.length * (c / l.length) + l.length := by
      ring
    have hsplit : c + d = l.length * (c / l.length + 1) + i ∨
        c + d = l.length * (c / l.length) + i := by
      by_cases hcase : i + l.length - c % l.length < l.length
      · left
        have hdu : d = i + l.length - c % l.length := by
          rw [hddef]
          exact Nat.mod_eq_of_lt hcase
        omega
      · right
        have hdu : d = i + l.length - c % l.length - l.length := by
          rw [hddef, Nat.mod_eq_sub_mod (by omega), Nat.mod_eq_of_lt (by omega)]
        omega
    rcases hsplit with hcd2 | hcd2
    · rw [hcd2, Nat.mul_add_mod]
      exact Nat.mod_eq_of_lt hi
    · rw [hcd2, Nat.mul_add_mod]
      exact Nat.mod_eq_of_lt hi
  have hget := selectMarkers_get l (c + d / s * s) numM (d % s)
    (by rw [← hsdef]; exact hj)
  rw [hidx] at hget
  have hsome : l[i]? = some (l.get ⟨i, hi⟩) := List.getElem?_eq_getElem hi
  rw [hsome] at hget
  exact List.getElem?_mem hget

/-! ## BTreeMap model lemmas -/

theorem keyLt_irrefl (a : Nat × Nat) : ¬keyLt a a := by
  rw [keyLt]
  omega

theorem keyLt_trans {a b c : Nat × Nat} (h1 : keyLt a b) (h2 : keyLt b c) :
    keyLt a c := by
  rw [keyLt] at h1 h2 ⊢
  omega

theorem keyLt_total {a b : Nat × Nat} (h1 : ¬a = b) (h2 : ¬keyLt a b) : keyLt b a := by
  rcases a with ⟨a1, a2⟩
  rcases b with ⟨b1, b2⟩
  rw [keyLt] at h2 ⊢
  simp only [Prod.mk.injEq] at h1
  dsimp only at h2 ⊢
  omega

/-- The `BTreeMap` ordering invariant on the association-list model. -/
def SortedMap (l : List ((Nat × Nat) × BeaconState)) : Prop :=
  l.Pairwise fun a b => keyLt a.1 b.1

instance : DecidableRel (fun a b : (Nat × Nat) × BeaconState => keyLt a.1 b.1) :=
  fun a b => inferInstanceAs (Decidable (keyLt a.1 b.1))

instance (l : List ((Nat × Nat) × BeaconState)) : Decidable (SortedMap l) := by
  unfold SortedMap
  infer_instance

theorem btreeFind_eq_none {k : Nat × Nat} :
    ∀ {l : List ((Nat × Nat) × BeaconState)}, (∀ e ∈ l, keyLt k e.1) →
      btreeFind k l = none := by
  intro l
  induction l with
  | nil => intro _; rfl
  | cons e rest ih =>
    intro hall
    obtain ⟨k1, v⟩ := e
    have hlt : keyLt k ((k1, v) : (Nat × Nat) × BeaconState).1 :=
      hall _ (List.mem_cons_self _ _)
    have hne : ¬(k = k1) := by
      intro he
      subst he
      exact keyLt_irrefl _ hlt
    rw [btreeFind, if_neg hne]
    exact ih (fun e he => hall e (List.mem_cons_of_mem _ he))

/-- Lookup after `entry(key).or_insert(dflt)` plus update: the entry holds
exactly the updated previous value (or the updated default). -/
theorem btreeFind_btreeUpdate_self (k : Nat × Nat) (f : BeaconState → BeaconState)
    (dflt : BeaconState) :
    ∀ (l : List ((Nat × Nat) × BeaconState)), SortedMap l →
      btreeFind k (btreeUpdate k f dflt l)
        = some (f ((btreeFind k l).getD dflt)) := by
  intro l
  induction l with
  | nil =>
    intro _
    rw [btreeUpdate]
    simp [btreeFind]
  | cons e rest ih =>
    intro hsort
    obtain ⟨k1, v⟩ := e
    obtain ⟨hhead, htail⟩ := List.pairwise_cons.mp hsort
    rw [btreeUpdate]
    by_cases he : k = k1
    · rw [if_pos he]
      have h1 : btreeFind k ((k1, f v) :: rest) = some (f v) := by
        rw [btreeFind, if_pos he]
      have h2 : btreeFind k ((k1, v) :: rest) = some v := by
        rw [btreeFind, if_pos he]
      rw [h1, h2]
      rfl
    · by_cases hlt : keyLt k k1
      · rw [if_neg he, if_pos hlt]
        have h1 : btreeFind k ((k, f dflt) :: (k1, v) :: rest) = some (f dflt) := by
          rw [btreeFind, if_pos rfl]
        have h2 : btreeFind k ((k1, v) :: rest) = none := by
          apply btreeFind_eq_none
          intro e he2
          rcases List.mem_cons.mp he2 with h | h
          · rw [h]
            exact hlt
          · exact keyLt_trans hlt (hhead e h)
        rw [h1, h2]
        rfl
      · rw [if_neg he, if_neg hlt]
        have h1 : btreeFind k ((k1, v) :: btreeUpdate k f dflt rest)
            = btreeFind k (btreeUpdate k f dflt rest) := by
          rw [btreeFind, if_neg he]
        have h2 : btreeFind k ((k1, v) :: rest) = btreeFind k rest := by
          rw [btreeFind, if_neg he]
        rw [h1, h2]
        exact ih htail

/-- The update touches no other key. -/
theorem btreeFind_btreeUpdate_other (k k2 : Nat × Nat) (hne : ¬(k2 = k))
    (f : BeaconState → BeaconState) (dflt : BeaconState) :
    ∀ (l : List ((Nat × Nat) × BeaconState)),
      btreeFind k2 (btreeUpdate k f dflt l) = btreeFind k2 l := by
  intro l
  induction l with
  | nil =>
    rw [btreeUpdate]
    simp [btreeFind, hne]
  | cons e rest ih =>
    obtain ⟨k1, v⟩ := e
    rw [btreeUpdate]
    by_cases he : k = k1
    · rw [if_pos he]
      by_cases h2 : k2 = k1
      · exact absurd (h2.trans he.symm) hne
      · have ha : btreeFind k2 ((k1, f v) :: rest) = btreeFind k2 rest := by
          rw [btreeFind, if_neg h2]
        have hb : btreeFind k2 ((k1, v) :: rest) = btreeFind k2 rest := by
          rw [btreeFind, if_neg h2]
        rw [ha, hb]
    · by_cases hlt : keyLt k k1
      · rw [if_neg he, if_pos hlt]
        rw [btreeFind, if_neg hne]
      · rw [if_neg he, if_neg hlt]
        by_cases h2 : k2 = k1
        · have ha : btreeFind k2 ((k1, v) :: btreeUpdate k f dflt rest) = some v := by
            rw [btreeFind, if_pos h2]
          have hb : btreeFind k2 ((k1, v) :: rest) = some v := by
            rw [btreeFind, if_pos h2]
          rw [ha, hb]
        · have ha : btreeFind k2 ((k1, v) :: btreeUpdate k f dflt rest)
              = btreeFind k2 (btreeUpdate k f dflt rest) := by
            rw [btreeFind, if_neg h2]
          have hb : btreeFind k2 ((k1, v) :: rest) = btreeFind k2 rest := by
            rw [btreeFind, if_neg h2]
          rw [ha, hb, ih]

/-- `entry().or_insert()` never leaves the map empty. -/
theorem btreeUpdate_ne_nil (k : Nat × Nat) (f : BeaconState → BeaconState)
    (dflt : BeaconState) :
    ∀ l, btreeUpdate k f dflt l ≠ [] := by
  intro l
  cases l with
  | nil => simp [btreeUpdate]
  | cons e rest =>
    obtain ⟨k1, v⟩ := e
    rw [btreeUpdate]
    by_cases he : k = k1
    · rw [if_pos he]
      simp
    · by_cases hlt : keyLt k k1
      · rw [if_neg he, if_pos hlt]
        simp
      · rw [if_neg he, if_neg hlt]
        simp

/-- The chunk/beacon commit loop never touches the in-memory beacon map or
the message count. -/
theorem MessageSink.writeLoop_beacon :
    ∀ (fuel : Nat) (sink : MessageSink) (B : Bytes) (s2 : MessageSink),
      MessageSink.writeLoop fuel sink B = .ok s2 →
      s2.beacon = sink.beacon ∧ s2.messageCount = sink.messageCount := by
  intro fuel
  induction fuel with
  | zero =>
    intro sink B s2 h
    exact absurd h (by simp [MessageSink.writeLoop])
  | succ f ih =>
    intro sink B s2 h
    rw [MessageSink.writeLoop] at h
    by_cases hemp : B.isEmpty = true
    · rw [if_pos hemp] at h
      have h2 : Except.ok (ε := FileErr) sink = .ok s2 := h
      injection h2 with h2
      subst h2
      exact ⟨rfl, rfl⟩
    · rw [if_neg hemp] at h
      dsimp only at h
      obtain ⟨p, hwc, h2⟩ := except_bind_ok h
      obtain ⟨n, fs⟩ := p
      dsimp only at h2
      obtain ⟨sk2, hmid, h3⟩ := except_bind_ok h2
      have h4 := ih _ _ _ h3
      by_cases hbd : 0 < sink.offset + n ∧ (sink.offset + n) % sink.beaconInterval = 0
      · rw [if_pos hbd] at hmid
        obtain ⟨_, _, hbc, _, hmc, _, _⟩ := MessageSink.writeBeaconAt_ok hmid
        constructor
        · rw [h4.1, hbc]
        · rw [h4.2, hmc]
      · rw [if_neg hbd] at hmid
        have h5 : Except.ok (ε := FileErr)
            ({ sink with sink := fs, offset := sink.offset + n } : MessageSink)
            = .ok sk2 := hmid
        injection h5 with h5
        constructor
        · rw [h4.1, ← h5]
        · rw [h4.2, ← h5]

theorem stamped_message (m : OwnedMessage) : (Message.stamped m).message = m := rfl

/-- A file too short to reach the first boundary vacuously satisfies the
beacon bound. -/
theorem goodBeacons_of_short {bi : Nat} {bytes : Bytes} (h : bytes.length ≤ bi) :
    GoodBeacons bi bytes := by
  intro q b rest hq hdec
  exfalso
  have hd : bytes.drop (q * bi) = [] := by
    apply List.drop_eq_nil_of_le
    calc bytes.length ≤ bi := h
    _ = 1 * bi := (Nat.one_mul bi).symm
    _ ≤ q * bi := Nat.mul_le_mul_right bi hq
  rw [hd] at hdec
  have hnone : Beacon.decode ([] : Bytes) = none := rfl
  rw [hnone] at hdec
  exact absurd hdec (by simp)

/-! ## Sample data for the concrete witnesses

`sampleSink` is the sink state after writing `sampleMsgs` (two messages on
two different (stream key, shard) pairs) through a fresh sink with
`beacon_interval = 8`; `sampleFile` is its 95-byte file. -/

def sampleMsgs : List OwnedMessage :=
  [⟨⟨1, 0, 5, 100⟩, [9, 8]⟩, ⟨⟨2, 1, 6, 101⟩, [3]⟩]

def sampleFile : Bytes :=
  [7, 11, 8, 1, 0, 5, 100, 2, 1, 1, 0, 5, 100, 125, 3, 9, 1, 1, 0, 5, 100, 125, 2,
   8, 1, 1, 0, 5, 100, 125, 1, 125, 1, 1, 0, 5, 100, 125, 0, 2, 1, 1, 0, 5, 100,
   125, 6, 1, 1, 2, 1, 6, 101, 114, 5, 6, 1, 1, 0, 5, 100, 125, 4, 101, 1, 2, 1, 6,
   101, 114, 3, 1, 1, 1, 0, 5, 100, 125, 2, 3, 1, 2, 1, 6, 101, 114, 1, 114, 1, 1,
   0, 5, 100, 125, 0]

def sampleMap : List ((Nat × Nat) × BeaconState) :=
  [((1, 0), ⟨5, 100, ⟨125⟩⟩), ((2, 1), ⟨6, 101, ⟨114⟩⟩)]

def sampleSink : MessageSink := ⟨⟨sampleFile, 1000⟩, 95, 8, sampleMap, 11, 2⟩

/-! ## The claims -/

/-- **C1** — Round-trip: every sequence of messages written through
`MessageSink.write` (across any (stream key, shard) pairs) is read back from
the beginning by `MessageSource` (`rewind(Beginning)`, then repeated
`next()`) as exactly the same messages — same stream keys, shard ids,
sequence numbers, timestamps and bodies, in write order — with every
interleaved beacon consumed transparently and never returned as message
data. -/
theorem claim1_round_trip (fn ca bi limit : Nat) (ms : List OwnedMessage)
    (sink0 sink : MessageSink)
    (hbi : 4 ≤ bi)
    (hnew : MessageSink.new fn ca bi limit = .ok sink0)
    (hwrite : sink0.writeAll ms = .ok sink) :
    ∃ (src src1 st2 : MessageSource),
      MessageSource.new sink.file .Replay = .ok src ∧
      src.rewind .Beginning = .ok (0, src1) ∧
      src1.readN ms.length = .ok (ms.map Message.stamped, st2) ∧
      (ms.map Message.stamped).map Message.message = ms := by
  have hg0 := MessageSink.new_good hbi hnew
  have hg := MessageSink.writeAll_good ms [] sink0 sink hbi hg0 hwrite
  rw [List.nil_append] at hg
  have hgb : GoodBeacons bi sink.file := MessageSink.Good.goodBeacons hbi hg
  obtain ⟨hbint, hsync, hho, hmod, ⟨fn2, ca2, hhdr⟩, ⟨L, hscan, hfacts, hiff⟩, _⟩ := hg
  have hlen3 : 3 ≤ sink.file.length := by omega
  have hnewsrc := MessageSource.new_replay hhdr hbi
  have hrew := MessageSource.rewind_beginning ⟨⟨sink.file, 3⟩, [], 3, bi, (0, [])⟩
    hbi hlen3
  have hscan2 : scanAt bi 3 (sink.file.drop 3)
      = some ((ms.map fun m => Message.encodeFull (Message.stamped m)).flatten ++ [],
        L) := by
    rw [List.append_nil]
    exact hscan
  obtain ⟨st2, L2, hread, _, _, _, _⟩ :=
    readN_spec ms ⟨⟨sink.file, 3⟩, [], 3, bi, (0, [])⟩ [] L
      (by show 1 ≤ bi; omega)
      ⟨rfl, by show 3 ≤ sink.file.length; omega, rfl⟩
      (by show scanAt bi 3 (sink.file.drop 3) = _; exact hscan2)
      (by show GoodBeacons bi sink.file; exact hgb)
  refine ⟨_, _, st2, hnewsrc, hrew, hread, ?_⟩
  rw [List.map_map]
  have hfun : (Message.message ∘ Message.stamped) = id := funext fun x => rfl
  rw [hfun]
  exact List.map_id ms

/-- **C1 witness**: the round trip on a concrete two-message write at
`beacon_interval = 8` (eleven interleaved beacons). -/
theorem claim1_round_trip_witness :
    (4 ≤ 8) ∧
    MessageSink.new 7 11 8 1000 = .ok ⟨⟨[7, 11, 8], 1000⟩, 3, 8, [], 0, 0⟩ ∧
    MessageSink.writeAll ⟨⟨[7, 11, 8], 1000⟩, 3, 8, [], 0, 0⟩ sampleMsgs
      = .ok sampleSink ∧
    (∃ (src src1 st2 : MessageSource),
      MessageSource.new sampleSink.file .Replay = .ok src ∧
      src.rewind .Beginning = .ok (0, src1) ∧
      src1.readN sampleMsgs.length = .ok (sampleMsgs.map Message.stamped, st2) ∧
      (sampleMsgs.map Message.stamped).map Message.message = sampleMsgs) :=
  ⟨by omega, rfl, rfl,
    claim1_round_trip 7 11 8 1000 sampleMsgs ⟨⟨[7, 11, 8], 1000⟩, 3, 8, [], 0, 0⟩
      sampleSink (by omega) rfl rfl⟩

/-- **C2** — `next()` returns the decoded message exactly when the checksum
recomputed over its encoded bytes equals the stored one; when they differ it
returns the checksum-mismatch error carrying both the received (on-disk) and
the computed value, and never returns the corrupted message. -/
theorem claim2_checksum_gate (st st1 : MessageSource) (m : Message)
    (h : Message.readFrom st = .ok (m, st1)) :
    (m.checksum = m.computeChecksum → st.next = .ok (m, st1)) ∧
    (m.checksum ≠ m.computeChecksum →
      st.next = .error (.FormatErr (.ChecksumErr m.checksum m.computeChecksum))) := by
  constructor
  · intro heq
    rw [MessageSource.next, h]
    dsimp only [Except.bind]
    rw [if_neg (show ¬(m.checksum ≠ m.computeChecksum) from fun hcon => hcon heq)]
  · intro hne
    rw [MessageSource.next, h]
    dsimp only [Except.bind]
    rw [if_pos hne]

/-- **C2 witness**: a record whose stored checksum 34 differs from the
recomputed 23; `next()` surfaces both values and never the message. -/
theorem claim2_checksum_gate_witness :
    Message.readFrom ⟨⟨[0, 0, 100, 7, 0, 1, 5, 1, 9, 34], 3⟩, [], 3, 100, (0, [])⟩
      = .ok (⟨⟨⟨7, 0, 1, 5⟩, [9]⟩, 34⟩,
        ⟨⟨[0, 0, 100, 7, 0, 1, 5, 1, 9, 34], 10⟩, [], 10, 100, (0, [])⟩) ∧
    ((⟨⟨⟨7, 0, 1, 5⟩, [9]⟩, 34⟩ : Message).checksum
        = (⟨⟨⟨7, 0, 1, 5⟩, [9]⟩, 34⟩ : Message).computeChecksum →
      MessageSource.next ⟨⟨[0, 0, 100, 7, 0, 1, 5, 1, 9, 34], 3⟩, [], 3, 100, (0, [])⟩
        = .ok (⟨⟨⟨7, 0, 1, 5⟩, [9]⟩, 34⟩,
          ⟨⟨[0, 0, 100, 7, 0, 1, 5, 1, 9, 34], 10⟩, [], 10, 100, (0, [])⟩)) ∧
    ((⟨⟨⟨7, 0, 1, 5⟩, [9]⟩, 34⟩ : Message).checksum
        ≠ (⟨⟨⟨7, 0, 1, 5⟩, [9]⟩, 34⟩ : Message).computeChecksum →
      MessageSource.next ⟨⟨[0, 0, 100, 7, 0, 1, 5, 1, 9, 34], 3⟩, [], 3, 100, (0, [])⟩
        = .error (.FormatErr (.ChecksumErr
            (⟨⟨⟨7, 0, 1, 5⟩, [9]⟩, 34⟩ : Message).checksum
            (⟨⟨⟨7, 0, 1, 5⟩, [9]⟩, 34⟩ : Message).computeChecksum))) :=
  ⟨rfl,
    (claim2_checksum_gate ⟨⟨[0, 0, 100, 7, 0, 1, 5, 1, 9, 34], 3⟩, [], 3, 100, (0, [])⟩
      ⟨⟨[0, 0, 100, 7, 0, 1, 5, 1, 9, 34], 10⟩, [], 10, 100, (0, [])⟩
      ⟨⟨⟨7, 0, 1, 5⟩, [9]⟩, 34⟩ rfl).1,
    (claim2_checksum_gate ⟨⟨[0, 0, 100, 7, 0, 1, 5, 1, 9, 34], 3⟩, [], 3, 100, (0, [])⟩
      ⟨⟨[0, 0, 100, 7, 0, 1, 5, 1, 9, 34], 10⟩, [], 10, 100, (0, [])⟩
      ⟨⟨⟨7, 0, 1, 5⟩, [9]⟩, 34⟩ rfl).2⟩

/-- **C3** (amended) — Beacon boundaries in a written file: the bytes after
the Header demultiplex so that beacon records begin exactly at the offsets
`x` with `x % beacon_interval = 0` for `Header.size < x ≤ EOF`; each such
beacon is decodable at its offset; the reader's `has_beacon` treats exactly
the positive multiples as beacon starts with index `offset / beacon_interval`.
The equivalence claimed for *every* offset fails at offset 0, where `0 %
beacon_interval = 0` yet the Header, not a Beacon, begins. -/
theorem claim3_beacon_boundaries (fn ca bi limit : Nat) (ms : List OwnedMessage)
    (sink0 sink : MessageSink)
    (hbi : 4 ≤ bi)
    (hnew : MessageSink.new fn ca bi limit = .ok sink0)
    (hwrite : sink0.writeAll ms = .ok sink) :
    ∃ M L, scanAt bi 3 (sink.file.drop 3) = some (M, L) ∧
      (∀ x, x ∈ L ↔ (x % bi = 0 ∧ 3 < x ∧ x ≤ sink.file.length)) ∧
      (∀ x ∈ L, BeaconAtFact bi sink.file x) ∧
      (∀ st : MessageSource, st.hasBeacon
        = if 0 < st.offset ∧ st.offset % st.beaconInterval = 0 then
            some (st.offset / st.beaconInterval)
          else none) ∧
      (0 : Nat) % bi = 0 ∧ (0 : Nat) ∉ L ∧
      (∃ hdr, Header.decode (sink.file.drop 0) = some (hdr, sink.file.drop 3) ∧
        hdr.beaconInterval = bi) := by
  have hg0 := MessageSink.new_good hbi hnew
  have hg := MessageSink.writeAll_good ms [] sink0 sink hbi hg0 hwrite
  rw [List.nil_append] at hg
  obtain ⟨hbint, hsync, hho, hmod, ⟨fn2, ca2, hhdr⟩, ⟨L, hscan, hfacts, hiff⟩, _⟩ := hg
  have hF : sink.file = fn2 :: ca2 :: bi :: sink.file.drop 3 := by
    conv_lhs => rw [← List.take_append_drop 3 sink.file, hhdr]
    rfl
  refine ⟨_, L, hscan, ?_, hfacts, fun st => rfl, Nat.zero_mod bi, ?_, ?_⟩
  · intro x
    rw [hiff x, ← hsync]
  · intro hcon
    have := (hiff 0).mp hcon
    omega
  · refine ⟨⟨fn2, ca2, bi⟩, ?_, rfl⟩
    rw [List.drop_zero]
    conv_lhs => rw [hF]
    rfl

/-- **C3 witness**: the amended boundary structure on the concrete
two-message file (`beacon_interval = 8`, beacons at 8, 16, …, 88). -/
theorem claim3_beacon_boundaries_witness :
    (4 ≤ 8) ∧
    MessageSink.new 7 11 8 1000 = .ok ⟨⟨[7, 11, 8], 1000⟩, 3, 8, [], 0, 0⟩ ∧
    MessageSink.writeAll ⟨⟨[7, 11, 8], 1000⟩, 3, 8, [], 0, 0⟩ sampleMsgs
      = .ok sampleSink ∧
    (∃ M L, scanAt 8 3 (sampleSink.file.drop 3) = some (M, L) ∧
      (∀ x, x ∈ L ↔ (x % 8 = 0 ∧ 3 < x ∧ x ≤ sampleSink.file.length)) ∧
      (∀ x ∈ L, BeaconAtFact 8 sampleSink.file x) ∧
      (∀ st : MessageSource, st.hasBeacon
        = if 0 < st.offset ∧ st.offset % st.beaconInterval = 0 then
            some (st.offset / st.beaconInterval)
          else none) ∧
      (0 : Nat) % 8 = 0 ∧ (0 : Nat) ∉ L ∧
      (∃ hdr, Header.decode (sampleSink.file.drop 0)
          = some (hdr, sampleSink.file.drop 3) ∧
        hdr.beaconInterval = 8)) :=
  ⟨by omega, rfl, rfl,
    claim3_beacon_boundaries 7 11 8 1000 sampleMsgs ⟨⟨[7, 11, 8], 1000⟩, 3, 8, [], 0, 0⟩
      sampleSink (by omega) rfl rfl⟩

/-- **C3 counterexample**: on the concrete two-message file the claimed
equivalence "offset is a multiple of the interval iff a Beacon begins there"
fails at offset 0 — 0 is a multiple, but the demultiplexed beacon-start set
of the file does not contain 0 (the Header begins there). -/
theorem claim3_beacon_boundaries_counterexample :
    (0 : Nat) % 8 = 0 ∧
    scanAt 8 3 (sampleFile.drop 3)
      = some ([1, 0, 5, 100, 2, 9, 8, 125, 2, 1, 6, 101, 1, 3, 114],
        [8, 16, 24, 32, 40, 48, 56, 64, 72, 80, 88]) ∧
    ¬((0 : Nat) % 8 = 0 ↔
      (0 : Nat) ∈ [8, 16, 24, 32, 40, 48, 56, 64, 72, 80, 88]) := by
  refine ⟨rfl, by decide, ?_⟩
  intro hiff
  have := hiff.mp rfl
  simp at this

/-- **C4** — The seek phase of `rewind` maps every target exactly as the
specification says — Beginning and At(0) to the first byte after the Header,
At(n) to `n * beacon_interval` clamped to the End position when it would
reach past the known size, End to the last aligned offset floored at the
Header boundary — and a successful `rewind` returns the beacon index
`final offset / beacon_interval`. -/
theorem claim4_rewind_offsets (st : MessageSource)
    (hlen : Header.size ≤ st.source.bytes.length) :
    (∀ target, st.rewindSeekOffset target = specRewindOffset st target) ∧
    (∀ (target : SeqPos) (i : Nat) (st6 : MessageSource),
      st.rewind target = .ok (i, st6) → i = st6.offset / st.beaconInterval) :=
  ⟨rewindSeekOffset_eq_spec st hlen,
   fun target _i _st6 h => MessageSource.rewind_index st target h⟩

/-- **C4 witness**: the seek-offset mapping on the concrete two-message
file. -/
theorem claim4_rewind_offsets_witness :
    (Header.size ≤ (⟨⟨sampleFile, 3⟩, [], 3, 8, (0, [])⟩
      : MessageSource).source.bytes.length) ∧
    ((∀ target, (⟨⟨sampleFile, 3⟩, [], 3, 8, (0, [])⟩
        : MessageSource).rewindSeekOffset target
      = specRewindOffset ⟨⟨sampleFile, 3⟩, [], 3, 8, (0, [])⟩ target) ∧
     (∀ (target : SeqPos) (i : Nat) (st6 : MessageSource),
      (⟨⟨sampleFile, 3⟩, [], 3, 8, (0, [])⟩ : MessageSource).rewind target
          = .ok (i, st6) →
        i = st6.offset / (⟨⟨sampleFile, 3⟩, [], 3, 8, (0, [])⟩
          : MessageSource).beaconInterval)) :=
  ⟨by decide, claim4_rewind_offsets ⟨⟨sampleFile, 3⟩, [], 3, 8, (0, [])⟩ (by decide)⟩

/-- **C5** — After `rewind(End)` on a written file (which contains only
whole records), the cursor offset equals the sink's write offset — the exact
start of the next not-yet-written message, with no unread trailing bytes and
never mid-record: the rewind consumes the beacon at the last aligned
boundary and decodes forward message-by-message up to the known size. -/
theorem claim5_rewind_end (fn ca bi limit : Nat) (ms : List OwnedMessage)
    (sink0 sink : MessageSink)
    (hbi : 4 ≤ bi)
    (hnew : MessageSink.new fn ca bi limit = .ok sink0)
    (hwrite : sink0.writeAll ms = .ok sink) :
    ∃ (src st2 : MessageSource),
      MessageSource.new sink.file .Replay = .ok src ∧
      src.rewind .End = .ok (sink.offset / bi, st2) ∧
      st2.offset = sink.offset ∧
      sink.offset = sink.file.length := by
  have hg0 := MessageSink.new_good hbi hnew
  have hg := MessageSink.writeAll_good ms [] sink0 sink hbi hg0 hwrite
  rw [List.nil_append] at hg
  obtain ⟨fn2, ca2, hhdr⟩ := hg.2.2.2.2.1
  have hsync := hg.2.1
  obtain ⟨st2, hrew, hoff, _, _, _, _⟩ := MessageSource.rewind_end_good hbi hg
  exact ⟨_, st2, MessageSource.new_replay hhdr hbi, hrew, hoff, hsync⟩

/-- **C5 witness**: `rewind(End)` on the concrete two-message file lands at
offset 95 — the file length and the sink's write offset. -/
theorem claim5_rewind_end_witness :
    (4 ≤ 8) ∧
    MessageSink.new 7 11 8 1000 = .ok ⟨⟨[7, 11, 8], 1000⟩, 3, 8, [], 0, 0⟩ ∧
    MessageSink.writeAll ⟨⟨[7, 11, 8], 1000⟩, 3, 8, [], 0, 0⟩ sampleMsgs
      = .ok sampleSink ∧
    (∃ (src st2 : MessageSource),
      MessageSource.new sampleSink.file .Replay = .ok src ∧
      src.rewind .End = .ok (sampleSink.offset / 8, st2) ∧
      st2.offset = sampleSink.offset ∧
      sampleSink.offset = sampleSink.file.length) :=
  ⟨by omega, rfl, rfl,
    claim5_rewind_end 7 11 8 1000 sampleMsgs ⟨⟨[7, 11, 8], 1000⟩, 3, 8, [], 0, 0⟩
      sampleSink (by omega) rfl rfl⟩

/-- **C6** — Byte-pull contract of `request_bytes`: whenever the offset sits
exactly on a beacon boundary the loop first decodes that beacon into the
current beacon state and proceeds exactly as from the post-beacon state;
pulls never cross a boundary; the internal buffer accumulates message-stream
bytes only and the call returns a slice of exactly the requested size — so
beacon bytes are never returned as message payload. -/
theorem claim6_byte_pull (st : MessageSource) (size : Nat) (M : Bytes) (L : List Nat)
    (hbi : 1 ≤ st.beaconInterval)
    (hsy : st.Sync)
    (hscan : scanAt st.beaconInterval st.offset (st.source.bytes.drop st.source.pos)
      = some (M, L))
    (hsz : size ≤ M.length) (hM1 : 1 ≤ M.length)
    (hgb : GoodBeacons st.beaconInterval st.source.bytes) :
    (∃ st2 L2,
      st.requestBytes size = .ok (M.take size, st2) ∧
      st2.source.bytes = st.source.bytes ∧
      st2.beaconInterval = st.beaconInterval ∧
      st2.Sync ∧
      scanAt st.beaconInterval st2.offset (st2.source.bytes.drop st2.source.pos)
        = some (M.drop size, L2)) ∧
    (∀ (fuel : Nat) (st1 : MessageSource),
      st.beaconStep = .ok st1 → st1.beaconStep = .ok st1 →
      MessageSource.requestBytesL (fuel + 1) st size
        = MessageSource.requestBytesL (fuel + 1) st1 size) :=
  ⟨requestBytes_spec st size M L hbi hsy hscan hsz hM1 hgb,
   fun _fuel _st1 h1 h2 => requestBytesL_beacon_step h1 h2⟩

/-- **C6 witness**: a five-byte pull out of a seven-byte record stream. -/
theorem claim6_byte_pull_witness :
    (1 ≤ (100 : Nat)) ∧
    (⟨⟨[0, 0, 100, 1, 0, 2, 3, 1, 5, 12], 3⟩, [], 3, 100, (0, [])⟩
      : MessageSource).Sync ∧
    scanAt 100 3 ([0, 0, 100, 1, 0, 2, 3, 1, 5, 12].drop 3)
      = some ([1, 0, 2, 3, 1, 5, 12], []) ∧
    (5 ≤ ([1, 0, 2, 3, 1, 5, 12] : Bytes).length) ∧
    (1 ≤ ([1, 0, 2, 3, 1, 5, 12] : Bytes).length) ∧
    GoodBeacons 100 [0, 0, 100, 1, 0, 2, 3, 1, 5, 12] ∧
    ((∃ st2 L2,
      (⟨⟨[0, 0, 100, 1, 0, 2, 3, 1, 5, 12], 3⟩, [], 3, 100, (0, [])⟩
          : MessageSource).requestBytes 5
        = .ok (([1, 0, 2, 3, 1, 5, 12] : Bytes).take 5, st2) ∧
      st2.source.bytes = [0, 0, 100, 1, 0, 2, 3, 1, 5, 12] ∧
      st2.beaconInterval = 100 ∧
      st2.Sync ∧
      scanAt 100 st2.offset (st2.source.bytes.drop st2.source.pos)
        = some (([1, 0, 2, 3, 1, 5, 12] : Bytes).drop 5, L2)) ∧
    (∀ (fuel : Nat) (st1 : MessageSource),
      (⟨⟨[0, 0, 100, 1, 0, 2, 3, 1, 5, 12], 3⟩, [], 3, 100, (0, [])⟩
        : MessageSource).beaconStep = .ok st1 → st1.beaconStep = .ok st1 →
      MessageSource.requestBytesL (fuel + 1)
          ⟨⟨[0, 0, 100, 1, 0, 2, 3, 1, 5, 12], 3⟩, [], 3, 100, (0, [])⟩ 5
        = MessageSource.requestBytesL (fuel + 1) st1 5)) :=
  ⟨by omega, by decide, by decide, by decide, by decide,
    goodBeacons_of_short (by decide),
    claim6_byte_pull ⟨⟨[0, 0, 100, 1, 0, 2, 3, 1, 5, 12], 3⟩, [], 3, 100, (0, [])⟩
      5 [1, 0, 2, 3, 1, 5, 12] [] (by decide) (by decide) (by decide) (by decide)
      (by decide) (goodBeacons_of_short (by decide))⟩

/-- **C7** — Round-robin marker selection: every beacon assembled by
`writeBeaconAt` carries exactly `min(map size, num_markers(beacon_interval))`
markers, chosen by rotating through the ordered key set starting right after
the keys used by the previous beacon (the rotation cursor advances by the
emitted marker count); positionally, the `j`-th selected entry is the map
entry at cyclic index `count + j`; and within any `K` consecutive beacons
with `K * capacity ≥ stream count`, every map entry is selected at least
once. -/
theorem claim7_round_robin (l : List ((Nat × Nat) × BeaconState)) (c numM K : Nat)
    (hK : l.length ≤ K * min l.length numM) :
    (∀ (sink s2 : MessageSink) (r : Nat), sink.writeBeaconAt r = .ok s2 →
      s2.file = sink.file ++ (Beacon.mk r ((selectMarkers sink.beacon sink.beaconCount
          (Beacon.numMarkers sink.beaconInterval)).map markerOf)).encode ∧
      ((selectMarkers sink.beacon sink.beaconCount
          (Beacon.numMarkers sink.beaconInterval)).map markerOf).length
        = min sink.beacon.length (Beacon.numMarkers sink.beaconInterval) ∧
      s2.beaconCount = sink.beaconCount
        + min sink.beacon.length (Beacon.numMarkers sink.beaconInterval)) ∧
    (∀ j, j < min l.length numM →
      (selectMarkers l c numM)[j]? = l[(c % l.length + j) % l.length]?) ∧
    (∀ e ∈ l, ∃ t, t < K ∧ e ∈ selectMarkers l (c + t * min l.length numM) numM) := by
  refine ⟨?_, fun j hj => selectMarkers_get l c numM j hj, ?_⟩
  · intro sink s2 r h
    obtain ⟨hf, _, _, _, _, _, hbc⟩ := MessageSink.writeBeaconAt_ok h
    refine ⟨hf, ?_, hbc⟩
    rw [List.length_map, selectMarkers_length]
  · intro e he
    obtain ⟨⟨i, hi⟩, hget⟩ := List.mem_iff_get.mp he
    obtain ⟨t, ht, hmem⟩ := selectMarkers_fair l c numM K i hi hK
    rw [hget] at hmem
    exact ⟨t, ht, hmem⟩

/-- **C7 witness**: two streams, capacity one marker per beacon — both
entries are represented within two consecutive beacons. -/
theorem claim7_round_robin_witness :
    (sampleMap.length ≤ 2 * min sampleMap.length 1) ∧
    ((∀ (sink s2 : MessageSink) (r : Nat), sink.writeBeaconAt r = .ok s2 →
      s2.file = sink.file ++ (Beacon.mk r ((selectMarkers sink.beacon sink.beaconCount
          (Beacon.numMarkers sink.beaconInterval)).map markerOf)).encode ∧
      ((selectMarkers sink.beacon sink.beaconCount
          (Beacon.numMarkers sink.beaconInterval)).map markerOf).length
        = min sink.beacon.length (Beacon.numMarkers sink.beaconInterval) ∧
      s2.beaconCount = sink.beaconCount
        + min sink.beacon.length (Beacon.numMarkers sink.beaconInterval)) ∧
    (∀ j, j < min sampleMap.length 1 →
      (selectMarkers sampleMap 5 1)[j]?
        = sampleMap[(5 % sampleMap.length + j) % sampleMap.length]?) ∧
    (∀ e ∈ sampleMap, ∃ t, t < 2 ∧
      e ∈ selectMarkers sampleMap (5 + t * min sampleMap.length 1) 1)) :=
  ⟨by decide, claim7_round_robin sampleMap 5 1 2 (by decide)⟩

/-- **C8** — For every message, `write` updates (or lazily creates, never
deletes) the BeaconState entry of the message's (stream key, shard) key to
hold the `max` of the previous and new sequence number and timestamp, with
the per-message checksum folded into the entry's RunningChecksum; no other
key changes; and these in-memory updates happen on the pre-commit state —
the map a successful `write` leaves behind is exactly the update computed
before any byte was committed (the commit loop never touches it). -/
theorem claim8_beacon_state (sink : MessageSink) (m : OwnedMessage)
    (hsort : SortedMap sink.beacon) :
    (∀ v, btreeFind (m.header.streamKey, m.header.shardId) sink.beacon = some v →
      btreeFind (m.header.streamKey, m.header.shardId)
          (sink.updateBeaconState (m.header.streamKey, m.header.shardId)
            m.header.seqNo m.header.timestamp (checksumOf m.encodePayload)).beacon
        = some ⟨Nat.max m.header.seqNo v.seqNo, Nat.max m.header.timestamp v.ts,
            v.runningChecksum.update (checksumOf m.encodePayload)⟩) ∧
    (btreeFind (m.header.streamKey, m.header.shardId) sink.beacon = none →
      btreeFind (m.header.streamKey, m.header.shardId)
          (sink.updateBeaconState (m.header.streamKey, m.header.shardId)
            m.header.seqNo m.header.timestamp (checksumOf m.encodePayload)).beacon
        = some ⟨m.header.seqNo, m.header.timestamp,
            RunningChecksum.new.update (checksumOf m.encodePayload)⟩) ∧
    (∀ k2, ¬(k2 = (m.header.streamKey, m.header.shardId)) →
      btreeFind k2 (sink.updateBeaconState (m.header.streamKey, m.header.shardId)
          m.header.seqNo m.header.timestamp (checksumOf m.encodePayload)).beacon
        = btreeFind k2 sink.beacon) ∧
    (∀ (chk2 : Nat) (sink2 : MessageSink), sink.write m = .ok (chk2, sink2) →
      sink2.beacon = (sink.updateBeaconState (m.header.streamKey, m.header.shardId)
          m.header.seqNo m.header.timestamp (checksumOf m.encodePayload)).beacon ∧
      chk2 = checksumOf m.encodePayload) := by
  refine ⟨?_, ?_, ?_, ?_⟩
  · intro v hv
    show btreeFind _ (btreeUpdate _ _ _ sink.beacon) = _
    rw [btreeFind_btreeUpdate_self _ _ _ sink.beacon hsort, hv]
    rfl
  · intro hnone
    show btreeFind _ (btreeUpdate _ _ _ sink.beacon) = _
    rw [btreeFind_btreeUpdate_self _ _ _ sink.beacon hsort, hnone]
    simp [Nat.max_self]
  · intro k2 hne
    show btreeFind k2 (btreeUpdate _ _ _ sink.beacon) = _
    rw [btreeFind_btreeUpdate_other _ _ hne _ _ sink.beacon]
  · intro chk2 sink2 hw
    rw [MessageSink.write] at hw
    dsimp only at hw
    obtain ⟨s2, hwl, h2⟩ := except_bind_ok hw
    have h3 : Except.ok (ε := FileErr) (checksumOf m.encodePayload,
        ({ s2 with messageCount := s2.messageCount + 1 } : MessageSink))
        = .ok (chk2, sink2) := h2
    injection h3 with h3
    injection h3 with h3a h3b
    have h4 := MessageSink.writeLoop_beacon _ _ _ _ hwl
    constructor
    · rw [← h3b]
      show s2.beacon = _
      exact h4.1
    · exact h3a.symm

/-- **C8 witness**: updating the existing (2, 1) entry on the concrete sink
map. -/
theorem claim8_beacon_state_witness :
    SortedMap sampleSink.beacon ∧
    ((∀ v, btreeFind (2, 1) sampleSink.beacon = some v →
      btreeFind (2, 1) (sampleSink.updateBeaconState (2, 1) 9 50
          (checksumOf (OwnedMessage.encodePayload ⟨⟨2, 1, 9, 50⟩, [4]⟩))).beacon
        = some ⟨Nat.max 9 v.seqNo, Nat.max 50 v.ts,
            v.runningChecksum.update
              (checksumOf (OwnedMessage.encodePayload ⟨⟨2, 1, 9, 50⟩, [4]⟩))⟩) ∧
    (btreeFind (2, 1) sampleSink.beacon = none →
      btreeFind (2, 1) (sampleSink.updateBeaconState (2, 1) 9 50
          (checksumOf (OwnedMessage.encodePayload ⟨⟨2, 1, 9, 50⟩, [4]⟩))).beacon
        = some ⟨9, 50, RunningChecksum.new.update
            (checksumOf (OwnedMessage.encodePayload ⟨⟨2, 1, 9, 50⟩, [4]⟩))⟩) ∧
    (∀ k2, ¬(k2 = ((2 : Nat), (1 : Nat))) →
      btreeFind k2 (sampleSink.updateBeaconState (2, 1) 9 50
          (checksumOf (OwnedMessage.encodePayload ⟨⟨2, 1, 9, 50⟩, [4]⟩))).beacon
        = btreeFind k2 sampleSink.beacon) ∧
    (∀ (chk2 : Nat) (sink2 : MessageSink),
      sampleSink.write ⟨⟨2, 1, 9, 50⟩, [4]⟩ = .ok (chk2, sink2) →
      sink2.beacon = (sampleSink.updateBeaconState (2, 1) 9 50
          (checksumOf (OwnedMessage.encodePayload ⟨⟨2, 1, 9, 50⟩, [4]⟩))).beacon ∧
      chk2 = checksumOf (OwnedMessage.encodePayload ⟨⟨2, 1, 9, 50⟩, [4]⟩))) :=
  ⟨by decide, claim8_beacon_state sampleSink ⟨⟨2, 1, 9, 50⟩, [4]⟩ (by decide)⟩

/-- **C9** — code bug: `MessageSink::new` stores `beacon_interval` without
validating it, accepting `beacon_interval = Header::size() = 3`; the file it
produces then fails the `assert!(Header::size() < beacon_interval)` of
`MessageSource::new` (modelled as the `Panicked` artifact) — so not every
stored file satisfies the claimed invariant. -/
theorem claim9_interval_unvalidated :
    MessageSink.new 1 2 3 100 = .ok ⟨⟨[1, 2, 3], 100⟩, 3, 3, [], 0, 0⟩ ∧
    (⟨⟨[1, 2, 3], 100⟩, 3, 3, [], 0, 0⟩ : MessageSink).beaconInterval = Header.size ∧
    MessageSource.new (⟨⟨[1, 2, 3], 100⟩, 3, 3, [], 0, 0⟩ : MessageSink).file .Replay
      = .error .Panicked :=
  ⟨rfl, rfl, rfl⟩

/-- **C10** (amended) — at every beacon boundary inside `write` the map is
nonempty (`entry().or_insert()` runs before any chunk is committed and
`btreeUpdate` never returns an empty map), so `beacon_count % beacon.len()`
never takes a modulus by zero; the beacon written carries exactly
`min(map size, num_markers(beacon_interval))` markers, which is at least one
exactly when `num_markers(beacon_interval) ≥ 1`.  The claim's final part —
every beacon written contains at least one marker — fails whenever
`num_markers(beacon_interval) = 0`. -/
theorem claim10_beacon_markers (sink s2 : MessageSink) (r : Nat)
    (hne : sink.beacon ≠ []) (h : sink.writeBeaconAt r = .ok s2) :
    (∀ (k : Nat × Nat) (f : BeaconState → BeaconState) (dflt : BeaconState)
        (l : List ((Nat × Nat) × BeaconState)), btreeUpdate k f dflt l ≠ []) ∧
    0 < sink.beacon.length ∧
    s2.file = sink.file ++ (Beacon.mk r ((selectMarkers sink.beacon sink.beaconCount
        (Beacon.numMarkers sink.beaconInterval)).map markerOf)).encode ∧
    ((selectMarkers sink.beacon sink.beaconCount
        (Beacon.numMarkers sink.beaconInterval)).map markerOf).length
      = min sink.beacon.length (Beacon.numMarkers sink.beaconInterval) ∧
    (1 ≤ Beacon.numMarkers sink.beaconInterval →
      1 ≤ ((selectMarkers sink.beacon sink.beaconCount
        (Beacon.numMarkers sink.beaconInterval)).map markerOf).length) := by
  have hlen : 0 < sink.beacon.length := List.length_pos.mpr hne
  obtain ⟨hf, _, _, _, _, _, _⟩ := MessageSink.writeBeaconAt_ok h
  refine ⟨fun k f dflt l => btreeUpdate_ne_nil k f dflt l, hlen, hf, ?_, ?_⟩
  · rw [List.length_map, selectMarkers_length]
  · intro h1
    rw [List.length_map, selectMarkers_length]
    exact le_min_iff.mpr ⟨hlen, h1⟩

/-- **C10 witness**: a beacon written at `beacon_interval = 16` (capacity 2)
from a one-entry map carries exactly one marker. -/
theorem claim10_beacon_markers_witness :
    ((⟨⟨[0, 0, 16], 100⟩, 3, 16, [((1, 0), ⟨5, 6, ⟨7⟩⟩)], 0, 0⟩
      : MessageSink).beacon ≠ []) ∧
    (⟨⟨[0, 0, 16], 100⟩, 3, 16, [((1, 0), ⟨5, 6, ⟨7⟩⟩)], 0, 0⟩
        : MessageSink).writeBeaconAt 2
      = .ok ⟨⟨[0, 0, 16, 1, 1, 0, 5, 6, 7, 2], 100⟩, 10, 16,
          [((1, 0), ⟨5, 6, ⟨7⟩⟩)], 1, 0⟩ ∧
    ((∀ (k : Nat × Nat) (f : BeaconState → BeaconState) (dflt : BeaconState)
        (l : List ((Nat × Nat) × BeaconState)), btreeUpdate k f dflt l ≠ []) ∧
    0 < (⟨⟨[0, 0, 16], 100⟩, 3, 16, [((1, 0), ⟨5, 6, ⟨7⟩⟩)], 0, 0⟩
      : MessageSink).beacon.length ∧
    (⟨⟨[0, 0, 16, 1, 1, 0, 5, 6, 7, 2], 100⟩, 10, 16, [((1, 0), ⟨5, 6, ⟨7⟩⟩)], 1, 0⟩
        : MessageSink).file
      = (⟨⟨[0, 0, 16], 100⟩, 3, 16, [((1, 0), ⟨5, 6, ⟨7⟩⟩)], 0, 0⟩
        : MessageSink).file ++ (Beacon.mk 2 ((selectMarkers
          [((1, 0), ⟨5, 6, ⟨7⟩⟩)] 0 (Beacon.numMarkers 16)).map markerOf)).encode ∧
    ((selectMarkers [((1, 0), ⟨5, 6, ⟨7⟩⟩)] 0 (Beacon.numMarkers 16)).map
        markerOf).length
      = min ([((1, 0), ⟨5, 6, ⟨7⟩⟩)] : List ((Nat × Nat) × BeaconState)).length
          (Beacon.numMarkers 16) ∧
    (1 ≤ Beacon.numMarkers 16 →
      1 ≤ ((selectMarkers [((1, 0), ⟨5, 6, ⟨7⟩⟩)] 0 (Beacon.numMarkers 16)).map
        markerOf).length)) :=
  ⟨by decide, rfl,
    claim10_beacon_markers ⟨⟨[0, 0, 16], 100⟩, 3, 16, [((1, 0), ⟨5, 6, ⟨7⟩⟩)], 0, 0⟩
      ⟨⟨[0, 0, 16, 1, 1, 0, 5, 6, 7, 2], 100⟩, 10, 16, [((1, 0), ⟨5, 6, ⟨7⟩⟩)], 1, 0⟩
      2 (by decide) rfl⟩

/-- **C10 counterexample**: with `beacon_interval = 4` the marker capacity
`num_markers(4) = 0`, and the beacon written at a boundary carries zero
markers even though the map is nonempty — refuting "every beacon written
contains at least one marker". -/
theorem claim10_beacon_markers_counterexample :
    Beacon.numMarkers 4 = 0 ∧
    ((⟨⟨[0, 0, 4], 100⟩, 3, 4, [((1, 0), ⟨5, 6, ⟨7⟩⟩)], 0, 0⟩
      : MessageSink).beacon ≠ []) ∧
    (⟨⟨[0, 0, 4], 100⟩, 3, 4, [((1, 0), ⟨5, 6, ⟨7⟩⟩)], 0, 0⟩
        : MessageSink).writeBeaconAt 2
      = .ok ⟨⟨[0, 0, 4, 0, 2], 100⟩, 5, 4, [((1, 0), ⟨5, 6, ⟨7⟩⟩)], 0, 0⟩ ∧
    Beacon.decode ([0, 0, 4, 0, 2].drop 3) = some (⟨2, []⟩, []) ∧
    (⟨2, ([] : List Marker)⟩ : Beacon).items.length = 0 :=
  ⟨rfl, by decide, rfl, rfl, rfl⟩

end SeaStreamer
